import Mathlib

/-!
A verification development for a one-directional folder synchronizer
(`folder_sync.py`).  The filesystem is modelled as two trees (the source
root and the replica root, assumed to be disjoint locations on disk), a
path is a list of name components relative to a root, and the
synchronizer's state carries both trees, the per-path fingerprint cache
and the emitted log records.  All functions are executable and translated
clause by clause from the Python source; raised exceptions are modelled
as an error channel carrying the exception's description together with
the filesystem state at the moment of the raise (partial application of
a pass is possible and preserved).
-/

/-- A path relative to a root: the list of name components.  The mirrored
path of `p` under the other root is `p` itself (structural mirroring). -/
abbrev FsPath := List String

/-- Error descriptions carried by raised exceptions (the Python exception
class name; where several distinct `OSError` subclasses can arise on one
code path the name is a fixed representative, since `sync_folders` only
ever uses an exception as an opaque description to log). -/
abbrev Err := String

/-- A filesystem tree: a file with its byte content (bytes modelled as a
`String`), or a directory with an ordered list of named children.  The
list order stands for the (unspecified) order in which `os.scandir`
reports entries. -/
inductive Node where
  | file (content : String)
  | dir (entries : List (String × Node))

-- Total size of a tree, used only as a bound on walk recursion depth.
mutual
def Node.nsize : Node → Nat
  | .file _ => 1
  | .dir es => 1 + esize es
def esize : List (String × Node) → Nat
  | [] => 0
  | (_, n) :: rest => n.nsize + esize rest
end

/-- Size of an optional tree; a missing tree still weighs 1 so that the
walk bound strictly decreases on every visited path. -/
def wsize : Option Node → Nat
  | none => 1
  | some n => n.nsize

/-- First entry of a directory listing with the given name (names are
unique in a well-formed tree, see `Node.wfB`). -/
def lookupEntry : List (String × Node) → String → Option Node
  | [], _ => none
  | (k, v) :: rest, name => if k = name then some v else lookupEntry rest name

/-- Replace the first entry with the given name, or append a new one. -/
def setEntry : List (String × Node) → String → Node → List (String × Node)
  | [], name, n => [(name, n)]
  | (k, v) :: rest, name, n =>
      if k = name then (name, n) :: rest else (k, v) :: setEntry rest name n

/-- Drop the first entry with the given name. -/
def removeEntry : List (String × Node) → String → List (String × Node)
  | [], _ => []
  | (k, v) :: rest, name => if k = name then rest else (k, v) :: removeEntry rest name

/-- Resolve a path against a tree the way the OS resolves
`join(root, p)`: descending through a component that exists as a file
raises `ENOTDIR` (`NotADirectoryError`), a missing component resolves to
"no such node" (`ENOENT`). -/
def resolvePath : Option Node → FsPath → Except Err (Option Node)
  | t, [] => .ok t
  | some (.dir es), n :: rest => resolvePath (lookupEntry es n) rest
  | some (.file _), _ :: _ => .error "NotADirectoryError"
  | none, _ :: _ => .ok none

/-- The node at a path, with OS errors during resolution collapsed to
"no node" (this is how `os.path.exists` treats `ENOTDIR`). -/
def nodeAt (t : Option Node) (p : FsPath) : Option Node :=
  match resolvePath t p with
  | .ok r => r
  | .error _ => none

/-- `os.path.exists(join(root, p))`. -/
def pathExists (t : Option Node) (p : FsPath) : Bool :=
  (nodeAt t p).isSome

/-- The content of the file at a path, if a file is there. -/
def fileAt (t : Option Node) (p : FsPath) : Option String :=
  match nodeAt t p with
  | some (.file c) => some c
  | _ => none

/-- Whether a directory sits at a path. -/
def isDirAt (t : Option Node) (p : FsPath) : Bool :=
  match nodeAt t p with
  | some (.dir _) => true
  | _ => false

/-- `os.path.exists` applied to the path the Python code actually builds
with `os.path.join(root, os.path.relpath(walkroot, base))`: for the walk
root itself `relpath` yields `"."`, so the tested path is `root/.`, which
exists iff `root` is a directory.  For any deeper path it is the plain
existence test. -/
def dotExists (t : Option Node) (p : FsPath) : Bool :=
  match p with
  | [] => isDirAt t []
  | _ :: _ => pathExists t p

/-- A chain of fresh directories along the given path. -/
def mkChain : FsPath → Node
  | [] => .dir []
  | n :: rest => .dir [(n, mkChain rest)]

/-- `os.makedirs(join(root, p))` with `exist_ok=False`, applied to the
whole tree at `root`: creates every missing directory on the way, errors
if the leaf already exists or an existing component is a file.  (For the
`p = []` call the Python path is `root` or `root/.`; when the root exists
as a file the OS error class differs from the one modelled here, which is
immaterial because the description is only ever logged.) -/
def makedirs : Option Node → FsPath → Except Err Node
  | none, p => .ok (mkChain p)
  | some (.file _), [] => .error "FileExistsError"
  | some (.file _), _ :: _ => .error "NotADirectoryError"
  | some (.dir _), [] => .error "FileExistsError"
  | some (.dir es), n :: rest =>
      match makedirs (lookupEntry es n) rest with
      | .error e => .error e
      | .ok sub => .ok (.dir (setEntry es n sub))

/-- Write file content at a path (the destination half of
`shutil.copy2`): overwrites a file or creates a new one in an existing
parent directory; errors if the destination is a directory
(`IsADirectoryError`), a parent component is missing
(`FileNotFoundError`) or is a file (`NotADirectoryError`). -/
def writeFileAt : Option Node → FsPath → String → Except Err Node
  | some (.dir _), [], _ => .error "IsADirectoryError"
  | _, [], c => .ok (.file c)
  | some (.dir es), n :: rest, c =>
      match writeFileAt (lookupEntry es n) rest c with
      | .error e => .error e
      | .ok sub => .ok (.dir (setEntry es n sub))
  | some (.file _), _ :: _, _ => .error "NotADirectoryError"
  | none, _ :: _, _ => .error "FileNotFoundError"

/-- `shutil.copy2(join(source, p), join(replica, p))`: opens the source
file first (so a vanished source raises `FileNotFoundError`), then writes
its content at the mirrored replica path.  Metadata beyond content is not
modelled. -/
def copy2 (src rep : Option Node) (p : FsPath) : Except Err Node :=
  match resolvePath src p with
  | .error e => .error e
  | .ok none => .error "FileNotFoundError"
  | .ok (some (.dir _)) => .error "IsADirectoryError"
  | .ok (some (.file c)) => writeFileAt rep p c

/-- `os.remove(join(root, p))`: unlinks the file at `p`; errors on a
missing file (`FileNotFoundError`), on a directory (`IsADirectoryError`)
or on a bad parent component. -/
def removeFileAt : Option Node → FsPath → Except Err (Option Node)
  | some (.file _), [] => .ok none
  | some (.dir _), [] => .error "IsADirectoryError"
  | none, [] => .error "FileNotFoundError"
  | some (.dir es), n :: rest =>
      match removeFileAt (lookupEntry es n) rest with
      | .error e => .error e
      | .ok none => .ok (some (.dir (removeEntry es n)))
      | .ok (some sub) => .ok (some (.dir (setEntry es n sub)))
  | some (.file _), _ :: _ => .error "NotADirectoryError"
  | none, _ :: _ => .error "FileNotFoundError"

/-- `shutil.rmtree(join(root, p))`: removes the directory at `p` with its
whole subtree in one operation; errors on a file (`NotADirectoryError`)
or a missing path (`FileNotFoundError`). -/
def rmtreeAt : Option Node → FsPath → Except Err (Option Node)
  | some (.dir _), [] => .ok none
  | some (.file _), [] => .error "NotADirectoryError"
  | none, [] => .error "FileNotFoundError"
  | some (.dir es), n :: rest =>
      match rmtreeAt (lookupEntry es n) rest with
      | .error e => .error e
      | .ok none => .ok (some (.dir (removeEntry es n)))
      | .ok (some sub) => .ok (some (.dir (setEntry es n sub)))
  | some (.file _), _ :: _ => .error "NotADirectoryError"
  | none, _ :: _ => .error "FileNotFoundError"

/-- Names of the file children in a listing, in listing order (the
`files` component of one `os.walk` triple). -/
def fileNames (es : List (String × Node)) : List String :=
  es.filterMap (fun p => match p.2 with | .file _ => some p.1 | .dir _ => none)

/-- Names of the directory children in a listing, in listing order (the
`dirs` component of one `os.walk` triple). -/
def dirNames (es : List (String × Node)) : List String :=
  es.filterMap (fun p => match p.2 with | .dir _ => some p.1 | .file _ => none)

/-- Which root a cached path lies under: the Python cache is keyed by the
absolute path string, which always begins with either the source root or
the replica root. -/
inductive Side where
  | src
  | rep
deriving DecidableEq, Repr

/-- Key of the md5 cache: the absolute path, as root tag plus relative
path. -/
abbrev CacheKey := Side × FsPath

/-- The `self.md5_cache` dictionary, as an association list (most recent
insertion first). -/
abbrev Cache := List (CacheKey × String)

/-- Dictionary lookup in the cache. -/
def cLookup : Cache → CacheKey → Option String
  | [], _ => none
  | (k, d) :: rest, key => if k = key then some d else cLookup rest key

/-- The MD5 digest of a byte content.  `hashlib.md5` folds successive
4096-byte chunks of the file into a digest state, which makes the digest
a deterministic function of the full byte sequence; the spec declares two
files content-equal iff their fingerprints are equal, i.e. it treats the
digest as collision-free, so the embedding takes the digest to be the
byte content itself. -/
def md5Hex (c : String) : String := c

/-- One log record.  `log_operation` writes exactly one line per call;
the constructors are the five distinct f-string messages of
`folder_sync.py` keyed by the path they mention (the timestamp and the
constant message text are not modelled). -/
inductive LogMsg where
  | createdReplicaFolder : LogMsg
  | createdFolder : FsPath → LogMsg
  | copiedFile : FsPath → LogMsg
  | removedFolder : FsPath → LogMsg
  | removedFile : FsPath → LogMsg
  | errorDuringSync : Err → LogMsg
deriving DecidableEq, Repr

/-- The state of one `FolderSynchronizer` together with the filesystem it
acts on: the tree under the source root, the tree under the replica root
(`none` = the root path does not exist), `self.md5_cache`, and the log
records emitted so far. -/
structure SyncState where
  source : Option Node
  replica : Option Node
  md5_cache : Cache
  log : List LogMsg

/-- Result of a code fragment that can raise: either the final state, or
the description of the raised exception together with the state at the
moment of the raise (mutations already applied are kept). -/
inductive Res where
  | ok (st : SyncState)
  | err (e : Err) (st : SyncState)

/-- Sequencing in the error monad: an exception aborts the rest of the
pass. -/
def Res.bind : Res → (SyncState → Res) → Res
  | .ok st, f => f st
  | .err e st, _ => .err e st

/-- `calculate_md5` (lines 17-29): a cached digest is returned as is;
otherwise the file is read and digested — `FileNotFoundError` from
`open` is caught and yields `None` without touching the cache, any other
open error propagates, and a successful digest is stored under the path
before being returned. -/
def calculate_md5 (t : Option Node) (cache : Cache) (side : Side) (p : FsPath) :
    Except Err (Option String × Cache) :=
  match cLookup cache (side, p) with
  | some d => .ok (some d, cache)
  | none =>
    match resolvePath t p with
    | .error e => .error e
    | .ok none => .ok (none, cache)
    | .ok (some (.dir _)) => .error "IsADirectoryError"
    | .ok (some (.file c)) => .ok (some (md5Hex c), ((side, p), md5Hex c) :: cache)

/-- Lines 54-61, the body of the forward loop for one listed file name
`f` under walk root `rel`: copy the source file to the replica if the
replica file does not exist (short-circuit: no digest is computed) or if
the two digests differ. -/
def forwardFileStep (st : SyncState) (rel : FsPath) (f : String) : Res :=
  if pathExists st.replica (rel ++ [f]) then
    match calculate_md5 st.source st.md5_cache .src (rel ++ [f]) with
    | .error e => .err e st
    | .ok (d1, c1) =>
      match calculate_md5 st.replica c1 .rep (rel ++ [f]) with
      | .error e => .err e { st with md5_cache := c1 }
      | .ok (d2, c2) =>
        if d1 ≠ d2 then
          match copy2 st.source st.replica (rel ++ [f]) with
          | .error e => .err e { st with md5_cache := c2 }
          | .ok rep' =>
              .ok { st with replica := some rep', md5_cache := c2,
                            log := st.log ++ [LogMsg.copiedFile (rel ++ [f])] }
        else .ok { st with md5_cache := c2 }
  else
    match copy2 st.source st.replica (rel ++ [f]) with
    | .error e => .err e st
    | .ok rep' =>
        .ok { st with replica := some rep',
                      log := st.log ++ [LogMsg.copiedFile (rel ++ [f])] }

/-- The forward loop over the file names of one walk triple. -/
def forwardFiles (rel : FsPath) : List String → SyncState → Res
  | [], st => .ok st
  | f :: fs, st => Res.bind (forwardFileStep st rel f) (forwardFiles rel fs)

/-- Lines 46-61, the body executed for one directory `rel` yielded by
`os.walk(self.source)`: create the mirrored replica directory if the
joined path does not exist (for `rel = []` the joined path is
`replica/.`), then process the listed files. -/
def forwardDirStep (st : SyncState) (rel : FsPath) (files : List String) : Res :=
  Res.bind
    (if dotExists st.replica rel then .ok st
     else
       match makedirs st.replica rel with
       | .error e => .err e st
       | .ok rep' =>
           .ok { st with replica := some rep',
                         log := st.log ++ [LogMsg.createdFolder rel] })
    (forwardFiles rel files)

/-- Lines 72-78, the body of the reverse loop for one listed file name
`f` under walk root `rel`: remove the replica file if the mirrored source
path does not exist. -/
def reverseFileStep (st : SyncState) (rel : FsPath) (f : String) : Res :=
  if pathExists st.source (rel ++ [f]) then .ok st
  else
    match removeFileAt st.replica (rel ++ [f]) with
    | .error e => .err e st
    | .ok rep' =>
        .ok { st with replica := rep',
                      log := st.log ++ [LogMsg.removedFile (rel ++ [f])] }

/-- The reverse loop over the file names of one walk triple. -/
def reverseFiles (rel : FsPath) : List String → SyncState → Res
  | [], st => .ok st
  | f :: fs, st => Res.bind (reverseFileStep st rel f) (reverseFiles rel fs)

/-- Lines 64-78, the body executed for one directory `rel` yielded by
`os.walk(self.replica)`: remove the whole mirrored subtree if the joined
source path does not exist (for `rel = []` the joined path is
`source/.`), then — still — iterate over the files listed for `rel`. -/
def reverseDirStep (st : SyncState) (rel : FsPath) (files : List String) : Res :=
  Res.bind
    (if dotExists st.source rel then .ok st
     else
       match rmtreeAt st.replica rel with
       | .error e => .err e st
       | .ok rep' =>
           .ok { st with replica := rep',
                         log := st.log ++ [LogMsg.removedFolder rel] })
    (reverseFiles rel files)

/-- The forward half of `sync_folders` as a depth-first walk with an
explicit pending stack, exactly the traversal of top-down `os.walk`: pop
a path, list it at visit time, run the per-directory body, then visit its
subdirectories before the remaining pending paths.  A popped path that is
no longer a directory is skipped silently (`os.walk` passes the `scandir`
error to its `onerror` handler, which is `None`).  The fuel only bounds
the recursion and is chosen large enough to never run out (see
`fwdGo_ok_of_measure` below); the source tree is never mutated, so the
visit-time listing is the pass-start listing. -/
def fwdGo : Nat → List FsPath → SyncState → Res
  | 0, _, st => .err "walk bound exhausted" st
  | _ + 1, [], st => .ok st
  | fuel + 1, rel :: rest, st =>
    match nodeAt st.source rel with
    | some (.dir es) =>
      Res.bind (forwardDirStep st rel (fileNames es))
        (fwdGo fuel ((dirNames es).map (fun d => rel ++ [d]) ++ rest))
    | _ => fwdGo fuel rest st

/-- The reverse half of `sync_folders`, the same traversal over the
replica tree.  Here the listing of each directory is genuinely re-read
from the filesystem when the directory is visited, which is how `os.walk`
behaves while `shutil.rmtree` deletes subtrees under it: a subtree
removed before its visit resolves to nothing and is skipped. -/
def revGo : Nat → List FsPath → SyncState → Res
  | 0, _, st => .err "walk bound exhausted" st
  | _ + 1, [], st => .ok st
  | fuel + 1, rel :: rest, st =>
    match nodeAt st.replica rel with
    | some (.dir es) =>
      Res.bind (reverseDirStep st rel (fileNames es))
        (revGo fuel ((dirNames es).map (fun d => rel ++ [d]) ++ rest))
    | _ => revGo fuel rest st

/-- Lines 41-43: create the replica root if `os.path.exists(self.replica)`
fails, and log the creation. -/
def ensureReplica (st : SyncState) : Res :=
  if pathExists st.replica [] then .ok st
  else
    match makedirs st.replica [] with
    | .error e => .err e st
    | .ok rep' =>
        .ok { st with replica := some rep',
                      log := st.log ++ [LogMsg.createdReplicaFolder] }

/-- The whole `try` body of `sync_folders` (lines 40-78): ensure the
replica root, walk the source forward, then walk the replica in reverse.
The fuels are upper bounds on the number of walk steps, never reached. -/
def syncBody (st : SyncState) : Res :=
  Res.bind (ensureReplica st) (fun st1 =>
    Res.bind (fwdGo (wsize st1.source + 1) [[]] st1) (fun st2 =>
      revGo (wsize st2.replica + 1) [[]] st2))

/-- `sync_folders` (lines 37-80): the body under `try`, with any raised
exception caught by the single `except Exception` handler, which logs one
error record carrying the exception's description and returns normally. -/
def sync_folders (st : SyncState) : SyncState :=
  match syncBody st with
  | .ok st' => st'
  | .err e st' => { st' with log := st'.log ++ [LogMsg.errorDuringSync e] }

/-- `run` (lines 82-86), with the unbounded `while True` loop observed
for `n` iterations; `time.sleep` has no effect on the modelled state. -/
def run : Nat → SyncState → SyncState
  | 0, st => st
  | n + 1, st => run n (sync_folders st)

/-- Whether one call of `sync_folders` completes without entering its
error handler. -/
def syncOk (st : SyncState) : Bool :=
  match syncBody st with
  | .ok _ => true
  | .err _ _ => false

/-- Boolean membership in a list of names. -/
def memB (a : String) : List String → Bool
  | [] => false
  | b :: rest => a == b || memB a rest

-- Well-formedness of a tree: sibling names are unique at every level
-- (true of every real directory tree).
def namesNodupB : List String → Bool
  | [] => true
  | n :: rest => (!memB n rest) && namesNodupB rest

mutual
def Node.wfB : Node → Bool
  | .file _ => true
  | .dir es => namesNodupB (es.map Prod.fst) && entriesWfB es
def entriesWfB : List (String × Node) → Bool
  | [] => true
  | (_, n) :: rest => n.wfB && entriesWfB rest
end

/-- Well-formedness of an optional tree. -/
def optWfB : Option Node → Bool
  | none => true
  | some n => n.wfB

/-- A root path that is not occupied by a plain file (it is a directory
or absent) — the shape both configured roots have in any deployment the
spec describes as a "tree". -/
def rootNotFileB : Option Node → Bool
  | some (.file _) => false
  | _ => true

/-- `p` is an initial segment of `q`: the node at `q` lies inside the
subtree rooted at `p`. -/
def under : FsPath → FsPath → Bool
  | [], _ => true
  | _ :: _, [] => false
  | a :: p, b :: q => a == b && under p q

-- Log record classification, for ordering statements about a pass.
def isCreateMsg : LogMsg → Bool
  | .createdReplicaFolder => true
  | .createdFolder _ => true
  | _ => false

def isCopyMsg : LogMsg → Bool
  | .copiedFile _ => true
  | _ => false

def isRemoveMsg : LogMsg → Bool
  | .removedFolder _ => true
  | .removedFile _ => true
  | _ => false

def isErrorMsg : LogMsg → Bool
  | .errorDuringSync _ => true
  | _ => false

/-- The strict three-phase shape claimed for the applied actions of a
pass: all creations, then all copies, then all removals. -/
def threePhaseB (l : List LogMsg) : Bool :=
  l == l.filter isCreateMsg ++ l.filter isCopyMsg ++ l.filter isRemoveMsg

/-- No copy record of the pass overwrote a file already present in the
replica (such an overwrite leaves a stale digest in the cache). -/
def noOverwriteB (rep0 : Option Node) (l : List LogMsg) : Bool :=
  l.all (fun m =>
    match m with
    | .copiedFile p => (fileAt rep0 p).isNone
    | _ => true)

/-- What an observer sees at one path: a file with its content, a
directory, or nothing. -/
inductive NView where
  | vfile (c : String)
  | vdir
deriving DecidableEq, Repr

/-- The observation of a tree at a path. -/
def view (t : Option Node) (p : FsPath) : Option NView :=
  match nodeAt t p with
  | some (.file c) => some (.vfile c)
  | some (.dir _) => some .vdir
  | none => none

/-- The state carried by a result, whether the fragment completed or
raised. -/
def Res.state : Res → SyncState
  | .ok st => st
  | .err _ st => st

/-- The raised description of a result, if it raised. -/
def Res.errOf : Res → Option Err
  | .ok _ => none
  | .err e _ => some e

/-- Accuracy of the source half of the cache: a cached digest for a
source path is the digest of the file currently at that path (the source
never changes, so this is preserved through a pass). -/
def srcCacheOK (st : SyncState) : Prop :=
  ∀ p d, cLookup st.md5_cache (.src, p) = some d → fileAt st.source p = some d

/-- Accuracy of one replica cache key: if a digest is cached for this
replica path, the file currently there has exactly that digest. -/
def repKeyOK (st : SyncState) (p : FsPath) : Prop :=
  ∀ d, cLookup st.md5_cache (.rep, p) = some d → fileAt st.replica p = some d

/-- Total weight of a pending walk stack against a tree; each pop of the
walk strictly decreases it, so it bounds the number of walk steps. -/
def stackMeasure (t : Option Node) (stack : List FsPath) : Nat :=
  (stack.map (fun p => wsize (nodeAt t p))).sum

/-- Ordering discipline of the forward phase: once a file has been copied
into a directory, that directory's creation record can no longer appear. -/
def createBeforeCopy (l : List LogMsg) : Prop :=
  ∀ l1 p f l2, l = l1 ++ LogMsg.copiedFile (p ++ [f]) :: l2 →
    LogMsg.createdFolder p ∉ l2

/-- Shape of one code fragment's effect: the source tree is untouched
and the log only grows, by records satisfying `P` (this holds for the ok
and the err outcome alike). -/
def StepShape (st : SyncState) (r : Res) (P : LogMsg → Bool) : Prop :=
  r.state.source = st.source ∧
  ∃ ext, r.state.log = st.log ++ ext ∧ ∀ m ∈ ext, P m = true

/-! ## Lemmas about paths and tree lookups -/

theorem under_nil (q : FsPath) : under [] q = true := rfl

theorem under_append (p s : FsPath) : under p (p ++ s) = true := by
  induction p with
  | nil => rfl
  | cons a p ih => simp [under, ih]

theorem under_refl (p : FsPath) : under p p = true := by
  simpa using under_append p []

theorem under_iff (p q : FsPath) : under p q = true ↔ ∃ s, q = p ++ s := by
  constructor
  · intro h
    induction p generalizing q with
    | nil => exact ⟨q, rfl⟩
    | cons a p ih =>
      cases q with
      | nil => simp [under] at h
      | cons b q =>
        simp only [under, Bool.and_eq_true, beq_iff_eq] at h
        obtain ⟨rfl, h2⟩ := h
        obtain ⟨s, rfl⟩ := ih q h2
        exact ⟨s, rfl⟩
  · rintro ⟨s, rfl⟩
    exact under_append p s

theorem under_trans {p q r : FsPath} (h1 : under p q = true) (h2 : under q r = true) :
    under p r = true := by
  rw [under_iff] at h1 h2 ⊢
  obtain ⟨s, rfl⟩ := h1
  obtain ⟨s', rfl⟩ := h2
  exact ⟨s ++ s', List.append_assoc _ _ _⟩

theorem under_snoc_inj {p : FsPath} {a b : String} {s : List String}
    (h : p ++ [a] = (p ++ [b]) ++ s) : a = b ∧ s = [] := by
  rw [List.append_assoc] at h
  have h2 := List.append_cancel_left h
  cases s with
  | nil =>
    simp only [List.append_nil, List.cons.injEq] at h2
    exact ⟨h2.1, rfl⟩
  | cons x s =>
    rw [List.singleton_append] at h2
    simp only [List.cons.injEq] at h2
    exact absurd h2.2.symm (List.cons_ne_nil x s)

theorem under_antisymm {p q : FsPath} (h1 : under p q = true) (h2 : under q p = true) :
    p = q := by
  rw [under_iff] at h1 h2
  obtain ⟨s, rfl⟩ := h1
  obtain ⟨s', hs⟩ := h2
  have hl := congrArg List.length hs
  simp only [List.length_append] at hl
  have hs0 : s.length = 0 := by omega
  rw [List.length_eq_zero] at hs0
  simp [hs0]

theorem under_child {p q : FsPath} {d : String} (h : under (p ++ [d]) q = true) :
    under p q = true :=
  under_trans (by rw [under_iff]; exact ⟨[d], rfl⟩) h

theorem under_of_append_right {p q r : FsPath} (h : under p q = true) :
    under p (q ++ r) = true :=
  under_trans h (by rw [under_iff]; exact ⟨r, rfl⟩)

/-- Two different children of the same directory root disjoint subtrees. -/
theorem under_siblings {p : FsPath} {a b : String} {q : FsPath}
    (ha : under (p ++ [a]) q = true) (hb : under (p ++ [b]) q = true) : a = b := by
  rw [under_iff] at ha hb
  obtain ⟨s, rfl⟩ := ha
  obtain ⟨s', hs⟩ := hb
  rw [List.append_assoc, List.append_assoc] at hs
  have := List.append_cancel_left hs
  simp only [List.singleton_append, List.cons.injEq] at this
  exact this.1

theorem nodeAt_none (p : FsPath) : nodeAt none p = none := by
  cases p <;> rfl

theorem nodeAt_nil_path (t : Option Node) : nodeAt t [] = t := by
  match t with
  | none => rfl
  | some (.file _) => rfl
  | some (.dir _) => rfl

theorem nodeAt_file_cons (c : String) (a : String) (p : FsPath) :
    nodeAt (some (.file c)) (a :: p) = none := rfl

theorem nodeAt_dir_cons (es : List (String × Node)) (a : String) (p : FsPath) :
    nodeAt (some (.dir es)) (a :: p) = nodeAt (lookupEntry es a) p := rfl

theorem nodeAt_append (t : Option Node) (p q : FsPath) :
    nodeAt t (p ++ q) = nodeAt (nodeAt t p) q := by
  induction p generalizing t with
  | nil => simp [nodeAt_nil_path]
  | cons a p ih =>
    match t with
    | none => rw [nodeAt_none, nodeAt_none]; cases q <;> rfl
    | some (.file c) => rw [List.cons_append, nodeAt_file_cons, nodeAt_file_cons]; cases q <;> rfl
    | some (.dir es) => rw [List.cons_append, nodeAt_dir_cons, nodeAt_dir_cons, ih]

/-- A path strictly below a missing or file node resolves to nothing. -/
theorem nodeAt_under_none {t : Option Node} {p q : FsPath}
    (hp : nodeAt t p = none) (h : under p q = true) : nodeAt t q = none := by
  rw [under_iff] at h
  obtain ⟨s, rfl⟩ := h
  rw [nodeAt_append, hp, nodeAt_none]

theorem view_eq_none {t : Option Node} {p : FsPath} :
    view t p = none ↔ nodeAt t p = none := by
  unfold view
  cases h : nodeAt t p with
  | none => simp
  | some n => cases n <;> simp

theorem fileAt_eq_some {t : Option Node} {p : FsPath} {c : String} :
    fileAt t p = some c ↔ nodeAt t p = some (.file c) := by
  unfold fileAt
  cases h : nodeAt t p with
  | none => simp
  | some n => cases n <;> simp

theorem pathExists_iff {t : Option Node} {p : FsPath} :
    pathExists t p = true ↔ nodeAt t p ≠ none := by
  unfold pathExists
  cases h : nodeAt t p <;> simp

theorem isDirAt_iff {t : Option Node} {p : FsPath} :
    isDirAt t p = true ↔ ∃ es, nodeAt t p = some (.dir es) := by
  unfold isDirAt
  cases h : nodeAt t p with
  | none => simp
  | some n => cases n <;> simp

/-! ## Lemmas about entry lists and well-formedness -/

theorem memB_iff {a : String} {l : List String} : memB a l = true ↔ a ∈ l := by
  induction l with
  | nil => simp [memB]
  | cons b rest ih => simp [memB, ih]

theorem lookupEntry_setEntry_self (es : List (String × Node)) (n : String) (v : Node) :
    lookupEntry (setEntry es n v) n = some v := by
  induction es with
  | nil => simp [setEntry, lookupEntry]
  | cons e rest ih =>
    obtain ⟨k, w⟩ := e
    by_cases h : k = n
    · simp [setEntry, h, lookupEntry]
    · simp [setEntry, h, lookupEntry, ih]

theorem lookupEntry_setEntry_ne (es : List (String × Node)) (n : String) (v : Node)
    {m : String} (h : m ≠ n) : lookupEntry (setEntry es n v) m = lookupEntry es m := by
  have hnm : ¬ n = m := fun h' => h h'.symm
  induction es with
  | nil => simp [setEntry, lookupEntry, hnm]
  | cons e rest ih =>
    obtain ⟨k, w⟩ := e
    by_cases hk : k = n
    · subst hk
      simp [setEntry, lookupEntry, hnm]
    · simp only [setEntry, if_neg hk, lookupEntry]
      by_cases hm : k = m
      · simp [hm]
      · simp [hm, ih]

theorem lookupEntry_removeEntry_ne (es : List (String × Node)) (n : String)
    {m : String} (h : m ≠ n) : lookupEntry (removeEntry es n) m = lookupEntry es m := by
  have hnm : ¬ n = m := fun h' => h h'.symm
  induction es with
  | nil => simp [removeEntry]
  | cons e rest ih =>
    obtain ⟨k, w⟩ := e
    by_cases hk : k = n
    · subst hk
      simp [removeEntry, lookupEntry, hnm]
    · simp only [removeEntry, if_neg hk, lookupEntry]
      by_cases hm : k = m
      · simp [hm]
      · simp [hm, ih]

theorem lookupEntry_eq_none_of_not_memB (es : List (String × Node)) (m : String)
    (h : memB m (es.map Prod.fst) = false) : lookupEntry es m = none := by
  induction es with
  | nil => rfl
  | cons e rest ih =>
    obtain ⟨k, w⟩ := e
    simp only [List.map_cons, memB, Bool.or_eq_false_iff, beq_eq_false_iff_ne, ne_eq] at h
    have hkm : ¬ k = m := fun hk => h.1 hk.symm
    simp only [lookupEntry, if_neg hkm]
    exact ih h.2

theorem lookupEntry_removeEntry_self (es : List (String × Node)) (n : String)
    (hnd : namesNodupB (es.map Prod.fst) = true) :
    lookupEntry (removeEntry es n) n = none := by
  induction es with
  | nil => rfl
  | cons e rest ih =>
    obtain ⟨k, w⟩ := e
    simp only [List.map_cons, namesNodupB, Bool.and_eq_true, Bool.not_eq_true'] at hnd
    by_cases hk : k = n
    · subst hk
      simp only [removeEntry, if_pos rfl]
      exact lookupEntry_eq_none_of_not_memB rest k hnd.1
    · simp only [removeEntry, if_neg hk, lookupEntry, if_neg hk]
      exact ih hnd.2

theorem lookupEntry_removeEntry_self_ne {es : List (String × Node)} {n m : String}
    (hne : m ≠ n) : lookupEntry (removeEntry es n) m = lookupEntry es m :=
  lookupEntry_removeEntry_ne es n hne

theorem setEntry_map_fst_of_found (es : List (String × Node)) (n : String) (v : Node)
    (h : lookupEntry es n ≠ none) :
    (setEntry es n v).map Prod.fst = es.map Prod.fst := by
  induction es with
  | nil => simp [lookupEntry] at h
  | cons e rest ih =>
    obtain ⟨k, w⟩ := e
    by_cases hk : k = n
    · simp [setEntry, hk]
    · simp only [lookupEntry, if_neg hk] at h
      simp [setEntry, hk, ih h]

theorem setEntry_map_fst_of_missing (es : List (String × Node)) (n : String) (v : Node)
    (h : lookupEntry es n = none) :
    (setEntry es n v).map Prod.fst = es.map Prod.fst ++ [n] := by
  induction es with
  | nil => simp [setEntry]
  | cons e rest ih =>
    obtain ⟨k, w⟩ := e
    by_cases hk : k = n
    · simp [lookupEntry, hk] at h
    · simp only [lookupEntry, if_neg hk] at h
      simp [setEntry, hk, ih h]

theorem memB_append {a : String} {l l' : List String} :
    memB a (l ++ l') = (memB a l || memB a l') := by
  induction l with
  | nil => simp [memB]
  | cons b rest ih => simp [memB, ih, Bool.or_assoc]

theorem namesNodupB_append_singleton {l : List String} {n : String}
    (hl : namesNodupB l = true) (hn : memB n l = false) :
    namesNodupB (l ++ [n]) = true := by
  induction l with
  | nil => simp [namesNodupB, memB]
  | cons b rest ih =>
    simp only [namesNodupB, Bool.and_eq_true, Bool.not_eq_true'] at hl
    simp only [memB, Bool.or_eq_false_iff] at hn
    have hbn : (b == n) = false := by
      rw [beq_eq_false_iff_ne]
      intro h
      rw [beq_eq_false_iff_ne] at hn
      exact hn.1 h.symm
    have hmem : memB b (rest ++ [n]) = false := by
      rw [memB_append]
      simp [memB, hl.1, hbn]
    simp only [List.cons_append, namesNodupB, Bool.and_eq_true, Bool.not_eq_true']
    exact ⟨hmem, ih hl.2 hn.2⟩

theorem lookupEntry_none_iff_memB {es : List (String × Node)} {m : String} :
    lookupEntry es m = none ↔ memB m (es.map Prod.fst) = false := by
  constructor
  · intro h
    induction es with
    | nil => simp [memB]
    | cons e rest ih =>
      obtain ⟨k, w⟩ := e
      simp only [lookupEntry] at h
      by_cases hk : k = m
      · simp [hk] at h
      · rw [if_neg hk] at h
        simp only [List.map_cons, memB, Bool.or_eq_false_iff]
        refine ⟨?_, ih h⟩
        rw [beq_eq_false_iff_ne]
        exact fun hmk => hk hmk.symm
  · exact lookupEntry_eq_none_of_not_memB es m

theorem wfB_dir_iff {es : List (String × Node)} :
    Node.wfB (.dir es) = true ↔
      namesNodupB (es.map Prod.fst) = true ∧ entriesWfB es = true := by
  simp [Node.wfB]

theorem entriesWfB_lookup {es : List (String × Node)} {n : String} {v : Node}
    (h : entriesWfB es = true) (hl : lookupEntry es n = some v) : v.wfB = true := by
  induction es with
  | nil => simp [lookupEntry] at hl
  | cons e rest ih =>
    obtain ⟨k, w⟩ := e
    simp only [entriesWfB, Bool.and_eq_true] at h
    simp only [lookupEntry] at hl
    by_cases hk : k = n
    · rw [if_pos hk] at hl
      cases hl
      exact h.1
    · rw [if_neg hk] at hl
      exact ih h.2 hl

theorem entriesWfB_setEntry {es : List (String × Node)} {n : String} {v : Node}
    (h : entriesWfB es = true) (hv : v.wfB = true) :
    entriesWfB (setEntry es n v) = true := by
  induction es with
  | nil => simp [setEntry, entriesWfB, hv]
  | cons e rest ih =>
    obtain ⟨k, w⟩ := e
    simp only [entriesWfB, Bool.and_eq_true] at h
    by_cases hk : k = n
    · simp [setEntry, hk, entriesWfB, hv, h.2]
    · simp [setEntry, hk, entriesWfB, h.1, ih h.2]

theorem entriesWfB_removeEntry {es : List (String × Node)} {n : String}
    (h : entriesWfB es = true) : entriesWfB (removeEntry es n) = true := by
  induction es with
  | nil => simpa [removeEntry] using h
  | cons e rest ih =>
    obtain ⟨k, w⟩ := e
    simp only [entriesWfB, Bool.and_eq_true] at h
    by_cases hk : k = n
    · simp [removeEntry, hk, h.2]
    · simp [removeEntry, hk, entriesWfB, h.1, ih h.2]

theorem namesNodupB_setEntry {es : List (String × Node)} {n : String} {v : Node}
    (h : namesNodupB (es.map Prod.fst) = true) :
    namesNodupB ((setEntry es n v).map Prod.fst) = true := by
  cases hl : lookupEntry es n with
  | some w =>
    rw [setEntry_map_fst_of_found es n v (by simp [hl])]
    exact h
  | none =>
    rw [setEntry_map_fst_of_missing es n v hl]
    exact namesNodupB_append_singleton h (lookupEntry_none_iff_memB.mp hl)

theorem memB_removeEntry_le {es : List (String × Node)} {n a : String}
    (h : memB a ((removeEntry es n).map Prod.fst) = true) :
    memB a (es.map Prod.fst) = true := by
  induction es with
  | nil => simp [removeEntry, memB] at h
  | cons e rest ih =>
    obtain ⟨k, w⟩ := e
    by_cases hk : k = n
    · simp only [removeEntry, if_pos hk] at h
      simp [memB, h]
    · simp only [removeEntry, if_neg hk, List.map_cons, memB,
        Bool.or_eq_true] at h ⊢
      rcases h with h | h
      · exact Or.inl h
      · exact Or.inr (ih h)

theorem namesNodupB_removeEntry {es : List (String × Node)} {n : String}
    (h : namesNodupB (es.map Prod.fst) = true) :
    namesNodupB ((removeEntry es n).map Prod.fst) = true := by
  induction es with
  | nil => simpa [removeEntry] using h
  | cons e rest ih =>
    obtain ⟨k, w⟩ := e
    simp only [List.map_cons, namesNodupB, Bool.and_eq_true, Bool.not_eq_true'] at h
    by_cases hk : k = n
    · simp only [removeEntry, if_pos hk]
      exact h.2
    · simp only [removeEntry, if_neg hk, List.map_cons, namesNodupB,
        Bool.and_eq_true, Bool.not_eq_true']
      refine ⟨?_, ih h.2⟩
      cases hm : memB k ((removeEntry rest n).map Prod.fst) with
      | false => rfl
      | true => rw [memB_removeEntry_le hm] at h; exact absurd h.1 (by simp)

theorem wfB_dir_setEntry {es : List (String × Node)} {n : String} {v : Node}
    (h : Node.wfB (.dir es) = true) (hv : v.wfB = true) :
    Node.wfB (.dir (setEntry es n v)) = true := by
  rw [wfB_dir_iff] at h ⊢
  exact ⟨namesNodupB_setEntry h.1, entriesWfB_setEntry h.2 hv⟩

theorem wfB_dir_removeEntry {es : List (String × Node)} {n : String}
    (h : Node.wfB (.dir es) = true) :
    Node.wfB (.dir (removeEntry es n)) = true := by
  rw [wfB_dir_iff] at h ⊢
  exact ⟨namesNodupB_removeEntry h.1, entriesWfB_removeEntry h.2⟩

theorem mkChain_wf (p : FsPath) : (mkChain p).wfB = true := by
  induction p with
  | nil => simp [mkChain, Node.wfB, namesNodupB, entriesWfB]
  | cons a rest ih =>
    simp [mkChain, Node.wfB, namesNodupB, entriesWfB, memB, ih]

/-! ## View equations and characterizations of the filesystem operations -/

theorem view_none (q : FsPath) : view none q = none := by
  simp [view, nodeAt_none]

theorem view_nil_dir (es : List (String × Node)) : view (some (.dir es)) [] = some .vdir := rfl

theorem view_nil_file (c : String) : view (some (.file c)) [] = some (.vfile c) := rfl

theorem view_dir_cons (es : List (String × Node)) (m : String) (q : FsPath) :
    view (some (.dir es)) (m :: q) = view (lookupEntry es m) q := rfl

theorem view_file_cons (c : String) (m : String) (q : FsPath) :
    view (some (.file c)) (m :: q) = none := rfl

theorem view_nil (t : Option Node) :
    view t [] = match t with
      | none => none
      | some (.file c) => some (.vfile c)
      | some (.dir _) => some .vdir := by
  match t with
  | none => rfl
  | some (.file _) => rfl
  | some (.dir _) => rfl

theorem mkChain_view (p q : FsPath) :
    view (some (mkChain p)) q = if under q p = true then some .vdir else none := by
  induction p generalizing q with
  | nil =>
    cases q with
    | nil => rfl
    | cons a q' => simp [mkChain, view_dir_cons, lookupEntry, view_none, under]
  | cons n rest ih =>
    cases q with
    | nil => simp [mkChain, view_nil_dir, under]
    | cons m q' =>
      by_cases hm : m = n
      · subst hm
        simp [mkChain, view_dir_cons, lookupEntry, ih, under]
      · have hnm : ¬ n = m := fun h => hm h.symm
        simp [mkChain, view_dir_cons, lookupEntry, hnm, view_none, under,
          (beq_eq_false_iff_ne (a := m) (b := n)).mpr hm]

theorem makedirs_ok_view {t : Option Node} {p : FsPath} {n' : Node}
    (h : makedirs t p = .ok n') (q : FsPath) :
    view (some n') q =
      if under q p = true ∧ view t q = none then some .vdir else view t q := by
  induction p generalizing t n' q with
  | nil =>
    match t with
    | none =>
      simp only [makedirs, Except.ok.injEq] at h
      subst h
      cases q with
      | nil => simp [mkChain, view_nil_dir, view_none, under]
      | cons a q' => simp [mkChain, view_dir_cons, lookupEntry, view_none, under]
    | some (.file _) => simp [makedirs] at h
    | some (.dir _) => simp [makedirs] at h
  | cons n rest ih =>
    match t with
    | none =>
      simp only [makedirs, Except.ok.injEq] at h
      subst h
      rw [mkChain_view]
      simp [view_none]
    | some (.file _) => simp [makedirs] at h
    | some (.dir es) =>
      simp only [makedirs] at h
      cases hrec : makedirs (lookupEntry es n) rest with
      | error e => rw [hrec] at h; cases h
      | ok sub =>
        rw [hrec] at h
        simp only [Except.ok.injEq] at h
        subst h
        cases q with
        | nil => simp [view_nil_dir, under]
        | cons m q' =>
          by_cases hm : m = n
          · subst hm
            rw [view_dir_cons, lookupEntry_setEntry_self, ih hrec q', view_dir_cons]
            simp [under]
          · rw [view_dir_cons, lookupEntry_setEntry_ne es n sub hm, view_dir_cons]
            simp [under, (beq_eq_false_iff_ne (a := m) (b := n)).mpr hm]

theorem makedirs_ok_wf {t : Option Node} {p : FsPath} {n' : Node}
    (hwf : optWfB t = true) (h : makedirs t p = .ok n') : n'.wfB = true := by
  induction p generalizing t n' with
  | nil =>
    match t with
    | none =>
      simp only [makedirs, Except.ok.injEq] at h
      subst h
      exact mkChain_wf []
    | some (.file _) => simp [makedirs] at h
    | some (.dir _) => simp [makedirs] at h
  | cons n rest ih =>
    match t with
    | none =>
      simp only [makedirs, Except.ok.injEq] at h
      subst h
      exact mkChain_wf _
    | some (.file _) => simp [makedirs] at h
    | some (.dir es) =>
      simp only [makedirs] at h
      cases hrec : makedirs (lookupEntry es n) rest with
      | error e => rw [hrec] at h; cases h
      | ok sub =>
        rw [hrec] at h
        simp only [Except.ok.injEq] at h
        subst h
        have hsub : sub.wfB = true := by
          refine ih ?_ hrec
          cases hl : lookupEntry es n with
          | none => rfl
          | some v =>
            simp only [optWfB]
            exact entriesWfB_lookup ((wfB_dir_iff.mp hwf).2) hl
        exact wfB_dir_setEntry hwf hsub

theorem writeFileAt_ok_view {t : Option Node} {p : FsPath} {c : String} {n' : Node}
    (h : writeFileAt t p c = .ok n') (q : FsPath) :
    view (some n') q = if q = p then some (.vfile c) else view t q := by
  induction p generalizing t n' q with
  | nil =>
    match t with
    | none =>
      simp only [writeFileAt, Except.ok.injEq] at h
      subst h
      cases q with
      | nil => simp [view_nil_file]
      | cons a q' => simp [view_file_cons, view_none]
    | some (.file c0) =>
      simp only [writeFileAt, Except.ok.injEq] at h
      subst h
      cases q with
      | nil => simp [view_nil_file]
      | cons a q' => simp [view_file_cons]
    | some (.dir _) => simp [writeFileAt] at h
  | cons n rest ih =>
    match t with
    | none => simp [writeFileAt] at h
    | some (.file _) => simp [writeFileAt] at h
    | some (.dir es) =>
      simp only [writeFileAt] at h
      cases hrec : writeFileAt (lookupEntry es n) rest c with
      | error e => rw [hrec] at h; cases h
      | ok sub =>
        rw [hrec] at h
        simp only [Except.ok.injEq] at h
        subst h
        cases q with
        | nil => simp [view_nil_dir]
        | cons m q' =>
          by_cases hm : m = n
          · subst hm
            rw [view_dir_cons, lookupEntry_setEntry_self, ih hrec q', view_dir_cons]
            simp
          · rw [view_dir_cons, lookupEntry_setEntry_ne es n sub hm, view_dir_cons]
            simp [hm]

theorem writeFileAt_ok_wf {t : Option Node} {p : FsPath} {c : String} {n' : Node}
    (hwf : optWfB t = true) (h : writeFileAt t p c = .ok n') : n'.wfB = true := by
  induction p generalizing t n' with
  | nil =>
    match t with
    | none =>
      simp only [writeFileAt, Except.ok.injEq] at h
      subst h
      rfl
    | some (.file c0) =>
      simp only [writeFileAt, Except.ok.injEq] at h
      subst h
      rfl
    | some (.dir _) => simp [writeFileAt] at h
  | cons n rest ih =>
    match t with
    | none => simp [writeFileAt] at h
    | some (.file _) => simp [writeFileAt] at h
    | some (.dir es) =>
      simp only [writeFileAt] at h
      cases hrec : writeFileAt (lookupEntry es n) rest c with
      | error e => rw [hrec] at h; cases h
      | ok sub =>
        rw [hrec] at h
        simp only [Except.ok.injEq] at h
        subst h
        have hsub : sub.wfB = true := by
          refine ih ?_ hrec
          cases hl : lookupEntry es n with
          | none => rfl
          | some v =>
            simp only [optWfB]
            exact entriesWfB_lookup ((wfB_dir_iff.mp hwf).2) hl
        exact wfB_dir_setEntry hwf hsub

theorem view_vfile_iff {t : Option Node} {p : FsPath} {c : String} :
    view t p = some (.vfile c) ↔ fileAt t p = some c := by
  unfold view fileAt
  cases h : nodeAt t p with
  | none => simp
  | some n => cases n <;> simp

theorem view_vdir_iff {t : Option Node} {p : FsPath} :
    view t p = some .vdir ↔ isDirAt t p = true := by
  unfold view isDirAt
  cases h : nodeAt t p with
  | none => simp
  | some n => cases n <;> simp

theorem view_none_iff {t : Option Node} {p : FsPath} :
    view t p = none ↔ pathExists t p = false := by
  unfold view pathExists
  cases h : nodeAt t p with
  | none => simp
  | some n => cases n <;> simp

theorem view_isSome_iff {t : Option Node} {p : FsPath} :
    (view t p).isSome = true ↔ pathExists t p = true := by
  unfold view pathExists
  cases h : nodeAt t p with
  | none => simp
  | some n => cases n <;> simp

theorem nsize_pos (n : Node) : 1 ≤ n.nsize := by
  cases n with
  | file c => simp [Node.nsize]
  | dir es => simp [Node.nsize]

theorem wsize_pos (t : Option Node) : 1 ≤ wsize t := by
  cases t with
  | none => simp [wsize]
  | some n => simpa [wsize] using nsize_pos n

theorem esize_removeEntry_le (es : List (String × Node)) (n : String) :
    esize (removeEntry es n) ≤ esize es := by
  induction es with
  | nil => simp [removeEntry]
  | cons e rest ih =>
    obtain ⟨k, w⟩ := e
    by_cases hk : k = n
    · simp only [removeEntry, if_pos hk, esize]
      have := nsize_pos w
      omega
    · simp only [removeEntry, if_neg hk, esize]
      omega

theorem esize_setEntry_le {es : List (String × Node)} {n : String} {v w : Node}
    (hl : lookupEntry es n = some v) (hle : w.nsize ≤ v.nsize) :
    esize (setEntry es n w) ≤ esize es := by
  induction es with
  | nil => simp [lookupEntry] at hl
  | cons e rest ih =>
    obtain ⟨k, u⟩ := e
    simp only [lookupEntry] at hl
    by_cases hk : k = n
    · rw [if_pos hk] at hl
      cases hl
      simp only [setEntry, if_pos hk, esize]
      omega
    · rw [if_neg hk] at hl
      simp only [setEntry, if_neg hk, esize]
      have := ih hl
      omega

theorem removeFileAt_ok_view {t : Option Node} {p : FsPath} {r' : Option Node}
    (hwf : optWfB t = true) (h : removeFileAt t p = .ok r') (q : FsPath) :
    view r' q = if under p q = true then none else view t q := by
  induction p generalizing t r' q with
  | nil =>
    match t with
    | none => simp [removeFileAt] at h
    | some (.file c) =>
      simp only [removeFileAt, Except.ok.injEq] at h
      subst h
      simp [view_none, under_nil]
    | some (.dir _) => simp [removeFileAt] at h
  | cons n rest ih =>
    match t with
    | none => simp [removeFileAt] at h
    | some (.file _) => simp [removeFileAt] at h
    | some (.dir es) =>
      have hwfd := wfB_dir_iff.mp hwf
      have hsubwf : optWfB (lookupEntry es n) = true := by
        cases hl : lookupEntry es n with
        | none => rfl
        | some v => exact entriesWfB_lookup hwfd.2 hl
      simp only [removeFileAt] at h
      cases hrec : removeFileAt (lookupEntry es n) rest with
      | error e => rw [hrec] at h; cases h
      | ok subres =>
        rw [hrec] at h
        match subres, h with
        | none, h =>
          simp only [Except.ok.injEq] at h
          subst h
          cases q with
          | nil => simp [view_nil_dir, under]
          | cons m q' =>
            by_cases hm : m = n
            · subst hm
              rw [view_dir_cons, lookupEntry_removeEntry_self es m hwfd.1, view_none]
              have hrecv := ih hsubwf hrec q'
              rw [view_none] at hrecv
              by_cases hu : under rest q' = true
              · simp [under, hu]
              · rw [if_neg (by simp [under, hu])]
                rw [if_neg hu] at hrecv
                rw [view_dir_cons]
                exact hrecv
            · rw [view_dir_cons, lookupEntry_removeEntry_ne es n (fun hh => hm hh),
                view_dir_cons]
              simp [under, (beq_eq_false_iff_ne (a := n) (b := m)).mpr (fun hh => hm hh.symm)]
        | some sub, h =>
          simp only [Except.ok.injEq] at h
          subst h
          cases q with
          | nil => simp [view_nil_dir, under]
          | cons m q' =>
            by_cases hm : m = n
            · subst hm
              rw [view_dir_cons, lookupEntry_setEntry_self, ih hsubwf hrec q', view_dir_cons]
              simp [under]
            · rw [view_dir_cons, lookupEntry_setEntry_ne es n sub hm, view_dir_cons]
              simp [under, (beq_eq_false_iff_ne (a := n) (b := m)).mpr (fun hh => hm hh.symm)]

theorem rmtreeAt_ok_view {t : Option Node} {p : FsPath} {r' : Option Node}
    (hwf : optWfB t = true) (h : rmtreeAt t p = .ok r') (q : FsPath) :
    view r' q = if under p q = true then none else view t q := by
  induction p generalizing t r' q with
  | nil =>
    match t with
    | none => simp [rmtreeAt] at h
    | some (.file c) => simp [rmtreeAt] at h
    | some (.dir _) =>
      simp only [rmtreeAt, Except.ok.injEq] at h
      subst h
      simp [view_none, under_nil]
  | cons n rest ih =>
    match t with
    | none => simp [rmtreeAt] at h
    | some (.file _) => simp [rmtreeAt] at h
    | some (.dir es) =>
      have hwfd := wfB_dir_iff.mp hwf
      have hsubwf : optWfB (lookupEntry es n) = true := by
        cases hl : lookupEntry es n with
        | none => rfl
        | some v => exact entriesWfB_lookup hwfd.2 hl
      simp only [rmtreeAt] at h
      cases hrec : rmtreeAt (lookupEntry es n) rest with
      | error e => rw [hrec] at h; cases h
      | ok subres =>
        rw [hrec] at h
        match subres, h with
        | none, h =>
          simp only [Except.ok.injEq] at h
          subst h
          cases q with
          | nil => simp [view_nil_dir, under]
          | cons m q' =>
            by_cases hm : m = n
            · subst hm
              rw [view_dir_cons, lookupEntry_removeEntry_self es m hwfd.1, view_none]
              have hrecv := ih hsubwf hrec q'
              rw [view_none] at hrecv
              by_cases hu : under rest q' = true
              · simp [under, hu]
              · rw [if_neg (by simp [under, hu])]
                rw [if_neg hu] at hrecv
                rw [view_dir_cons]
                exact hrecv
            · rw [view_dir_cons, lookupEntry_removeEntry_ne es n (fun hh => hm hh),
                view_dir_cons]
              simp [under, (beq_eq_false_iff_ne (a := n) (b := m)).mpr (fun hh => hm hh.symm)]
        | some sub, h =>
          simp only [Except.ok.injEq] at h
          subst h
          cases q with
          | nil => simp [view_nil_dir, under]
          | cons m q' =>
            by_cases hm : m = n
            · subst hm
              rw [view_dir_cons, lookupEntry_setEntry_self, ih hsubwf hrec q', view_dir_cons]
              simp [under]
            · rw [view_dir_cons, lookupEntry_setEntry_ne es n sub hm, view_dir_cons]
              simp [under, (beq_eq_false_iff_ne (a := n) (b := m)).mpr (fun hh => hm hh.symm)]

theorem removeFileAt_ok_wf {t : Option Node} {p : FsPath} {r' : Option Node}
    (hwf : optWfB t = true) (h : removeFileAt t p = .ok r') : optWfB r' = true := by
  induction p generalizing t r' with
  | nil =>
    match t with
    | none => simp [removeFileAt] at h
    | some (.file c) =>
      simp only [removeFileAt, Except.ok.injEq] at h
      subst h
      rfl
    | some (.dir _) => simp [removeFileAt] at h
  | cons n rest ih =>
    match t with
    | none => simp [removeFileAt] at h
    | some (.file _) => simp [removeFileAt] at h
    | some (.dir es) =>
      have hwfd := wfB_dir_iff.mp hwf
      have hsubwf : optWfB (lookupEntry es n) = true := by
        cases hl : lookupEntry es n with
        | none => rfl
        | some v => exact entriesWfB_lookup hwfd.2 hl
      simp only [removeFileAt] at h
      cases hrec : removeFileAt (lookupEntry es n) rest with
      | error e => rw [hrec] at h; cases h
      | ok subres =>
        rw [hrec] at h
        match subres, h with
        | none, h =>
          simp only [Except.ok.injEq] at h
          subst h
          exact wfB_dir_removeEntry hwf
        | some sub, h =>
          simp only [Except.ok.injEq] at h
          subst h
          exact wfB_dir_setEntry hwf (ih hsubwf hrec)

theorem rmtreeAt_ok_wf {t : Option Node} {p : FsPath} {r' : Option Node}
    (hwf : optWfB t = true) (h : rmtreeAt t p = .ok r') : optWfB r' = true := by
  induction p generalizing t r' with
  | nil =>
    match t with
    | none => simp [rmtreeAt] at h
    | some (.file c) => simp [rmtreeAt] at h
    | some (.dir _) =>
      simp only [rmtreeAt, Except.ok.injEq] at h
      subst h
      rfl
  | cons n rest ih =>
    match t with
    | none => simp [rmtreeAt] at h
    | some (.file _) => simp [rmtreeAt] at h
    | some (.dir es) =>
      have hwfd := wfB_dir_iff.mp hwf
      have hsubwf : optWfB (lookupEntry es n) = true := by
        cases hl : lookupEntry es n with
        | none => rfl
        | some v => exact entriesWfB_lookup hwfd.2 hl
      simp only [rmtreeAt] at h
      cases hrec : rmtreeAt (lookupEntry es n) rest with
      | error e => rw [hrec] at h; cases h
      | ok subres =>
        rw [hrec] at h
        match subres, h with
        | none, h =>
          simp only [Except.ok.injEq] at h
          subst h
          exact wfB_dir_removeEntry hwf
        | some sub, h =>
          simp only [Except.ok.injEq] at h
          subst h
          exact wfB_dir_setEntry hwf (ih hsubwf hrec)

theorem removeFileAt_ok_size {t : Option Node} {p : FsPath} {r' : Option Node}
    (hwf : optWfB t = true) (h : removeFileAt t p = .ok r') (q : FsPath) :
    wsize (nodeAt r' q) ≤ wsize (nodeAt t q) := by
  induction p generalizing t r' q with
  | nil =>
    match t with
    | none => simp [removeFileAt] at h
    | some (.file c) =>
      simp only [removeFileAt, Except.ok.injEq] at h
      subst h
      rw [nodeAt_none]
      exact wsize_pos _
    | some (.dir _) => simp [removeFileAt] at h
  | cons n rest ih =>
    match t with
    | none => simp [removeFileAt] at h
    | some (.file _) => simp [removeFileAt] at h
    | some (.dir es) =>
      have hwfd := wfB_dir_iff.mp hwf
      have hsubwf : optWfB (lookupEntry es n) = true := by
        cases hl : lookupEntry es n with
        | none => rfl
        | some v => exact entriesWfB_lookup hwfd.2 hl
      simp only [removeFileAt] at h
      cases hrec : removeFileAt (lookupEntry es n) rest with
      | error e => rw [hrec] at h; cases h
      | ok subres =>
        rw [hrec] at h
        have hsub : ∀ q', wsize (nodeAt subres q') ≤ wsize (nodeAt (lookupEntry es n) q') :=
          ih hsubwf hrec
        match subres, h with
        | none, h =>
          simp only [Except.ok.injEq] at h
          subst h
          cases q with
          | nil =>
            simp only [nodeAt_nil_path, wsize, Node.nsize]
            have := esize_removeEntry_le es n
            omega
          | cons m q' =>
            by_cases hm : m = n
            · subst hm
              rw [nodeAt_dir_cons, lookupEntry_removeEntry_self es m hwfd.1, nodeAt_none]
              calc wsize none = 1 := rfl
                _ ≤ _ := wsize_pos _
            · rw [nodeAt_dir_cons, lookupEntry_removeEntry_ne es n (fun hh => hm hh),
                nodeAt_dir_cons]
        | some sub, h =>
          simp only [Except.ok.injEq] at h
          subst h
          cases q with
          | nil =>
            simp only [nodeAt_nil_path, wsize, Node.nsize]
            cases hl : lookupEntry es n with
            | none =>
              rw [hl] at hrec
              cases rest <;> simp [removeFileAt] at hrec
            | some v =>
              have hs := hsub []
              rw [nodeAt_nil_path, nodeAt_nil_path, hl] at hs
              simp only [wsize] at hs
              have := esize_setEntry_le (w := sub) hl hs
              omega
          | cons m q' =>
            by_cases hm : m = n
            · subst hm
              rw [nodeAt_dir_cons, lookupEntry_setEntry_self, nodeAt_dir_cons]
              exact hsub q'
            · rw [nodeAt_dir_cons, lookupEntry_setEntry_ne es n sub hm, nodeAt_dir_cons]

theorem rmtreeAt_ok_size {t : Option Node} {p : FsPath} {r' : Option Node}
    (hwf : optWfB t = true) (h : rmtreeAt t p = .ok r') (q : FsPath) :
    wsize (nodeAt r' q) ≤ wsize (nodeAt t q) := by
  induction p generalizing t r' q with
  | nil =>
    match t with
    | none => simp [rmtreeAt] at h
    | some (.file c) => simp [rmtreeAt] at h
    | some (.dir _) =>
      simp only [rmtreeAt, Except.ok.injEq] at h
      subst h
      rw [nodeAt_none]
      exact wsize_pos _
  | cons n rest ih =>
    match t with
    | none => simp [rmtreeAt] at h
    | some (.file _) => simp [rmtreeAt] at h
    | some (.dir es) =>
      have hwfd := wfB_dir_iff.mp hwf
      have hsubwf : optWfB (lookupEntry es n) = true := by
        cases hl : lookupEntry es n with
        | none => rfl
        | some v => exact entriesWfB_lookup hwfd.2 hl
      simp only [rmtreeAt] at h
      cases hrec : rmtreeAt (lookupEntry es n) rest with
      | error e => rw [hrec] at h; cases h
      | ok subres =>
        rw [hrec] at h
        have hsub : ∀ q', wsize (nodeAt subres q') ≤ wsize (nodeAt (lookupEntry es n) q') :=
          ih hsubwf hrec
        match subres, h with
        | none, h =>
          simp only [Except.ok.injEq] at h
          subst h
          cases q with
          | nil =>
            simp only [nodeAt_nil_path, wsize, Node.nsize]
            have := esize_removeEntry_le es n
            omega
          | cons m q' =>
            by_cases hm : m = n
            · subst hm
              rw [nodeAt_dir_cons, lookupEntry_removeEntry_self es m hwfd.1, nodeAt_none]
              calc wsize none = 1 := rfl
                _ ≤ _ := wsize_pos _
            · rw [nodeAt_dir_cons, lookupEntry_removeEntry_ne es n (fun hh => hm hh),
                nodeAt_dir_cons]
        | some sub, h =>
          simp only [Except.ok.injEq] at h
          subst h
          cases q with
          | nil =>
            simp only [nodeAt_nil_path, wsize, Node.nsize]
            cases hl : lookupEntry es n with
            | none =>
              rw [hl] at hrec
              cases rest <;> simp [rmtreeAt] at hrec
            | some v =>
              have hs := hsub []
              rw [nodeAt_nil_path, nodeAt_nil_path, hl] at hs
              simp only [wsize] at hs
              have := esize_setEntry_le (w := sub) hl hs
              omega
          | cons m q' =>
            by_cases hm : m = n
            · subst hm
              rw [nodeAt_dir_cons, lookupEntry_setEntry_self, nodeAt_dir_cons]
              exact hsub q'
            · rw [nodeAt_dir_cons, lookupEntry_setEntry_ne es n sub hm, nodeAt_dir_cons]

/-! ## Small supporting lemmas for the step functions -/

theorem resolvePath_eq_of_nodeAt_some {t : Option Node} {p : FsPath} {n : Node}
    (h : nodeAt t p = some n) : resolvePath t p = .ok (some n) := by
  unfold nodeAt at h
  cases hr : resolvePath t p with
  | error e => rw [hr] at h; cases h
  | ok r =>
    rw [hr] at h
    have h2 : r = some n := h
    rw [h2]

theorem pathExists_of_fileAt {t : Option Node} {p : FsPath} {c : String}
    (h : fileAt t p = some c) : pathExists t p = true := by
  rw [fileAt_eq_some] at h
  rw [pathExists_iff, h]
  simp

theorem nodeAt_eq_none_of_not_pathExists {t : Option Node} {p : FsPath}
    (h : pathExists t p = false) : nodeAt t p = none := by
  unfold pathExists at h
  cases hn : nodeAt t p with
  | none => rfl
  | some n => rw [hn] at h; simp at h

theorem writeFileAt_ok_of_parent_dir {t : Option Node} {rel : FsPath} {f : String}
    (c : String) (hdir : isDirAt t rel = true) (hne : pathExists t (rel ++ [f]) = false) :
    ∃ n', writeFileAt t (rel ++ [f]) c = .ok n' := by
  induction rel generalizing t with
  | nil =>
    rw [isDirAt_iff] at hdir
    obtain ⟨es, hes⟩ := hdir
    rw [nodeAt_nil_path] at hes
    subst hes
    have hlf : lookupEntry es f = none := by
      have := nodeAt_eq_none_of_not_pathExists hne
      rw [List.nil_append, nodeAt_dir_cons, nodeAt_nil_path] at this
      exact this
    refine ⟨.dir (setEntry es f (.file c)), ?_⟩
    simp [writeFileAt, hlf]
  | cons a rel' ih =>
    rw [isDirAt_iff] at hdir
    obtain ⟨es, hes⟩ := hdir
    match t with
    | none => rw [nodeAt_none] at hes; cases hes
    | some (.file c0) => rw [nodeAt_file_cons] at hes; cases hes
    | some (.dir es0) =>
      rw [nodeAt_dir_cons] at hes
      have hdir' : isDirAt (lookupEntry es0 a) rel' = true := by
        rw [isDirAt_iff]
        exact ⟨es, hes⟩
      have hne' : pathExists (lookupEntry es0 a) (rel' ++ [f]) = false := by
        unfold pathExists at hne ⊢
        rw [List.cons_append, nodeAt_dir_cons] at hne
        exact hne
      obtain ⟨sub, hsub⟩ := ih hdir' hne'
      refine ⟨.dir (setEntry es0 a sub), ?_⟩
      rw [List.cons_append]
      simp [writeFileAt, hsub]

/-! ## Claim C7 — `calculate_md5` on unopenable paths -/

/-- C7 (counterexample): the claim says `calculate_md5` returns `None`
rather than raising for every path whose file cannot be opened, but
opening a directory raises `IsADirectoryError`, which `calculate_md5`
does not catch (its handler only covers `FileNotFoundError`), so the
exception propagates instead of producing `None`. -/
theorem C7_counterexample :
    calculate_md5 (some (.dir [("d", .dir [])])) [] .src ["d"] =
      .error "IsADirectoryError" := rfl

/-- C7 (amended): `calculate_md5` returns the "no fingerprint" value
`none` — rather than raising — exactly when the file is missing
(`FileNotFoundError` from `open`), leaving the cache untouched; and
`none` is distinct from the digest of a zero-length file.  Open failures
of any other class (e.g. the path is a directory) propagate as
exceptions. -/
theorem C7_missing_file_yields_none (t : Option Node) (cache : Cache) (side : Side)
    (p : FsPath) (hc : cLookup cache (side, p) = none)
    (hm : resolvePath t p = .ok none) :
    calculate_md5 t cache side p = .ok (none, cache) ∧
    (none : Option String) ≠ some (md5Hex "") := by
  constructor
  · unfold calculate_md5
    rw [hc, hm]
  · simp

/-- C7 witness: the amended theorem applied to a concrete missing file. -/
theorem C7_missing_file_yields_none_witness :
    calculate_md5 (some (.dir [])) [] .src ["f"] = .ok (none, []) ∧
    (none : Option String) ≠ some (md5Hex "") :=
  C7_missing_file_yields_none (some (.dir [])) [] .src ["f"] rfl rfl

/-! ## Claim C8 — the cache discipline of `calculate_md5` -/

/-- C8: the cache lookup of `calculate_md5` returns the previously cached
fingerprint when one is present (without recomputing or touching the
cache); otherwise it computes the digest and stores it keyed by the path
only if the computation succeeded; a failed computation (missing file) is
not cached, so a later call on the same path — when the path has become
readable — computes and returns a fingerprint. -/
theorem C8_cache_discipline (t t' : Option Node) (cache : Cache) (side : Side) (p : FsPath) :
    (∀ d, cLookup cache (side, p) = some d →
        calculate_md5 t cache side p = .ok (some d, cache)) ∧
    (cLookup cache (side, p) = none →
      ∀ c, resolvePath t p = .ok (some (.file c)) →
        calculate_md5 t cache side p = .ok (some (md5Hex c), ((side, p), md5Hex c) :: cache) ∧
        cLookup (((side, p), md5Hex c) :: cache) (side, p) = some (md5Hex c)) ∧
    (cLookup cache (side, p) = none → resolvePath t p = .ok none →
      calculate_md5 t cache side p = .ok (none, cache) ∧
      (∀ c, resolvePath t' p = .ok (some (.file c)) →
        calculate_md5 t' cache side p = .ok (some (md5Hex c), ((side, p), md5Hex c) :: cache))) := by
  refine ⟨?_, ?_, ?_⟩
  · intro d hd
    unfold calculate_md5
    rw [hd]
  · intro hc c hr
    constructor
    · unfold calculate_md5
      rw [hc, hr]
    · simp [cLookup]
  · intro hc hr
    constructor
    · unfold calculate_md5
      rw [hc, hr]
    · intro c hr'
      unfold calculate_md5
      rw [hc, hr']

/-- C8 witness: the three cache behaviors at concrete inputs — a cache
hit, a successful computation that is stored, and an uncached miss that
succeeds once the file appears. -/
theorem C8_cache_discipline_witness :
    calculate_md5 (some (.dir [])) [((Side.src, ["f"]), "y")] .src ["f"] =
      .ok (some "y", [((Side.src, ["f"]), "y")]) ∧
    calculate_md5 (some (.dir [("f", .file "x")])) [] .src ["f"] =
      .ok (some "x", [((Side.src, ["f"]), "x")]) ∧
    calculate_md5 (some (.dir [])) [] .src ["f"] = .ok (none, []) ∧
    calculate_md5 (some (.dir [("f", .file "x")])) [] .src ["f"] =
      .ok (some "x", [((Side.src, ["f"]), "x")]) := by
  have h := C8_cache_discipline (some (.dir [])) (some (.dir [("f", .file "x")]))
    [((Side.src, ["f"]), "y")] .src ["f"]
  have h2 := C8_cache_discipline (some (.dir [("f", .file "x")])) none [] .src ["f"]
  have h3 := C8_cache_discipline (some (.dir [])) (some (.dir [("f", .file "x")])) [] .src ["f"]
  exact ⟨h.1 "y" rfl, (h2.2.1 rfl "x" rfl).1, (h3.2.2 rfl rfl).1, (h3.2.2 rfl rfl).2 "x" rfl⟩

/-! ## Claim C6 — files that vanish between listing and fingerprinting -/

/-- C6 (counterexample): for a listed source file that has vanished
before fingerprinting while its replica counterpart exists, the claim
says the file is "simply not copied and the pass continues normally";
in the code the `None` digest compares unequal, `shutil.copy2` is
attempted on the vanished source and raises `FileNotFoundError`, which
aborts the pass.  The state below is the per-file loop body (lines
54-61) at walk root `[]` processing listed name `"f"`, with the source
tree no longer containing `f` and the replica containing it. -/
theorem C6_counterexample :
    Res.errOf (forwardFileStep ⟨some (.dir []), some (.dir [("f", .file "b")]), [], []⟩ [] "f") =
      some "FileNotFoundError" := rfl

/-- C6 (amended): a replica file that vanished before the existence
check is treated as needing a fresh copy (the copy happens and the pass
continues); a source file that vanished between listing and
fingerprinting yields the "no fingerprint" value, which compares unequal
to the replica's fingerprint, so the copy is attempted on the vanished
file and raises `FileNotFoundError` — the file is not copied, and the
pass aborts with an error record rather than continuing normally. -/
theorem C6_vanish_behavior :
    (∀ (st : SyncState) (rel : FsPath) (f : String) (c : String),
      fileAt st.source (rel ++ [f]) = some c →
      pathExists st.replica (rel ++ [f]) = false →
      isDirAt st.replica rel = true →
      ∃ rep', forwardFileStep st rel f =
          .ok { st with replica := some rep',
                        log := st.log ++ [LogMsg.copiedFile (rel ++ [f])] } ∧
        fileAt (some rep') (rel ++ [f]) = some c) ∧
    (∀ (st : SyncState) (rel : FsPath) (f : String) (c : String),
      cLookup st.md5_cache (.src, rel ++ [f]) = none →
      resolvePath st.source (rel ++ [f]) = .ok none →
      fileAt st.replica (rel ++ [f]) = some c →
      ∃ st'', forwardFileStep st rel f = .err "FileNotFoundError" st'') := by
  constructor
  · intro st rel f c hsrc hne hdir
    obtain ⟨rep', hw⟩ := writeFileAt_ok_of_parent_dir c hdir hne
    have hred : copy2 st.source st.replica (rel ++ [f]) =
        writeFileAt st.replica (rel ++ [f]) c := by
      unfold copy2
      rw [resolvePath_eq_of_nodeAt_some (fileAt_eq_some.mp hsrc)]
    refine ⟨rep', ?_, ?_⟩
    · simp only [forwardFileStep, hne, Bool.false_eq_true, if_false, hred, hw]
    · rw [← view_vfile_iff, writeFileAt_ok_view hw]
      simp
  · intro st rel f c hcache hgone hrep
    have h1 : calculate_md5 st.source st.md5_cache .src (rel ++ [f]) = .ok (none, st.md5_cache) := by
      unfold calculate_md5
      rw [hcache, hgone]
    have h2 : ∃ d cc, calculate_md5 st.replica st.md5_cache .rep (rel ++ [f]) = .ok (some d, cc) := by
      unfold calculate_md5
      cases hrc : cLookup st.md5_cache (.rep, rel ++ [f]) with
      | some d => exact ⟨d, st.md5_cache, rfl⟩
      | none =>
        rw [resolvePath_eq_of_nodeAt_some (fileAt_eq_some.mp hrep)]
        exact ⟨md5Hex c, _, rfl⟩
    obtain ⟨d, cc, h2⟩ := h2
    have hcp : copy2 st.source st.replica (rel ++ [f]) = .error "FileNotFoundError" := by
      unfold copy2
      rw [hgone]
    refine ⟨{ st with md5_cache := cc }, ?_⟩
    simp only [forwardFileStep, pathExists_of_fileAt hrep, if_true, h1, h2, hcp]
    simp

/-- C6 witness: both halves of the amended claim at concrete inputs — a
replica file missing while the source has it (fresh copy), and a source
file vanished while the replica has it (raise). -/
theorem C6_vanish_behavior_witness :
    (∃ rep', forwardFileStep ⟨some (.dir [("f", .file "a")]), some (.dir []), [], []⟩ [] "f" =
        .ok { source := some (.dir [("f", .file "a")]), replica := some rep',
              md5_cache := [], log := [LogMsg.copiedFile ["f"]] } ∧
      fileAt (some rep') ["f"] = some "a") ∧
    (∃ st'', forwardFileStep ⟨some (.dir []), some (.dir [("f", .file "b")]), [], []⟩ [] "f" =
        .err "FileNotFoundError" st'') := by
  constructor
  · exact (C6_vanish_behavior.1 ⟨some (.dir [("f", .file "a")]), some (.dir []), [], []⟩
      [] "f" "a" rfl rfl rfl)
  · exact (C6_vanish_behavior.2 ⟨some (.dir []), some (.dir [("f", .file "b")]), [], []⟩
      [] "f" "b" rfl rfl rfl)

/-! ## Claim C5 — removal of a replica directory with nested files -/

/-- C5: after `shutil.rmtree` removes a replica directory whose mirrored
source path is absent, the pass still iterates that directory's listed
files and calls `os.remove` on the already-deleted entries; the first
such call raises `FileNotFoundError`, so the pass emits the one removal
record and then an error record, contrary to the claim's "does not
perform further operations on the removed subtree".  Here the replica
directory `d` (with direct file `d/f`) has no source mirror: the subtree
is removed and one removal record emitted, but the pass then aborts. -/
theorem C5_remove_dir_with_files_aborts :
    (sync_folders ⟨some (.dir []), some (.dir [("d", .dir [("f", .file "x")])]), [], []⟩).log =
      [LogMsg.removedFolder ["d"], LogMsg.errorDuringSync "FileNotFoundError"] ∧
    pathExists
      (sync_folders ⟨some (.dir []), some (.dir [("d", .dir [("f", .file "x")])]), [], []⟩).replica
      ["d"] = false ∧
    syncOk ⟨some (.dir []), some (.dir [("d", .dir [("f", .file "x")])]), [], []⟩ = false := by
  decide

/-! ## Claim C10 — missing source root -/

/-- C10 (counterexample): with the source root absent and the replica
root a directory that directly contains a file, the pass does remove the
whole replica tree and log one folder removal, but it then calls
`os.remove` on the already-deleted direct files and aborts with an error
record — contradicting the claim's "rather than reporting an error". -/
theorem C10_counterexample :
    (sync_folders ⟨none, some (.dir [("f", .file "x")]), [], []⟩).log =
      [LogMsg.removedFolder [], LogMsg.errorDuringSync "FileNotFoundError"] ∧
    (sync_folders ⟨none, some (.dir [("f", .file "x")]), [], []⟩).replica.isNone = true := by
  decide

/-! ## Claim C2 — idempotence of a second pass -/

/-- C2 (counterexample): updating an existing replica file leaves the
file's old digest in the cache (`calculate_md5` cached it just before
`shutil.copy2` overwrote the file), so an immediately following second
pass — with no intervening tree modification, since `sync_folders` is
the only actor — sees unequal cached digests and copies the same file
again, emitting a mutation log record.  The first pass completes without
entering the error handler, so the claim's premise holds. -/
theorem C2_counterexample :
    syncOk ⟨some (.dir [("f", .file "a")]), some (.dir [("f", .file "b")]), [], []⟩ = true ∧
    (sync_folders (sync_folders ⟨some (.dir [("f", .file "a")]), some (.dir [("f", .file "b")]), [], []⟩)).log =
      (sync_folders ⟨some (.dir [("f", .file "a")]), some (.dir [("f", .file "b")]), [], []⟩).log ++
        [LogMsg.copiedFile ["f"]] := by
  decide

/-! ## Claim C9 — ordering of applied actions -/

/-- C9 (counterexample): the forward pass interleaves directory
creations and file copies per walked directory, so with two source
directories each holding a file the log shows create-copy-create-copy —
not the claimed three phases (all creations, then all copies, then all
removals).  The first pass completes without error. -/
theorem C9_counterexample :
    (sync_folders ⟨some (.dir [("a", .dir [("f", .file "1")]), ("b", .dir [("g", .file "2")])]),
        none, [], []⟩).log =
      [LogMsg.createdReplicaFolder, LogMsg.createdFolder ["a"], LogMsg.copiedFile ["a", "f"],
       LogMsg.createdFolder ["b"], LogMsg.copiedFile ["b", "g"]] ∧
    threePhaseB
      (sync_folders ⟨some (.dir [("a", .dir [("f", .file "1")]), ("b", .dir [("g", .file "2")])]),
        none, [], []⟩).log = false := by
  decide

/-! ## Step shape: the source tree is never written, the log only grows -/

theorem stepShape_refl (st : SyncState) (P : LogMsg → Bool) : StepShape st (.ok st) P :=
  ⟨rfl, [], by simp [Res.state], by simp⟩

theorem stepShape_keep (st : SyncState) (r : Res) (P : LogMsg → Bool)
    (hsrc : r.state.source = st.source) (hlog : r.state.log = st.log) : StepShape st r P :=
  ⟨hsrc, [], by simp [hlog], by simp⟩

theorem stepShape_one (st : SyncState) (r : Res) (P : LogMsg → Bool) (m : LogMsg)
    (hsrc : r.state.source = st.source) (hlog : r.state.log = st.log ++ [m])
    (hm : P m = true) : StepShape st r P :=
  ⟨hsrc, [m], hlog, by simpa using hm⟩

theorem stepShape_bind {st : SyncState} {r : Res} {g : SyncState → Res} {P : LogMsg → Bool}
    (h1 : StepShape st r P) (h2 : ∀ st1, r = .ok st1 → StepShape st1 (g st1) P) :
    StepShape st (Res.bind r g) P := by
  cases r with
  | err e st1 => exact h1
  | ok st1 =>
    obtain ⟨hs1, ext1, hl1, hp1⟩ := h1
    obtain ⟨hs2, ext2, hl2, hp2⟩ := h2 st1 rfl
    refine ⟨by rw [Res.bind, hs2]; exact hs1, ext1 ++ ext2, ?_, ?_⟩
    · rw [Res.bind, hl2]
      simp only [Res.state] at hl1
      rw [hl1, List.append_assoc]
    · intro m hm
      rcases List.mem_append.mp hm with h | h
      · exact hp1 m h
      · exact hp2 m h

theorem stepShape_mono {st : SyncState} {r : Res} {P Q : LogMsg → Bool}
    (h : StepShape st r P) (hpq : ∀ m, P m = true → Q m = true) : StepShape st r Q := by
  obtain ⟨hs, ext, hl, hp⟩ := h
  exact ⟨hs, ext, hl, fun m hm => hpq m (hp m hm)⟩

theorem forwardFileStep_shape (st : SyncState) (rel : FsPath) (f : String) :
    StepShape st (forwardFileStep st rel f) isCopyMsg := by
  unfold forwardFileStep
  repeat' split
  all_goals
    first
      | exact stepShape_keep _ _ _ rfl rfl
      | exact stepShape_one _ _ _ _ rfl rfl rfl

theorem forwardFiles_shape (rel : FsPath) (fs : List String) (st : SyncState) :
    StepShape st (forwardFiles rel fs st) isCopyMsg := by
  induction fs generalizing st with
  | nil => exact stepShape_refl st _
  | cons f fs ih =>
    exact stepShape_bind (forwardFileStep_shape st rel f) (fun st1 _ => ih st1)

theorem forwardDirStep_shape (st : SyncState) (rel : FsPath) (files : List String) :
    StepShape st (forwardDirStep st rel files)
      (fun m => isCreateMsg m || isCopyMsg m) := by
  unfold forwardDirStep
  refine stepShape_bind ?_ (fun st1 _ => stepShape_mono (forwardFiles_shape rel files st1)
    (by intro m hm; simp [hm]))
  repeat' split
  all_goals
    first
      | exact stepShape_keep _ _ _ rfl rfl
      | exact stepShape_one _ _ _ _ rfl rfl rfl

theorem reverseFileStep_shape (st : SyncState) (rel : FsPath) (f : String) :
    StepShape st (reverseFileStep st rel f) isRemoveMsg := by
  unfold reverseFileStep
  repeat' split
  all_goals
    first
      | exact stepShape_keep _ _ _ rfl rfl
      | exact stepShape_one _ _ _ _ rfl rfl rfl

theorem reverseFiles_shape (rel : FsPath) (fs : List String) (st : SyncState) :
    StepShape st (reverseFiles rel fs st) isRemoveMsg := by
  induction fs generalizing st with
  | nil => exact stepShape_refl st _
  | cons f fs ih =>
    exact stepShape_bind (reverseFileStep_shape st rel f) (fun st1 _ => ih st1)

theorem reverseDirStep_shape (st : SyncState) (rel : FsPath) (files : List String) :
    StepShape st (reverseDirStep st rel files) isRemoveMsg := by
  unfold reverseDirStep
  refine stepShape_bind ?_ (fun st1 _ => reverseFiles_shape rel files st1)
  repeat' split
  all_goals
    first
      | exact stepShape_keep _ _ _ rfl rfl
      | exact stepShape_one _ _ _ _ rfl rfl rfl

theorem ensureReplica_shape (st : SyncState) :
    StepShape st (ensureReplica st) isCreateMsg := by
  unfold ensureReplica
  repeat' split
  all_goals
    first
      | exact stepShape_keep _ _ _ rfl rfl
      | exact stepShape_one _ _ _ _ rfl rfl rfl

theorem fwdGo_shape (fuel : Nat) (stack : List FsPath) (st : SyncState) :
    StepShape st (fwdGo fuel stack st) (fun m => isCreateMsg m || isCopyMsg m) := by
  induction fuel generalizing stack st with
  | zero => exact ⟨rfl, [], by simp [fwdGo, Res.state], by simp⟩
  | succ fuel ih =>
    cases stack with
    | nil => exact stepShape_refl st _
    | cons rel rest =>
      unfold fwdGo
      cases hn : nodeAt st.source rel with
      | none => exact ih rest st
      | some n =>
        cases n with
        | file c => exact ih rest st
        | dir es =>
          exact stepShape_bind (forwardDirStep_shape st rel (fileNames es))
            (fun st1 _ => ih _ st1)

theorem revGo_shape (fuel : Nat) (stack : List FsPath) (st : SyncState) :
    StepShape st (revGo fuel stack st) isRemoveMsg := by
  induction fuel generalizing stack st with
  | zero => exact ⟨rfl, [], by simp [revGo, Res.state], by simp⟩
  | succ fuel ih =>
    cases stack with
    | nil => exact stepShape_refl st _
    | cons rel rest =>
      unfold revGo
      cases hn : nodeAt st.replica rel with
      | none => exact ih rest st
      | some n =>
        cases n with
        | file c => exact ih rest st
        | dir es =>
          exact stepShape_bind (reverseDirStep_shape st rel (fileNames es))
            (fun st1 _ => ih _ st1)

theorem syncBody_shape (st : SyncState) :
    StepShape st (syncBody st) (fun m => !isErrorMsg m) := by
  unfold syncBody
  refine stepShape_bind (stepShape_mono (ensureReplica_shape st) ?_)
    (fun st1 _ => stepShape_bind (stepShape_mono (fwdGo_shape _ _ st1) ?_)
      (fun st2 _ => stepShape_mono (revGo_shape _ _ st2) ?_))
  · intro m hm
    cases m <;> simp_all [isCreateMsg, isErrorMsg]
  · intro m hm
    cases m <;> simp_all [isCreateMsg, isCopyMsg, isErrorMsg]
  · intro m hm
    cases m <;> simp_all [isRemoveMsg, isErrorMsg]

theorem sync_folders_source (st : SyncState) : (sync_folders st).source = st.source := by
  have h := (syncBody_shape st).1
  unfold sync_folders
  cases hb : syncBody st with
  | ok st' =>
    rw [hb] at h
    exact h
  | err e st' =>
    rw [hb] at h
    simpa [Res.state] using h

theorem run_source (n : Nat) (st : SyncState) : (run n st).source = st.source := by
  induction n generalizing st with
  | zero => rfl
  | succ n ih =>
    show (run n (sync_folders st)).source = st.source
    rw [ih (sync_folders st), sync_folders_source]

/-! ## Claim C3 — the source tree is never mutated -/

/-- C3: a pass of `sync_folders` — and any number of passes of `run` —
never creates, modifies or deletes anything under the source root: the
entire source tree is unchanged, path by path.  All filesystem mutations
of the pass are applied to the replica tree (the only other filesystem
component in the model; the mutation primitives of the pass are invoked
on replica paths only). -/
theorem C3_source_never_mutated (st : SyncState) :
    (sync_folders st).source = st.source ∧
    (∀ q, view (sync_folders st).source q = view st.source q) ∧
    (∀ n, (run n st).source = st.source) := by
  refine ⟨sync_folders_source st, ?_, fun n => run_source n st⟩
  intro q
  rw [sync_folders_source st]

/-! ## Claim C4 — exceptions are caught at the pass boundary -/

/-- C4: whatever the filesystem state, `sync_folders` returns normally
(it is a total function: every exception raised during the pass is
caught by its handler).  The log grows by records of the pass only; when
the body raised, the extension ends with exactly one error record
carrying the raised description and contains no other error records;
when the body completed, no error record is emitted.  Consequently the
loop in `run` always proceeds to the next cycle. -/
theorem C4_pass_failures_isolated (st : SyncState) :
    ∃ ext, (sync_folders st).log = st.log ++ ext ∧
      ((Res.errOf (syncBody st) = none ∧ ∀ m ∈ ext, isErrorMsg m = false) ∨
        (∃ e pre, Res.errOf (syncBody st) = some e ∧
          ext = pre ++ [LogMsg.errorDuringSync e] ∧ ∀ m ∈ pre, isErrorMsg m = false)) ∧
      (∀ n, run (n + 1) st = run n (sync_folders st)) := by
  obtain ⟨hs, ext, hl, hp⟩ := syncBody_shape st
  cases hb : syncBody st with
  | ok st' =>
    rw [hb] at hl
    simp only [Res.state] at hl
    refine ⟨ext, ?_, Or.inl ⟨rfl, fun m hm => by simpa using hp m hm⟩,
      fun n => rfl⟩
    unfold sync_folders
    rw [hb]
    exact hl
  | err e st' =>
    rw [hb] at hl
    simp only [Res.state] at hl
    refine ⟨ext ++ [LogMsg.errorDuringSync e], ?_,
      Or.inr ⟨e, ext, rfl, rfl, fun m hm => by simpa using hp m hm⟩,
      fun n => rfl⟩
    unfold sync_folders
    rw [hb]
    simp only []
    rw [hl, List.append_assoc]

/-! ## Listings of a well-formed directory -/

theorem namesNodupB_iff {l : List String} : namesNodupB l = true ↔ l.Nodup := by
  induction l with
  | nil => simp [namesNodupB]
  | cons n rest ih =>
    simp only [namesNodupB, Bool.and_eq_true, Bool.not_eq_true', List.nodup_cons]
    constructor
    · rintro ⟨h1, h2⟩
      refine ⟨fun hmem => ?_, ih.mp h2⟩
      rw [← memB_iff] at hmem
      rw [hmem] at h1
      cases h1
    · rintro ⟨h1, h2⟩
      refine ⟨?_, ih.mpr h2⟩
      cases hm : memB n rest with
      | false => rfl
      | true => exact absurd (memB_iff.mp hm) h1

theorem fileNames_sublist (es : List (String × Node)) :
    (fileNames es).Sublist (es.map Prod.fst) := by
  induction es with
  | nil => simp [fileNames]
  | cons e rest ih =>
    obtain ⟨k, v⟩ := e
    cases v with
    | file c => simpa [fileNames] using ih.cons₂ k
    | dir sub => simpa [fileNames] using ih.cons k

theorem dirNames_sublist (es : List (String × Node)) :
    (dirNames es).Sublist (es.map Prod.fst) := by
  induction es with
  | nil => simp [dirNames]
  | cons e rest ih =>
    obtain ⟨k, v⟩ := e
    cases v with
    | file c => simpa [dirNames] using ih.cons k
    | dir sub => simpa [dirNames] using ih.cons₂ k

theorem fileNames_nodup {es : List (String × Node)}
    (hwf : Node.wfB (.dir es) = true) : namesNodupB (fileNames es) = true := by
  rw [namesNodupB_iff]
  exact ((namesNodupB_iff.mp (wfB_dir_iff.mp hwf).1).sublist (fileNames_sublist es))

theorem dirNames_nodup {es : List (String × Node)}
    (hwf : Node.wfB (.dir es) = true) : namesNodupB (dirNames es) = true := by
  rw [namesNodupB_iff]
  exact ((namesNodupB_iff.mp (wfB_dir_iff.mp hwf).1).sublist (dirNames_sublist es))

theorem fileNames_lookup {es : List (String × Node)} {f : String}
    (hwf : Node.wfB (.dir es) = true) (hf : f ∈ fileNames es) :
    ∃ c, lookupEntry es f = some (.file c) := by
  induction es with
  | nil => simp [fileNames] at hf
  | cons e rest ih =>
    obtain ⟨k, v⟩ := e
    have hwf' := wfB_dir_iff.mp hwf
    simp only [List.map_cons, namesNodupB, Bool.and_eq_true, Bool.not_eq_true'] at hwf'
    have hrest : Node.wfB (.dir rest) = true := by
      rw [wfB_dir_iff]
      refine ⟨hwf'.1.2, ?_⟩
      have := hwf'.2
      simp only [entriesWfB, Bool.and_eq_true] at this
      exact this.2
    cases v with
    | file c =>
      simp only [fileNames, List.filterMap_cons] at hf
      simp only [List.mem_cons] at hf
      rcases hf with rfl | hf
      · exact ⟨c, by simp [lookupEntry]⟩
      · by_cases hk : k = f
        · subst hk
          have : k ∈ (rest.map Prod.fst) :=
            (fileNames_sublist rest).mem hf
          rw [← memB_iff] at this
          rw [this] at hwf'
          simp at hwf'
        · obtain ⟨c', hc'⟩ := ih hrest hf
          exact ⟨c', by simp [lookupEntry, hk, hc']⟩
    | dir sub =>
      simp only [fileNames, List.filterMap_cons] at hf
      by_cases hk : k = f
      · subst hk
        have : k ∈ (rest.map Prod.fst) :=
          (fileNames_sublist rest).mem hf
        rw [← memB_iff] at this
        rw [this] at hwf'
        simp at hwf'
      · obtain ⟨c', hc'⟩ := ih hrest hf
        exact ⟨c', by simp [lookupEntry, hk, hc']⟩

theorem dirNames_lookup {es : List (String × Node)} {d : String}
    (hwf : Node.wfB (.dir es) = true) (hd : d ∈ dirNames es) :
    ∃ sub, lookupEntry es d = some (.dir sub) := by
  induction es with
  | nil => simp [dirNames] at hd
  | cons e rest ih =>
    obtain ⟨k, v⟩ := e
    have hwf' := wfB_dir_iff.mp hwf
    simp only [List.map_cons, namesNodupB, Bool.and_eq_true, Bool.not_eq_true'] at hwf'
    have hrest : Node.wfB (.dir rest) = true := by
      rw [wfB_dir_iff]
      refine ⟨hwf'.1.2, ?_⟩
      have := hwf'.2
      simp only [entriesWfB, Bool.and_eq_true] at this
      exact this.2
    cases v with
    | dir sub =>
      simp only [dirNames, List.filterMap_cons] at hd
      simp only [List.mem_cons] at hd
      rcases hd with rfl | hd
      · exact ⟨sub, by simp [lookupEntry]⟩
      · by_cases hk : k = d
        · subst hk
          have : k ∈ (rest.map Prod.fst) :=
            (dirNames_sublist rest).mem hd
          rw [← memB_iff] at this
          rw [this] at hwf'
          simp at hwf'
        · obtain ⟨sub', hsub'⟩ := ih hrest hd
          exact ⟨sub', by simp [lookupEntry, hk, hsub']⟩
    | file c =>
      simp only [dirNames, List.filterMap_cons] at hd
      by_cases hk : k = d
      · subst hk
        have : k ∈ (rest.map Prod.fst) :=
          (dirNames_sublist rest).mem hd
        rw [← memB_iff] at this
        rw [this] at hwf'
        simp at hwf'
      · obtain ⟨sub', hsub'⟩ := ih hrest hd
        exact ⟨sub', by simp [lookupEntry, hk, hsub']⟩

theorem fileNames_dirNames_disjoint {es : List (String × Node)} {x : String}
    (hwf : Node.wfB (.dir es) = true) (hf : x ∈ fileNames es) (hd : x ∈ dirNames es) :
    False := by
  obtain ⟨c, hc⟩ := fileNames_lookup hwf hf
  obtain ⟨sub, hsub⟩ := dirNames_lookup hwf hd
  rw [hc] at hsub
  cases hsub

theorem wfB_nodeAt {t : Option Node} {p : FsPath} {n : Node}
    (hwf : optWfB t = true) (h : nodeAt t p = some n) : n.wfB = true := by
  induction p generalizing t with
  | nil =>
    rw [nodeAt_nil_path] at h
    subst h
    exact hwf
  | cons a p ih =>
    match t with
    | none => rw [nodeAt_none] at h; cases h
    | some (.file c) => rw [nodeAt_file_cons] at h; cases h
    | some (.dir es) =>
      rw [nodeAt_dir_cons] at h
      refine ih ?_ h
      cases hl : lookupEntry es a with
      | none => rfl
      | some v => exact entriesWfB_lookup (wfB_dir_iff.mp hwf).2 hl

/-! ## The forward per-file step, characterized -/

theorem cLookup_cons_self (cc : Cache) (k : CacheKey) (d : String) :
    cLookup ((k, d) :: cc) k = some d := by
  simp [cLookup]

theorem cLookup_cons_ne (cc : Cache) {k k' : CacheKey} (d : String) (h : k ≠ k') :
    cLookup ((k, d) :: cc) k' = cLookup cc k' := by
  simp [cLookup, h]

theorem calculate_md5_of_fileAt {t : Option Node} {cache : Cache} {side : Side}
    {p : FsPath} {c : String} (hf : fileAt t p = some c)
    (hacc : ∀ d, cLookup cache (side, p) = some d → fileAt t p = some d) :
    ∃ cc, calculate_md5 t cache side p = .ok (some c, cc) ∧
      (cc = cache ∨ cc = ((side, p), c) :: cache) := by
  unfold calculate_md5
  cases hl : cLookup cache (side, p) with
  | some d =>
    have := hacc d hl
    rw [hf] at this
    cases this
    exact ⟨cache, rfl, Or.inl rfl⟩
  | none =>
    rw [resolvePath_eq_of_nodeAt_some (fileAt_eq_some.mp hf)]
    exact ⟨((side, p), md5Hex c) :: cache, rfl, Or.inr rfl⟩

theorem calculate_md5_error_of_dir {t : Option Node} {cache : Cache} {side : Side}
    {p : FsPath} (hd : isDirAt t p = true) (hl : cLookup cache (side, p) = none) :
    calculate_md5 t cache side p = .error "IsADirectoryError" := by
  rw [isDirAt_iff] at hd
  obtain ⟨es, hes⟩ := hd
  unfold calculate_md5
  rw [hl, resolvePath_eq_of_nodeAt_some hes]

theorem isDirAt_eq_of_view_eq {t t' : Option Node} {q : FsPath}
    (h : view t q = view t' q) : isDirAt t q = isDirAt t' q := by
  unfold view at h
  unfold isDirAt
  cases h1 : nodeAt t q with
  | none =>
    cases h2 : nodeAt t' q with
    | none => rfl
    | some n => rw [h1, h2] at h; cases n <;> simp at h
  | some m =>
    cases h2 : nodeAt t' q with
    | none => rw [h1, h2] at h; cases m <;> simp at h
    | some n =>
      rw [h1, h2] at h
      cases m <;> cases n <;> simp_all

theorem forwardFileStep_ok_main {st st' : SyncState} {rel : FsPath} {f : String} {c : String}
    (hsrc : fileAt st.source (rel ++ [f]) = some c)
    (hsOK : srcCacheOK st)
    (hrOK : repKeyOK st (rel ++ [f]))
    (hok : forwardFileStep st rel f = .ok st') :
    st'.source = st.source ∧
    fileAt st'.replica (rel ++ [f]) = some c ∧
    (∀ q, q ≠ rel ++ [f] → view st'.replica q = view st.replica q) ∧
    srcCacheOK st' ∧
    (∀ p d, cLookup st'.md5_cache (.rep, p) = some d →
      cLookup st.md5_cache (.rep, p) = some d ∨
      (p = rel ++ [f] ∧
        (fileAt st'.replica p = some d ∨
          (LogMsg.copiedFile p ∈ st'.log ∧ fileAt st.replica p ≠ none)))) ∧
    (∀ m ∈ st.log, m ∈ st'.log) ∧
    (optWfB st.replica = true → optWfB st'.replica = true) ∧
    (∀ q, pathExists st.replica q = true → pathExists st'.replica q = true) ∧
    (∀ q, isDirAt st.replica q = true → isDirAt st'.replica q = true) := by
  by_cases hex : pathExists st.replica (rel ++ [f]) = true
  · -- the replica file exists: fingerprints are compared
    -- the source-side digest is the source content
    obtain ⟨c1, h1, hc1⟩ :=
      @calculate_md5_of_fileAt st.source st.md5_cache .src (rel ++ [f]) c hsrc
        (fun d hd => hsOK _ d hd)
    have hrOK1 : ∀ d, cLookup c1 (.rep, rel ++ [f]) = some d →
        fileAt st.replica (rel ++ [f]) = some d := by
      intro d hd
      refine hrOK d ?_
      rcases hc1 with rfl | rfl
      · exact hd
      · rwa [cLookup_cons_ne _ _ (by simp)] at hd
    -- the replica node is a file (a directory would make the digest raise)
    cases hv : view st.replica (rel ++ [f]) with
    | none =>
      rw [view_none_iff] at hv
      rw [hv] at hex
      cases hex
    | some nv =>
      cases nv with
      | vdir =>
        exfalso
        rw [view_vdir_iff] at hv
        have hl0 : cLookup c1 (.rep, rel ++ [f]) = none := by
          cases hl : cLookup c1 (.rep, rel ++ [f]) with
          | none => rfl
          | some d =>
            have := hrOK1 d hl
            unfold fileAt at this
            rw [isDirAt_iff] at hv
            obtain ⟨es, hes⟩ := hv
            rw [hes] at this
            cases this
        have h2 := @calculate_md5_error_of_dir st.replica c1 .rep (rel ++ [f]) hv hl0
        rw [forwardFileStep, hex, if_pos rfl] at hok
        simp only [h1] at hok
        simp only [h2] at hok
        cases hok
      | vfile c2 =>
        rw [view_vfile_iff] at hv
        obtain ⟨c2', h2, hc2⟩ :=
          @calculate_md5_of_fileAt st.replica c1 .rep (rel ++ [f]) c2 hv hrOK1
        rw [forwardFileStep, hex, if_pos rfl] at hok
        simp only [h1] at hok
        simp only [h2] at hok
        by_cases heq : c = c2
        · -- equal digests: no copy, only the cache may have grown
          subst heq
          rw [if_neg (by simp)] at hok
          cases hok
          refine ⟨rfl, hv, fun q hq => rfl, ?_, ?_, fun m hm => hm, fun h => h, fun q h => h,
            fun q h => h⟩
          · intro p d hd
            have : cLookup c1 (.src, p) = some d → fileAt st.source p = some d := by
              intro h'
              rcases hc1 with rfl | rfl
              · exact hsOK p d h'
              · by_cases hp : p = rel ++ [f]
                · subst hp
                  rw [cLookup_cons_self] at h'
                  cases h'
                  exact hsrc
                · rw [cLookup_cons_ne _ _ (fun hh => by cases hh; exact hp rfl)] at h'
                  exact hsOK p d h'
            rcases hc2 with rfl | rfl
            · exact this hd
            · rw [cLookup_cons_ne _ _ (by simp)] at hd
              exact this hd
          · intro p d hd
            rcases hc2 with rfl | rfl
            · -- rep side unchanged from c1; c1 differs from the cache only at a src key
              rcases hc1 with rfl | rfl
              · exact Or.inl hd
              · rw [cLookup_cons_ne _ _ (by simp)] at hd
                exact Or.inl hd
            · by_cases hp : p = rel ++ [f]
              · subst hp
                rw [cLookup_cons_self] at hd
                cases hd
                exact Or.inr ⟨rfl, Or.inl hv⟩
              · rw [cLookup_cons_ne _ _ (fun hh => by cases hh; exact hp rfl)] at hd
                rcases hc1 with rfl | rfl
                · exact Or.inl hd
                · rw [cLookup_cons_ne _ _ (by simp)] at hd
                  exact Or.inl hd
        · -- digests differ: the file is copied over
          rw [if_pos (by simpa using heq)] at hok
          cases hcp : copy2 st.source st.replica (rel ++ [f]) with
          | error e => rw [hcp] at hok; cases hok
          | ok rep' =>
            rw [hcp] at hok
            cases hok
            have hw : writeFileAt st.replica (rel ++ [f]) c = .ok rep' := by
              unfold copy2 at hcp
              rwa [resolvePath_eq_of_nodeAt_some (fileAt_eq_some.mp hsrc)] at hcp
            have hview := writeFileAt_ok_view hw
            refine ⟨rfl, ?_, ?_, ?_, ?_, ?_, ?_, ?_, ?_⟩
            · rw [← view_vfile_iff, hview]
              simp
            · intro q hq
              rw [hview q, if_neg hq]
            · intro p d hd
              have : cLookup c1 (.src, p) = some d → fileAt st.source p = some d := by
                intro h'
                rcases hc1 with rfl | rfl
                · exact hsOK p d h'
                · by_cases hp : p = rel ++ [f]
                  · subst hp
                    rw [cLookup_cons_self] at h'
                    cases h'
                    exact hsrc
                  · rw [cLookup_cons_ne _ _ (fun hh => by cases hh; exact hp rfl)] at h'
                    exact hsOK p d h'
              rcases hc2 with rfl | rfl
              · exact this hd
              · rw [cLookup_cons_ne _ _ (by simp)] at hd
                exact this hd
            · intro p d hd
              rcases hc2 with rfl | rfl
              · rcases hc1 with rfl | rfl
                · exact Or.inl hd
                · rw [cLookup_cons_ne _ _ (by simp)] at hd
                  exact Or.inl hd
              · by_cases hp : p = rel ++ [f]
                · subst hp
                  rw [cLookup_cons_self] at hd
                  cases hd
                  refine Or.inr ⟨rfl, Or.inr ⟨by simp, by rw [hv]; simp⟩⟩
                · rw [cLookup_cons_ne _ _ (fun hh => by cases hh; exact hp rfl)] at hd
                  rcases hc1 with rfl | rfl
                  · exact Or.inl hd
                  · rw [cLookup_cons_ne _ _ (by simp)] at hd
                    exact Or.inl hd
            · intro m hm
              simp [hm]
            · intro hwfR
              exact writeFileAt_ok_wf hwfR hw
            · intro q hq
              rw [pathExists_iff] at hq ⊢
              intro hnone
              rw [← view_eq_none, hview] at hnone
              by_cases hqe : q = rel ++ [f]
              · rw [if_pos hqe] at hnone
                cases hnone
              · rw [if_neg hqe, view_eq_none] at hnone
                exact hq hnone
            · intro q hq
              by_cases hqe : q = rel ++ [f]
              · subst hqe
                exfalso
                rw [isDirAt_iff] at hq
                obtain ⟨es0, hes0⟩ := hq
                rw [fileAt_eq_some] at hv
                rw [hv] at hes0
                cases hes0
              · rw [isDirAt_eq_of_view_eq ?_]
                · exact hq
                · rw [hview, if_neg hqe]
  · -- the replica file does not exist: fresh copy, no digests computed
    simp only [Bool.not_eq_true] at hex
    rw [forwardFileStep, hex] at hok
    simp only [Bool.false_eq_true, if_false] at hok
    cases hcp : copy2 st.source st.replica (rel ++ [f]) with
    | error e => rw [hcp] at hok; cases hok
    | ok rep' =>
      rw [hcp] at hok
      cases hok
      have hw : writeFileAt st.replica (rel ++ [f]) c = .ok rep' := by
        unfold copy2 at hcp
        rwa [resolvePath_eq_of_nodeAt_some (fileAt_eq_some.mp hsrc)] at hcp
      have hview := writeFileAt_ok_view hw
      refine ⟨rfl, ?_, ?_, ?_, ?_, ?_, ?_, ?_, ?_⟩
      · rw [← view_vfile_iff, hview]
        simp
      · intro q hq
        rw [hview q, if_neg hq]
      · exact fun p d hd => hsOK p d hd
      · exact fun p d hd => Or.inl hd
      · intro m hm
        simp [hm]
      · intro hwfR
        exact writeFileAt_ok_wf hwfR hw
      · intro q hq
        rw [pathExists_iff] at hq ⊢
        intro hnone
        rw [← view_eq_none, hview] at hnone
        by_cases hqe : q = rel ++ [f]
        · rw [if_pos hqe] at hnone
          cases hnone
        · rw [if_neg hqe, view_eq_none] at hnone
          exact hq hnone
      · intro q hq
        by_cases hqe : q = rel ++ [f]
        · subst hqe
          exfalso
          rw [isDirAt_iff] at hq
          obtain ⟨es0, hes0⟩ := hq
          unfold pathExists at hex
          rw [hes0] at hex
          simp at hex
        · rw [isDirAt_eq_of_view_eq ?_]
          · exact hq
          · rw [hview, if_neg hqe]

theorem fileAt_eq_of_view_eq {t t' : Option Node} {q : FsPath}
    (h : view t q = view t' q) : fileAt t q = fileAt t' q := by
  unfold view at h
  unfold fileAt
  cases h1 : nodeAt t q with
  | none =>
    cases h2 : nodeAt t' q with
    | none => rfl
    | some n => rw [h1, h2] at h; cases n <;> simp at h
  | some m =>
    cases h2 : nodeAt t' q with
    | none => rw [h1, h2] at h; cases m <;> simp at h
    | some n =>
      rw [h1, h2] at h
      cases m <;> cases n <;> simp_all

theorem pathExists_eq_of_view_eq {t t' : Option Node} {q : FsPath}
    (h : view t q = view t' q) : pathExists t q = pathExists t' q := by
  unfold view at h
  unfold pathExists
  cases h1 : nodeAt t q with
  | none =>
    cases h2 : nodeAt t' q with
    | none => rfl
    | some n => rw [h1, h2] at h; cases n <;> simp at h
  | some m =>
    cases h2 : nodeAt t' q with
    | none => rw [h1, h2] at h; cases m <;> simp at h
    | some n => rfl

theorem append_singleton_inj {rel : FsPath} {f g : String}
    (h : rel ++ [f] = rel ++ [g]) : f = g := by
  have := List.append_cancel_left h
  simpa using this

theorem forwardFiles_ok_main {rel : FsPath} {fs : List String} {st st' : SyncState}
    (hnd : namesNodupB fs = true)
    (hsrc : ∀ f ∈ fs, ∃ c, fileAt st.source (rel ++ [f]) = some c)
    (hsOK : srcCacheOK st)
    (hrep : ∀ f ∈ fs, repKeyOK st (rel ++ [f]))
    (hok : forwardFiles rel fs st = .ok st') :
    st'.source = st.source ∧
    (∀ f ∈ fs, ∀ c, fileAt st.source (rel ++ [f]) = some c →
        fileAt st'.replica (rel ++ [f]) = some c) ∧
    (∀ q, (∀ f ∈ fs, q ≠ rel ++ [f]) → view st'.replica q = view st.replica q) ∧
    srcCacheOK st' ∧
    (∀ p d, cLookup st'.md5_cache (.rep, p) = some d →
      cLookup st.md5_cache (.rep, p) = some d ∨
      ((∃ f ∈ fs, p = rel ++ [f]) ∧ (∃ c, fileAt st.source p = some c) ∧
        (fileAt st'.replica p = some d ∨
          (LogMsg.copiedFile p ∈ st'.log ∧ fileAt st.replica p ≠ none)))) ∧
    (∀ m ∈ st.log, m ∈ st'.log) ∧
    (optWfB st.replica = true → optWfB st'.replica = true) ∧
    (∀ q, pathExists st.replica q = true → pathExists st'.replica q = true) ∧
    (∀ q, isDirAt st.replica q = true → isDirAt st'.replica q = true) := by
  induction fs generalizing st with
  | nil =>
    simp only [forwardFiles] at hok
    cases hok
    exact ⟨rfl, by simp, fun q _ => rfl, hsOK, fun p d hd => Or.inl hd,
      fun m hm => hm, fun h => h, fun q h => h, fun q h => h⟩
  | cons f fs ih =>
    simp only [forwardFiles] at hok
    cases hstep : forwardFileStep st rel f with
    | err e st1 => rw [hstep] at hok; cases hok
    | ok st1 =>
      rw [hstep] at hok
      simp only [Res.bind] at hok
      obtain ⟨c, hc⟩ := hsrc f (by simp)
      obtain ⟨S1, S2, S3, S4, S5, S6, S7, S8, S9⟩ :=
        forwardFileStep_ok_main hc hsOK (hrep f (by simp)) hstep
      simp only [namesNodupB, Bool.and_eq_true, Bool.not_eq_true'] at hnd
      have hfnotin : f ∉ fs := fun hf => by rw [(memB_iff).mpr hf] at hnd; exact absurd hnd.1 (by simp)
      have hsrc' : ∀ g ∈ fs, ∃ c', fileAt st1.source (rel ++ [g]) = some c' := by
        intro g hg
        rw [S1]
        exact hsrc g (by simp [hg])
      have hrep' : ∀ g ∈ fs, repKeyOK st1 (rel ++ [g]) := by
        intro g hg d hd
        rcases S5 _ d hd with hold | ⟨heqp, _⟩
        · have hne : rel ++ [g] ≠ rel ++ [f] := by
            intro hh
            exact hfnotin (append_singleton_inj hh ▸ hg)
          have hv := S3 (rel ++ [g]) hne
          rw [fileAt_eq_of_view_eq hv]
          exact hrep g (by simp [hg]) d hold
        · exfalso
          exact hfnotin (append_singleton_inj heqp ▸ hg)
      obtain ⟨I1, I2, I3, I4, I5, I6, I7, I8, I9⟩ := ih hnd.2 hsrc' S4 hrep' hok
      have hffr : ∀ g ∈ fs, rel ++ [f] ≠ rel ++ [g] := by
        intro g hg hh
        exact hfnotin (append_singleton_inj hh ▸ hg)
      refine ⟨by rw [I1, S1], ?_, ?_, I4, ?_, ?_, ?_, ?_, ?_⟩
      · intro g hg c' hc'
        simp only [List.mem_cons] at hg
        rcases hg with rfl | hg
        · rw [hc] at hc'
          cases hc'
          rw [fileAt_eq_of_view_eq (I3 (rel ++ [g]) (hffr))]
          exact S2
        · rw [← S1] at hc'
          exact I2 g hg c' hc'
      · intro q hq
        rw [I3 q (fun g hg => hq g (by simp [hg])), S3 q (hq f (by simp))]
      · intro p d hd
        rcases I5 p d hd with hold | ⟨⟨g, hg, rfl⟩, hcs, hrest⟩
        · rcases S5 p d hold with holder | ⟨rfl, hx⟩
          · exact Or.inl holder
          · refine Or.inr ⟨⟨f, by simp, rfl⟩, ⟨c, hc⟩, ?_⟩
            rcases hx with hacc | ⟨hcp, hne⟩
            · exact Or.inl (by rw [fileAt_eq_of_view_eq (I3 _ hffr)]; exact hacc)
            · exact Or.inr ⟨I6 _ hcp, hne⟩
        · refine Or.inr ⟨⟨g, by simp [hg], rfl⟩, by rwa [S1] at hcs, ?_⟩
          rcases hrest with hacc | ⟨hcp, hne⟩
          · exact Or.inl hacc
          · refine Or.inr ⟨hcp, ?_⟩
            have hne2 : rel ++ [g] ≠ rel ++ [f] := fun hh =>
              hfnotin (append_singleton_inj hh ▸ hg)
            rwa [fileAt_eq_of_view_eq (S3 _ hne2)] at hne
      · intro m hm
        exact I6 m (S6 m hm)
      · intro hwf
        exact I7 (S7 hwf)
      · intro q hq
        exact I8 q (S8 q hq)
      · intro q hq
        exact I9 q (S9 q hq)

theorem makedirs_fileAt {t : Option Node} {p : FsPath} {n' : Node}
    (h : makedirs t p = .ok n') (q : FsPath) : fileAt (some n') q = fileAt t q := by
  have hv := makedirs_ok_view h q
  by_cases hc : under q p = true ∧ view t q = none
  · obtain ⟨hc1, hc2⟩ := hc
    rw [if_pos ⟨hc1, hc2⟩] at hv
    have h1 : fileAt (some n') q = none := by
      cases hf : fileAt (some n') q with
      | none => rfl
      | some c => rw [← view_vfile_iff] at hf; rw [hf] at hv; cases hv
    have h2 : fileAt t q = none := by
      cases hf : fileAt t q with
      | none => rfl
      | some c => rw [← view_vfile_iff] at hf; rw [hf] at hc2; cases hc2
    rw [h1, h2]
  · rw [if_neg hc] at hv
    exact fileAt_eq_of_view_eq hv

theorem makedirs_exists_mono {t : Option Node} {p : FsPath} {n' : Node}
    (h : makedirs t p = .ok n') (q : FsPath) (hq : pathExists t q = true) :
    pathExists (some n') q = true := by
  have hv := makedirs_ok_view h q
  rw [← view_isSome_iff] at hq ⊢
  by_cases hc : under q p = true ∧ view t q = none
  · rw [if_pos hc] at hv
    rw [hv]
    rfl
  · rw [if_neg hc] at hv
    rw [hv]
    exact hq

theorem makedirs_exists_target {t : Option Node} {p : FsPath} {n' : Node}
    (h : makedirs t p = .ok n') : pathExists (some n') p = true := by
  have hv := makedirs_ok_view h p
  rw [← view_isSome_iff]
  by_cases hc : under p p = true ∧ view t p = none
  · rw [if_pos hc] at hv
    rw [hv]
    rfl
  · rw [if_neg hc] at hv
    rw [hv]
    rw [not_and] at hc
    cases hve : view t p with
    | none => exact absurd hve (hc (under_refl p))
    | some v => rfl

theorem forwardDirStep_ok_main {st st' : SyncState} {rel : FsPath} {files : List String}
    (hnd : namesNodupB files = true)
    (hsrc : ∀ f ∈ files, ∃ c, fileAt st.source (rel ++ [f]) = some c)
    (hsOK : srcCacheOK st)
    (hrep : ∀ f ∈ files, repKeyOK st (rel ++ [f]))
    (hok : forwardDirStep st rel files = .ok st') :
    st'.source = st.source ∧
    (∀ f ∈ files, ∀ c, fileAt st.source (rel ++ [f]) = some c →
        fileAt st'.replica (rel ++ [f]) = some c) ∧
    (∀ q, (∀ f ∈ files, q ≠ rel ++ [f]) →
        view st'.replica q = view st.replica q ∨
        (view st.replica q = none ∧ view st'.replica q = some .vdir ∧ under q rel = true)) ∧
    pathExists st'.replica rel = true ∧
    srcCacheOK st' ∧
    (∀ p d, cLookup st'.md5_cache (.rep, p) = some d →
      cLookup st.md5_cache (.rep, p) = some d ∨
      ((∃ f ∈ files, p = rel ++ [f]) ∧ (∃ c, fileAt st.source p = some c) ∧
        (fileAt st'.replica p = some d ∨
          (LogMsg.copiedFile p ∈ st'.log ∧ fileAt st.replica p ≠ none)))) ∧
    (∀ m ∈ st.log, m ∈ st'.log) ∧
    (optWfB st.replica = true → optWfB st'.replica = true) ∧
    (∀ q, pathExists st.replica q = true → pathExists st'.replica q = true) ∧
    (∀ q, isDirAt st.replica q = true → isDirAt st'.replica q = true) := by
  unfold forwardDirStep at hok
  by_cases hde : dotExists st.replica rel = true
  · rw [if_pos hde] at hok
    simp only [Res.bind] at hok
    obtain ⟨L1, L2, L3, L4, L5, L6, L7, L8, L9⟩ := forwardFiles_ok_main hnd hsrc hsOK hrep hok
    have hrelex : pathExists st.replica rel = true := by
      unfold dotExists at hde
      cases rel with
      | nil =>
        rw [isDirAt_iff] at hde
        obtain ⟨es, hes⟩ := hde
        rw [pathExists_iff, hes]
        simp
      | cons a p => exact hde
    exact ⟨L1, L2, fun q hq => Or.inl (L3 q hq), L8 rel hrelex, L4, L5, L6, L7, L8, L9⟩
  · rw [if_neg hde] at hok
    cases hmk : makedirs st.replica rel with
    | error e =>
      rw [hmk] at hok
      simp only [Res.bind] at hok
      cases hok
    | ok rep1 =>
      rw [hmk] at hok
      simp only [Res.bind] at hok
      set st1 : SyncState :=
        { st with replica := some rep1, log := st.log ++ [LogMsg.createdFolder rel] } with hst1
      have hsrc1 : ∀ f ∈ files, ∃ c, fileAt st1.source (rel ++ [f]) = some c := hsrc
      have hrep1 : ∀ f ∈ files, repKeyOK st1 (rel ++ [f]) := by
        intro f hf d hd
        show fileAt (some rep1) (rel ++ [f]) = some d
        rw [makedirs_fileAt hmk]
        exact hrep f hf d hd
      obtain ⟨L1, L2, L3, L4, L5, L6, L7, L8, L9⟩ := forwardFiles_ok_main hnd hsrc1 hsOK hrep1 hok
      refine ⟨L1, L2, ?_, ?_, L4, ?_, ?_, ?_, ?_, ?_⟩
      · intro q hq
        have hfr := L3 q hq
        have hv := makedirs_ok_view hmk q
        by_cases hc : under q rel = true ∧ view st.replica q = none
        · right
          refine ⟨hc.2, ?_, hc.1⟩
          rw [hfr]
          show view (some rep1) q = some NView.vdir
          rw [hv, if_pos hc]
        · left
          rw [hfr]
          show view (some rep1) q = view st.replica q
          rw [hv, if_neg hc]
      · refine L8 rel ?_
        exact makedirs_exists_target hmk
      · intro p d hd
        rcases L5 p d hd with hold | ⟨hin, hcs, hrest⟩
        · exact Or.inl hold
        · refine Or.inr ⟨hin, hcs, ?_⟩
          rcases hrest with hacc | ⟨hcp, hne⟩
          · exact Or.inl hacc
          · refine Or.inr ⟨hcp, ?_⟩
            show fileAt st.replica p ≠ none
            rwa [← makedirs_fileAt hmk]
      · intro m hm
        refine L6 m ?_
        show m ∈ st.log ++ [LogMsg.createdFolder rel]
        simp [hm]
      · intro hwf
        refine L7 ?_
        show optWfB (some rep1) = true
        exact makedirs_ok_wf hwf hmk
      · intro q hq
        refine L8 q ?_
        exact makedirs_exists_mono hmk q hq
      · intro q hq
        refine L9 q ?_
        show isDirAt (some rep1) q = true
        have hv := makedirs_ok_view hmk q
        by_cases hc : under q rel = true ∧ view st.replica q = none
        · exfalso
          rw [isDirAt_iff] at hq
          obtain ⟨es, hes⟩ := hq
          have : view st.replica q = some NView.vdir := by
            unfold view
            rw [hes]
          rw [hc.2] at this
          cases this
        · rw [isDirAt_eq_of_view_eq ?_]
          · exact hq
          · rw [hv, if_neg hc]

theorem under_comparable {p q L : FsPath} (hp : under p L = true) (hq : under q L = true) :
    under p q = true ∨ under q p = true := by
  induction L generalizing p q with
  | nil =>
    cases p with
    | nil => exact Or.inl rfl
    | cons a p' => simp [under] at hp
  | cons c L' ih =>
    cases p with
    | nil => exact Or.inl rfl
    | cons a p' =>
      cases q with
      | nil => exact Or.inr rfl
      | cons b q' =>
        simp only [under, Bool.and_eq_true, beq_iff_eq] at hp hq ⊢
        obtain ⟨rfl, hp2⟩ := hp
        obtain ⟨rfl, hq2⟩ := hq
        rcases ih hp2 hq2 with h | h
        · exact Or.inl ⟨rfl, h⟩
        · exact Or.inr ⟨rfl, h⟩

theorem under_snoc {r rel : FsPath} {d : String} (h : under r (rel ++ [d]) = true) :
    under r rel = true ∨ r = rel ++ [d] := by
  rcases under_comparable h (under_append rel [d]) with h1 | h1
  · exact Or.inl h1
  · rw [under_iff] at h1
    obtain ⟨s2, rfl⟩ := h1
    rw [under_iff] at h
    obtain ⟨s3, hs⟩ := h
    rw [List.append_assoc] at hs
    have h2 := List.append_cancel_left hs
    cases s2 with
    | nil => exact Or.inl (by simpa using under_refl rel)
    | cons x s2' =>
      simp only [List.cons_append, List.cons.injEq] at h2
      obtain ⟨rfl, h3⟩ := h2
      have h4 := (List.append_eq_nil).mp h3.symm
      exact Or.inr (by rw [h4.1])

theorem fileNames_mem_of_lookup {es : List (String × Node)} {x : String} {c : String}
    (h : lookupEntry es x = some (.file c)) : x ∈ fileNames es := by
  induction es with
  | nil => simp [lookupEntry] at h
  | cons e rest ih =>
    obtain ⟨k, v⟩ := e
    simp only [lookupEntry] at h
    by_cases hk : k = x
    · rw [if_pos hk] at h
      cases h
      subst hk
      simp [fileNames, List.filterMap_cons]
    · rw [if_neg hk] at h
      cases v with
      | file c0 => simp only [fileNames, List.filterMap_cons, List.mem_cons]; exact Or.inr (ih h)
      | dir sub => simpa [fileNames, List.filterMap_cons] using ih h

theorem dirNames_mem_of_lookup {es : List (String × Node)} {x : String}
    {sub : List (String × Node)} (h : lookupEntry es x = some (.dir sub)) :
    x ∈ dirNames es := by
  induction es with
  | nil => simp [lookupEntry] at h
  | cons e rest ih =>
    obtain ⟨k, v⟩ := e
    simp only [lookupEntry] at h
    by_cases hk : k = x
    · rw [if_pos hk] at h
      cases h
      subst hk
      simp [dirNames, List.filterMap_cons]
    · rw [if_neg hk] at h
      cases v with
      | dir s0 => simp only [dirNames, List.filterMap_cons, List.mem_cons]; exact Or.inr (ih h)
      | file c0 => simpa [dirNames, List.filterMap_cons] using ih h

theorem under_snoc_ne {rel : FsPath} {d d' : String} (h : d ≠ d') :
    under (rel ++ [d]) (rel ++ [d']) = false := by
  cases hu : under (rel ++ [d]) (rel ++ [d']) with
  | false => rfl
  | true =>
    rw [under_iff] at hu
    obtain ⟨s, hs⟩ := hu
    exact absurd (under_snoc_inj hs).1.symm h

/-- Disjointness relation on pending walk paths. -/
theorem stack_disj_next {rel : FsPath} {es : List (String × Node)} {rest : List FsPath}
    (hwfd : Node.wfB (.dir es) = true)
    (hdisj : List.Pairwise (fun p q => under p q = false ∧ under q p = false) (rel :: rest)) :
    List.Pairwise (fun p q => under p q = false ∧ under q p = false)
      ((dirNames es).map (fun d => rel ++ [d]) ++ rest) := by
  rw [List.pairwise_cons] at hdisj
  obtain ⟨hhead, htail⟩ := hdisj
  rw [List.pairwise_append]
  refine ⟨?_, htail, ?_⟩
  · have hnd : (dirNames es).Nodup := namesNodupB_iff.mp (dirNames_nodup hwfd)
    refine List.Pairwise.map _ ?_ hnd
    intro a b hab
    exact ⟨under_snoc_ne hab, under_snoc_ne (Ne.symm hab)⟩
  · intro a ha b hb
    simp only [List.mem_map] at ha
    obtain ⟨d, hd, rfl⟩ := ha
    constructor
    · cases hu : under (rel ++ [d]) b with
      | false => rfl
      | true =>
        exact absurd (under_trans (under_append rel [d]) hu) (by rw [(hhead b hb).1]; simp)
    · cases hu : under b (rel ++ [d]) with
      | false => rfl
      | true =>
        rcases under_snoc hu with h1 | h1
        · exact absurd h1 (by rw [(hhead b hb).2]; simp)
        · subst h1
          exact absurd (under_append rel [d]) (by rw [(hhead _ hb).1]; simp)

theorem not_file_path_of_under_next
    {rel : FsPath} {es : List (String × Node)} {rest : List FsPath}
    (hwfd : Node.wfB (.dir es) = true)
    (hdisj : List.Pairwise (fun p q => under p q = false ∧ under q p = false) (rel :: rest))
    {pp q : FsPath}
    (hpp : pp ∈ (dirNames es).map (fun d => rel ++ [d]) ++ rest)
    (hq : under pp q = true) {f : String} (hf : f ∈ fileNames es) :
    q ≠ rel ++ [f] := by
  rintro rfl
  rw [List.pairwise_cons] at hdisj
  obtain ⟨hhead, htail⟩ := hdisj
  rcases List.mem_append.mp hpp with hch | hrest
  · simp only [List.mem_map] at hch
    obtain ⟨d, hd, rfl⟩ := hch
    rw [under_iff] at hq
    obtain ⟨s, hs⟩ := hq
    obtain ⟨rfl, -⟩ := under_snoc_inj hs
    exact fileNames_dirNames_disjoint hwfd hf hd
  · rcases under_snoc hq with h1 | h1
    · exact absurd h1 (by rw [(hhead pp hrest).2]; simp)
    · subst h1
      exact absurd (under_append rel [f]) (by rw [(hhead _ hrest).1]; simp)

theorem fwdGo_ok_main {fuel : Nat} {stack : List FsPath} {st st' : SyncState}
    (hwfS : optWfB st.source = true)
    (hsOK : srcCacheOK st)
    (hstack : ∀ p ∈ stack, nodeAt st.source p = none ∨ ∃ es, nodeAt st.source p = some (.dir es))
    (hdisj : List.Pairwise (fun p q => under p q = false ∧ under q p = false) stack)
    (hrep : ∀ p ∈ stack, ∀ q, under p q = true → repKeyOK st q)
    (hok : fwdGo fuel stack st = .ok st') :
    st'.source = st.source ∧
    (∀ p ∈ stack, ∀ q c, under p q = true → fileAt st.source q = some c →
        fileAt st'.replica q = some c) ∧
    (∀ q, (∀ p ∈ stack, under p q = false) →
        view st'.replica q = view st.replica q ∨
        (view st.replica q = none ∧ view st'.replica q = some .vdir)) ∧
    (∀ p ∈ stack, ∀ q, under p q = true → isDirAt st.source q = true →
        pathExists st'.replica q = true) ∧
    srcCacheOK st' ∧
    (∀ p d, cLookup st'.md5_cache (.rep, p) = some d →
      cLookup st.md5_cache (.rep, p) = some d ∨
      ((∃ pp ∈ stack, under pp p = true) ∧ (∃ c, fileAt st.source p = some c) ∧
        (fileAt st'.replica p = some d ∨
          (LogMsg.copiedFile p ∈ st'.log ∧ fileAt st.replica p ≠ none)))) ∧
    (∀ m ∈ st.log, m ∈ st'.log) ∧
    (optWfB st.replica = true → optWfB st'.replica = true) ∧
    (∀ q, pathExists st.replica q = true → pathExists st'.replica q = true) ∧
    (∀ q, isDirAt st.replica q = true → isDirAt st'.replica q = true) := by
  induction fuel generalizing stack st with
  | zero => simp [fwdGo] at hok
  | succ fuel ih =>
    cases stack with
    | nil =>
      simp only [fwdGo] at hok
      cases hok
      exact ⟨rfl, by simp, fun q _ => Or.inl rfl, by simp, hsOK,
        fun p d hd => Or.inl hd, fun m hm => hm, fun h => h, fun q h => h, fun q h => h⟩
    | cons rel rest =>
      have hdisj' : List.Pairwise (fun p q => under p q = false ∧ under q p = false) rest :=
        (List.pairwise_cons.mp hdisj).2
      rcases hstack rel (by simp) with hnone | ⟨es, hes⟩
      · -- the source has nothing at `rel`: the walk skips it
        rw [fwdGo, hnone] at hok
        have hstack' : ∀ p ∈ rest,
            nodeAt st.source p = none ∨ ∃ es, nodeAt st.source p = some (.dir es) :=
          fun p hp => hstack p (by simp [hp])
        have hrep' : ∀ p ∈ rest, ∀ q, under p q = true → repKeyOK st q :=
          fun p hp => hrep p (by simp [hp])
        obtain ⟨I1, I2, I3, I4, I5, I6, I7, I8, I9, I10⟩ := ih hwfS hsOK hstack' hdisj' hrep' hok
        refine ⟨I1, ?_, ?_, ?_, I5, ?_, I7, I8, I9, I10⟩
        · intro p hp q c hq hc
          simp only [List.mem_cons] at hp
          rcases hp with rfl | hp
          · exfalso
            rw [fileAt_eq_some] at hc
            rw [nodeAt_under_none hnone hq] at hc
            cases hc
          · exact I2 p hp q c hq hc
        · intro q hq
          exact I3 q (fun p hp => hq p (by simp [hp]))
        · intro p hp q hq hdq
          simp only [List.mem_cons] at hp
          rcases hp with rfl | hp
          · exfalso
            rw [isDirAt_iff] at hdq
            obtain ⟨es0, hes0⟩ := hdq
            rw [nodeAt_under_none hnone hq] at hes0
            cases hes0
          · exact I4 p hp q hq hdq
        · intro p d hd
          rcases I6 p d hd with hold | ⟨⟨pp, hpp, hu⟩, rest'⟩
          · exact Or.inl hold
          · exact Or.inr ⟨⟨pp, by simp [hpp], hu⟩, rest'⟩
      · -- the source has a directory at `rel`: its triple is processed
        have hwfd : Node.wfB (.dir es) = true := wfB_nodeAt hwfS hes
        rw [fwdGo, hes] at hok
        simp only [Res.bind] at hok
        cases hb : forwardDirStep st rel (fileNames es) with
        | err e st1 => rw [hb] at hok; cases hok
        | ok st1 =>
          rw [hb] at hok
          have hsrcf : ∀ f ∈ fileNames es, ∃ c, fileAt st.source (rel ++ [f]) = some c := by
            intro f hf
            obtain ⟨c, hc⟩ := fileNames_lookup hwfd hf
            refine ⟨c, ?_⟩
            rw [fileAt_eq_some, nodeAt_append, hes, nodeAt_dir_cons, hc, nodeAt_nil_path]
          obtain ⟨D1, D2, D3, D4, D5, D6, D7, D8, D9, D10⟩ :=
            forwardDirStep_ok_main (fileNames_nodup hwfd) hsrcf hsOK
              (fun f hf => hrep rel (by simp) (rel ++ [f]) (under_append rel [f])) hb
          -- the recursive call's stack and its invariants
          have hstack' : ∀ p ∈ (dirNames es).map (fun d => rel ++ [d]) ++ rest,
              nodeAt st1.source p = none ∨ ∃ es', nodeAt st1.source p = some (.dir es') := by
            intro p hp
            rw [D1]
            rcases List.mem_append.mp hp with hch | hrest
            · simp only [List.mem_map] at hch
              obtain ⟨d, hd, rfl⟩ := hch
              obtain ⟨sub, hsub⟩ := dirNames_lookup hwfd hd
              refine Or.inr ⟨sub, ?_⟩
              rw [nodeAt_append, hes, nodeAt_dir_cons, hsub, nodeAt_nil_path]
            · exact hstack p (by simp [hrest])
          have hdisj2 := stack_disj_next hwfd hdisj
          have hfa : ∀ pp ∈ (dirNames es).map (fun d => rel ++ [d]) ++ rest,
              ∀ q, under pp q = true → (∀ f ∈ fileNames es, q ≠ rel ++ [f]) :=
            fun pp hpp q hq f hf => not_file_path_of_under_next hwfd hdisj hpp hq hf
          have hrep' : ∀ p ∈ (dirNames es).map (fun d => rel ++ [d]) ++ rest,
              ∀ q, under p q = true → repKeyOK st1 q := by
            intro p hp q hq d hd
            have hqne := hfa p hp q hq
            rcases D6 q d hd with hold | ⟨⟨f, hf, rfl⟩, -, -⟩
            · have hacc : fileAt st.replica q = some d := by
                have hqrel : under rel q = true ∨ ∃ r ∈ rest, under r q = true := by
                  rcases List.mem_append.mp hp with hch | hrest
                  · simp only [List.mem_map] at hch
                    obtain ⟨dd, hdd, rfl⟩ := hch
                    exact Or.inl (under_trans (under_append rel [dd]) hq)
                  · exact Or.inr ⟨p, hrest, hq⟩
                rcases hqrel with h1 | ⟨r, hr, h1⟩
                · exact hrep rel (by simp) q h1 d hold
                · exact hrep r (by simp [hr]) q h1 d hold
              rcases D3 q hqne with hveq | ⟨hvnone, -, -⟩
              · rw [fileAt_eq_of_view_eq hveq]
                exact hacc
              · exfalso
                rw [← view_vfile_iff] at hacc
                rw [hacc] at hvnone
                cases hvnone
            · exact absurd rfl (hqne f hf)
          obtain ⟨I1, I2, I3, I4, I5, I6, I7, I8, I9, I10⟩ := ih
            (by rw [D1]; exact hwfS) D5 hstack' hdisj2 hrep' hok
          -- facts used repeatedly below
          have hD3I3 : ∀ q, (∀ f ∈ fileNames es, q ≠ rel ++ [f]) →
              (∀ p ∈ (dirNames es).map (fun d => rel ++ [d]) ++ rest, under p q = false) →
              view st'.replica q = view st.replica q ∨
              (view st.replica q = none ∧ view st'.replica q = some .vdir) := by
            intro q hqf hqp
            rcases I3 q hqp with hi | ⟨hino, hivd⟩
            · rcases D3 q hqf with hd0 | ⟨hdno, hdvd, -⟩
              · exact Or.inl (by rw [hi, hd0])
              · exact Or.inr ⟨hdno, by rw [hi]; exact hdvd⟩
            · rcases D3 q hqf with hd0 | ⟨hdno, hdvd, -⟩
              · exact Or.inr ⟨by rw [← hd0]; exact hino, hivd⟩
              · rw [hdvd] at hino
                cases hino
          refine ⟨by rw [I1, D1], ?_, ?_, ?_, I5, ?_, ?_, ?_, ?_, ?_⟩
          · -- every source file under the stack ends up equal in the replica
            intro p hp q c hq hc
            simp only [List.mem_cons] at hp
            rcases hp with heqp | hp
            · -- under the popped directory
              subst p
              rw [under_iff] at hq
              obtain ⟨s, rfl⟩ := hq
              rw [fileAt_eq_some, nodeAt_append, hes] at hc
              cases s with
              | nil => rw [nodeAt_nil_path] at hc; cases hc
              | cons x s' =>
                rw [nodeAt_dir_cons] at hc
                cases hl : lookupEntry es x with
                | none => rw [hl, nodeAt_none] at hc; cases hc
                | some n =>
                  rw [hl] at hc
                  cases n with
                  | file cx =>
                    cases s' with
                    | cons y s'' => rw [nodeAt_file_cons] at hc; cases hc
                    | nil =>
                      rw [nodeAt_nil_path] at hc
                      cases hc
                      have hfx : x ∈ fileNames es := fileNames_mem_of_lookup hl
                      have hd2 := D2 x hfx c (by
                        rw [fileAt_eq_some, nodeAt_append, hes, nodeAt_dir_cons, hl,
                          nodeAt_nil_path])
                      have hfr := I3 (rel ++ [x]) (by
                        intro pp hpp
                        cases hu : under pp (rel ++ [x]) with
                        | false => rfl
                        | true => exact absurd rfl (hfa pp hpp _ hu x hfx))
                      rcases hfr with hveq | ⟨hvnone, -⟩
                      · rw [fileAt_eq_of_view_eq hveq]
                        exact hd2
                      · exfalso
                        rw [← view_vfile_iff] at hd2
                        rw [hd2] at hvnone
                        cases hvnone
                  | dir sub =>
                    have hdx : x ∈ dirNames es := dirNames_mem_of_lookup hl
                    have hchild : rel ++ [x] ∈ (dirNames es).map (fun d => rel ++ [d]) ++ rest := by
                      rw [List.mem_append]
                      exact Or.inl (List.mem_map.mpr ⟨x, hdx, rfl⟩)
                    refine I2 (rel ++ [x]) hchild (rel ++ x :: s') c ?_ ?_
                    · rw [under_iff]
                      exact ⟨s', by simp⟩
                    · rw [D1, fileAt_eq_some, nodeAt_append, hes, nodeAt_dir_cons, hl]
                      exact hc
            · -- under a remaining pending path
              refine I2 p (by simp [hp]) q c hq ?_
              rw [D1]
              exact hc
          · -- frame: paths outside every pending subtree
            intro q hq
            have hqrel : under rel q = false := hq rel (by simp)
            refine hD3I3 q ?_ ?_
            · intro f hf hqe
              subst hqe
              rw [under_append] at hqrel
              cases hqrel
            · intro pp hpp
              rcases List.mem_append.mp hpp with hch | hrest
              · simp only [List.mem_map] at hch
                obtain ⟨d, hd, rfl⟩ := hch
                cases hu : under (rel ++ [d]) q with
                | false => rfl
                | true =>
                  exfalso
                  have := under_trans (under_append rel [d]) hu
                  rw [hqrel] at this
                  cases this
              · exact hq pp (by simp [hrest])
          · -- every source directory under the stack exists in the replica
            intro p hp q hq hdq
            simp only [List.mem_cons] at hp
            rcases hp with heqp | hp
            · subst p
              rw [under_iff] at hq
              obtain ⟨s, rfl⟩ := hq
              rw [isDirAt_iff] at hdq
              obtain ⟨es0, hes0⟩ := hdq
              rw [nodeAt_append, hes] at hes0
              cases s with
              | nil =>
                rw [nodeAt_nil_path] at hes0
                simp only [List.append_nil]
                exact I9 rel D4
              | cons x s' =>
                rw [nodeAt_dir_cons] at hes0
                cases hl : lookupEntry es x with
                | none => rw [hl, nodeAt_none] at hes0; cases hes0
                | some n =>
                  rw [hl] at hes0
                  cases n with
                  | file cx =>
                    exfalso
                    cases s' with
                    | nil => rw [nodeAt_nil_path] at hes0; cases hes0
                    | cons y s'' => rw [nodeAt_file_cons] at hes0; cases hes0
                  | dir sub =>
                    have hdx : x ∈ dirNames es := dirNames_mem_of_lookup hl
                    have hchild : rel ++ [x] ∈ (dirNames es).map (fun d => rel ++ [d]) ++ rest := by
                      rw [List.mem_append]
                      exact Or.inl (List.mem_map.mpr ⟨x, hdx, rfl⟩)
                    refine I4 (rel ++ [x]) hchild (rel ++ x :: s') ?_ ?_
                    · rw [under_iff]
                      exact ⟨s', by simp⟩
                    · rw [D1, isDirAt_iff]
                      refine ⟨es0, ?_⟩
                      rw [nodeAt_append, hes, nodeAt_dir_cons, hl]
                      exact hes0
            · refine I4 p (by simp [hp]) q hq ?_
              rw [D1]
              exact hdq
          · -- provenance of replica-side cache entries
            intro p d hd
            rcases I6 p d hd with hold | ⟨⟨pp, hpp, hu⟩, ⟨c, hc⟩, hrest'⟩
            · rcases D6 p d hold with holder | ⟨⟨f, hf, rfl⟩, hcs, hrest'⟩
              · exact Or.inl holder
              · refine Or.inr ⟨⟨rel, by simp, under_append rel [f]⟩, hcs, ?_⟩
                rcases hrest' with hacc | ⟨hcp, hne⟩
                · left
                  have hfr := I3 (rel ++ [f]) (by
                    intro pp' hpp'
                    cases hu : under pp' (rel ++ [f]) with
                    | false => rfl
                    | true => exact absurd rfl (hfa pp' hpp' _ hu f hf))
                  rcases hfr with hveq | ⟨hvnone, -⟩
                  · rw [fileAt_eq_of_view_eq hveq]
                    exact hacc
                  · exfalso
                    rw [← view_vfile_iff] at hacc
                    rw [hacc] at hvnone
                    cases hvnone
                · exact Or.inr ⟨I7 _ hcp, hne⟩
            · refine Or.inr ⟨?_, ⟨c, by rw [← D1]; exact hc⟩, ?_⟩
              · rcases List.mem_append.mp hpp with hch | hrest2
                · simp only [List.mem_map] at hch
                  obtain ⟨dd, hdd, rfl⟩ := hch
                  exact ⟨rel, by simp, under_trans (under_append rel [dd]) hu⟩
                · exact ⟨pp, by simp [hrest2], hu⟩
              · rcases hrest' with hacc | ⟨hcp, hne⟩
                · exact Or.inl hacc
                · refine Or.inr ⟨hcp, ?_⟩
                  have hqne := hfa pp hpp p hu
                  rcases D3 p hqne with hveq | ⟨hvnone, -, -⟩
                  · rwa [fileAt_eq_of_view_eq hveq] at hne
                  · intro hcontra
                    rcases D3 p hqne with hveq2 | ⟨hvnone2, hdvd2, -⟩
                    · rw [fileAt_eq_of_view_eq hveq2] at hne
                      exact hne hcontra
                    · apply hne
                      cases hfv : fileAt st1.replica p with
                      | none => rfl
                      | some cc =>
                        rw [← view_vfile_iff] at hfv
                        rw [hfv] at hdvd2
                        cases hdvd2
          · intro m hm
            exact I7 m (D7 m hm)
          · intro hwf
            exact I8 (D8 hwf)
          · intro q hq
            exact I9 q (D9 q hq)
          · intro q hq
            exact I10 q (D10 q hq)

/-! ## The reverse pass, characterized -/

theorem dotExists_eq_pathExists {t : Option Node} (h : rootNotFileB t = true) (p : FsPath) :
    dotExists t p = pathExists t p := by
  cases p with
  | cons a q => rfl
  | nil =>
    match t, h with
    | none, _ => rfl
    | some (.dir es), _ => rfl

theorem nodeAt_ne_none_of_under {t : Option Node} {p q : FsPath}
    (h : under p q = true) (hq : nodeAt t q ≠ none) : nodeAt t p ≠ none := by
  intro hp
  exact hq (nodeAt_under_none hp h)

theorem pathExists_of_under {t : Option Node} {p q : FsPath}
    (h : under p q = true) (hq : pathExists t q = true) : pathExists t p = true := by
  rw [pathExists_iff] at hq ⊢
  exact nodeAt_ne_none_of_under h hq

theorem reverseFileStep_ok_main {st st' : SyncState} {rel : FsPath} {f : String}
    (hwfR : optWfB st.replica = true)
    (hok : reverseFileStep st rel f = .ok st') :
    st'.source = st.source ∧
    st'.md5_cache = st.md5_cache ∧
    (∀ q, view st'.replica q = view st.replica q ∨
        (under (rel ++ [f]) q = true ∧ view st'.replica q = none)) ∧
    (∀ q, pathExists st.source q = true → view st'.replica q = view st.replica q) ∧
    (pathExists st.source (rel ++ [f]) = false → view st'.replica (rel ++ [f]) = none) ∧
    optWfB st'.replica = true := by
  unfold reverseFileStep at hok
  by_cases hex : pathExists st.source (rel ++ [f]) = true
  · rw [if_pos hex] at hok
    cases hok
    refine ⟨rfl, rfl, fun q => Or.inl rfl, fun q _ => rfl, ?_, hwfR⟩
    intro hc
    rw [hex] at hc
    cases hc
  · simp only [Bool.not_eq_true] at hex
    rw [hex] at hok
    simp only [Bool.false_eq_true, if_false] at hok
    cases hrm : removeFileAt st.replica (rel ++ [f]) with
    | error e => rw [hrm] at hok; cases hok
    | ok rep' =>
      rw [hrm] at hok
      cases hok
      have hview := removeFileAt_ok_view hwfR hrm
      refine ⟨rfl, rfl, ?_, ?_, ?_, removeFileAt_ok_wf hwfR hrm⟩
      · intro q
        by_cases hu : under (rel ++ [f]) q = true
        · right
          refine ⟨hu, ?_⟩
          show view rep' q = none
          rw [hview q, if_pos hu]
        · left
          show view rep' q = view st.replica q
          rw [hview q, if_neg hu]
      · intro q hq
        show view rep' q = view st.replica q
        rw [hview q]
        rw [if_neg ?_]
        intro hu
        have := pathExists_of_under hu hq
        rw [hex] at this
        cases this
      · intro _
        show view rep' (rel ++ [f]) = none
        rw [hview, if_pos (under_refl _)]

theorem reverseFiles_ok_main {rel : FsPath} {fs : List String} {st st' : SyncState}
    (hwfR : optWfB st.replica = true)
    (hok : reverseFiles rel fs st = .ok st') :
    st'.source = st.source ∧
    st'.md5_cache = st.md5_cache ∧
    (∀ q, view st'.replica q = view st.replica q ∨
        (under rel q = true ∧ view st'.replica q = none)) ∧
    (∀ q, pathExists st.source q = true → view st'.replica q = view st.replica q) ∧
    (∀ f ∈ fs, pathExists st.source (rel ++ [f]) = false →
        view st'.replica (rel ++ [f]) = none) ∧
    optWfB st'.replica = true := by
  induction fs generalizing st with
  | nil =>
    simp only [reverseFiles] at hok
    cases hok
    exact ⟨rfl, rfl, fun q => Or.inl rfl, fun q _ => rfl, by simp, hwfR⟩
  | cons f fs ih =>
    simp only [reverseFiles] at hok
    cases hstep : reverseFileStep st rel f with
    | err e st1 => rw [hstep] at hok; cases hok
    | ok st1 =>
      rw [hstep] at hok
      simp only [Res.bind] at hok
      obtain ⟨S1, S2, S3, S4, S5, S6⟩ := reverseFileStep_ok_main hwfR hstep
      obtain ⟨I1, I2, I3, I4, I5, I6⟩ := ih S6 hok
      refine ⟨by rw [I1, S1], by rw [I2, S2], ?_, ?_, ?_, I6⟩
      · intro q
        rcases I3 q with h1 | ⟨hu1, h1⟩
        · rcases S3 q with h2 | ⟨hu2, h2⟩
          · exact Or.inl (by rw [h1, h2])
          · exact Or.inr ⟨under_child hu2, by rw [h1]; exact h2⟩
        · exact Or.inr ⟨hu1, h1⟩
      · intro q hq
        rw [I4 q (by rw [S1]; exact hq), S4 q hq]
      · intro g hg hgone
        simp only [List.mem_cons] at hg
        rcases hg with rfl | hg
        · have h1 := S5 hgone
          rcases I3 (rel ++ [g]) with h2 | ⟨-, h2⟩
          · rw [h2, h1]
          · exact h2
        · refine I5 g hg ?_
          rw [S1]
          exact hgone
      
theorem reverseDirStep_ok_main {st st' : SyncState} {rel : FsPath} {files : List String}
    (hsr : rootNotFileB st.source = true)
    (hwfR : optWfB st.replica = true)
    (hok : reverseDirStep st rel files = .ok st') :
    st'.source = st.source ∧
    st'.md5_cache = st.md5_cache ∧
    (∀ q, view st'.replica q = view st.replica q ∨
        (under rel q = true ∧ view st'.replica q = none)) ∧
    (∀ q, pathExists st.source q = true → view st'.replica q = view st.replica q) ∧
    (∀ f ∈ files, pathExists st.source (rel ++ [f]) = false →
        view st'.replica (rel ++ [f]) = none) ∧
    (pathExists st.source rel = false → ∀ q, under rel q = true →
        view st'.replica q = none) ∧
    optWfB st'.replica = true := by
  unfold reverseDirStep at hok
  rw [dotExists_eq_pathExists hsr] at hok
  by_cases hde : pathExists st.source rel = true
  · rw [if_pos hde] at hok
    simp only [Res.bind] at hok
    obtain ⟨L1, L2, L3, L4, L5, L6⟩ := reverseFiles_ok_main hwfR hok
    refine ⟨L1, L2, L3, L4, L5, ?_, L6⟩
    intro hc
    rw [hde] at hc
    cases hc
  · simp only [Bool.not_eq_true] at hde
    rw [hde] at hok
    simp only [Bool.false_eq_true, if_false] at hok
    cases hrm : rmtreeAt st.replica rel with
    | error e => rw [hrm] at hok; simp only [Res.bind] at hok; cases hok
    | ok rep1 =>
      rw [hrm] at hok
      simp only [Res.bind] at hok
      have hview := rmtreeAt_ok_view hwfR hrm
      have hwf1 : optWfB rep1 = true := rmtreeAt_ok_wf hwfR hrm
      obtain ⟨L1, L2, L3, L4, L5, L6⟩ :=
        @reverseFiles_ok_main rel files
          { st with replica := rep1, log := st.log ++ [LogMsg.removedFolder rel] } st' hwf1 hok
      have hnone1 : ∀ q, under rel q = true → view rep1 q = none := by
        intro q hu
        rw [hview q, if_pos hu]
      refine ⟨L1, L2, ?_, ?_, ?_, ?_, L6⟩
      · intro q
        rcases L3 q with h1 | ⟨hu1, h1⟩
        · by_cases hu : under rel q = true
          · exact Or.inr ⟨hu, by rw [h1]; exact hnone1 q hu⟩
          · refine Or.inl ?_
            rw [h1]
            show view rep1 q = view st.replica q
            rw [hview q, if_neg hu]
        · exact Or.inr ⟨hu1, h1⟩
      · intro q hq
        have hnu : under rel q = false := by
          cases hu : under rel q with
          | false => rfl
          | true =>
            exfalso
            have := pathExists_of_under hu hq
            rw [hde] at this
            cases this
        rw [L4 q hq]
        show view rep1 q = view st.replica q
        rw [hview q, hnu]
        simp
      · intro f hf hgone
        rcases L3 (rel ++ [f]) with h1 | ⟨-, h1⟩
        · rw [h1]
          exact hnone1 _ (under_append rel [f])
        · exact h1
      · intro _ q hu
        rcases L3 q with h1 | ⟨-, h1⟩
        · rw [h1]
          exact hnone1 q hu
        · exact h1

theorem nodeAt_shape_of_view_vdir {t : Option Node} {q : FsPath}
    (h : view t q = some .vdir) : ∃ es, nodeAt t q = some (.dir es) := by
  rw [view_vdir_iff, isDirAt_iff] at h
  exact h

theorem revGo_ok_main {fuel : Nat} {stack : List FsPath} {st st' : SyncState}
    (hsr : rootNotFileB st.source = true)
    (hwfR : optWfB st.replica = true)
    (hstack : ∀ p ∈ stack,
      nodeAt st.replica p = none ∨ ∃ es, nodeAt st.replica p = some (.dir es))
    (hok : revGo fuel stack st = .ok st') :
    st'.source = st.source ∧
    st'.md5_cache = st.md5_cache ∧
    (∀ q, view st'.replica q = view st.replica q ∨ view st'.replica q = none) ∧
    (∀ q, pathExists st.source q = true → view st'.replica q = view st.replica q) ∧
    (∀ p ∈ stack, ∀ q, under p q = true → pathExists st'.replica q = true →
        pathExists st.source q = true) ∧
    optWfB st'.replica = true := by
  induction fuel generalizing stack st with
  | zero => simp [revGo] at hok
  | succ fuel ih =>
    cases stack with
    | nil =>
      simp only [revGo] at hok
      cases hok
      exact ⟨rfl, rfl, fun q => Or.inl rfl, fun q _ => rfl, by simp, hwfR⟩
    | cons rel rest =>
      rcases hstack rel (by simp) with hnone | ⟨es, hes⟩
      · -- nothing (or no directory) at `rel` any more: the walk skips it
        rw [revGo, hnone] at hok
        have hstack' : ∀ p ∈ rest,
            nodeAt st.replica p = none ∨ ∃ es, nodeAt st.replica p = some (.dir es) :=
          fun p hp => hstack p (by simp [hp])
        obtain ⟨I1, I2, I3, I4, I5, I6⟩ := ih hsr hwfR hstack' hok
        refine ⟨I1, I2, I3, I4, ?_, I6⟩
        intro p hp q hq hex
        simp only [List.mem_cons] at hp
        rcases hp with heqp | hp
        · subst p
          exfalso
          have hq0 : view st.replica q = none := by
            rw [view_eq_none]
            exact nodeAt_under_none hnone hq
          have h3 : view st'.replica q = none := by
            rcases I3 q with h1 | h1
            · rw [h1, hq0]
            · exact h1
          rw [view_none_iff] at h3
          rw [h3] at hex
          cases hex
        · exact I5 p hp q hq hex
      · -- a directory at `rel`: run its body, then descend
        have hwfd : Node.wfB (.dir es) = true := wfB_nodeAt hwfR hes
        rw [revGo, hes] at hok
        simp only [Res.bind] at hok
        cases hb : reverseDirStep st rel (fileNames es) with
        | err e st1 => rw [hb] at hok; cases hok
        | ok st1 =>
          rw [hb] at hok
          obtain ⟨R1, R2, R3, R4, R5, R6, R7⟩ := reverseDirStep_ok_main hsr hwfR hb
          have hstack' : ∀ p ∈ (dirNames es).map (fun d => rel ++ [d]) ++ rest,
              nodeAt st1.replica p = none ∨ ∃ es', nodeAt st1.replica p = some (.dir es') := by
            intro p hp
            have hview : view st.replica p = none ∨ view st.replica p = some .vdir := by
              rcases List.mem_append.mp hp with hch | hrest
              · simp only [List.mem_map] at hch
                obtain ⟨d, hd, rfl⟩ := hch
                obtain ⟨sub, hsub⟩ := dirNames_lookup hwfd hd
                refine Or.inr ?_
                rw [view_vdir_iff, isDirAt_iff]
                refine ⟨sub, ?_⟩
                rw [nodeAt_append, hes, nodeAt_dir_cons, hsub, nodeAt_nil_path]
              · rcases hstack p (by simp [hrest]) with h1 | ⟨es2, h1⟩
                · exact Or.inl (by rw [view_eq_none]; exact h1)
                · refine Or.inr ?_
                  rw [view_vdir_iff, isDirAt_iff]
                  exact ⟨es2, h1⟩
            rcases R3 p with h2 | ⟨-, h2⟩
            · rcases hview with h3 | h3
              · rw [h3] at h2
                rw [view_eq_none] at h2
                exact Or.inl h2
              · rw [h3] at h2
                obtain ⟨es', hes'⟩ := nodeAt_shape_of_view_vdir h2
                exact Or.inr ⟨es', hes'⟩
            · rw [view_eq_none] at h2
              exact Or.inl h2
          obtain ⟨I1, I2, I3, I4, I5, I6⟩ := ih (by rw [R1]; exact hsr) R7 hstack' hok
          have hgone : ∀ q, view st1.replica q = none → pathExists st'.replica q = false := by
            intro q h1
            rw [← view_none_iff]
            rcases I3 q with h2 | h2
            · rw [h2, h1]
            · exact h2
          refine ⟨by rw [I1, R1], by rw [I2, R2], ?_, ?_, ?_, I6⟩
          · intro q
            rcases I3 q with h1 | h1
            · rcases R3 q with h2 | ⟨-, h2⟩
              · exact Or.inl (by rw [h1, h2])
              · exact Or.inr (by rw [h1]; exact h2)
            · exact Or.inr h1
          · intro q hq
            rw [I4 q (by rw [R1]; exact hq), R4 q hq]
          · intro p hp q hq hex
            simp only [List.mem_cons] at hp
            rcases hp with heqp | hp
            · subst p
              by_cases hsrel : pathExists st.source rel = true
              · rw [under_iff] at hq
                obtain ⟨s, rfl⟩ := hq
                cases s with
                | nil =>
                  simp only [List.append_nil]
                  exact hsrel
                | cons x s' =>
                  have hnq : nodeAt st.replica (rel ++ x :: s') =
                      nodeAt (lookupEntry es x) s' := by
                    rw [nodeAt_append, hes, nodeAt_dir_cons]
                  cases hl : lookupEntry es x with
                  | none =>
                    exfalso
                    have h0 : view st.replica (rel ++ x :: s') = none := by
                      rw [view_eq_none, hnq, hl, nodeAt_none]
                    have h1 : view st1.replica (rel ++ x :: s') = none := by
                      rcases R3 (rel ++ x :: s') with h2 | ⟨-, h2⟩
                      · rw [h2, h0]
                      · exact h2
                    rw [hgone _ h1] at hex
                    cases hex
                  | some n =>
                    cases n with
                    | file cf =>
                      have hfx : x ∈ fileNames es := fileNames_mem_of_lookup hl
                      cases s' with
                      | nil =>
                        by_cases hsx : pathExists st.source (rel ++ [x]) = true
                        · exact hsx
                        · exfalso
                          simp only [Bool.not_eq_true] at hsx
                          have h1 := R5 x hfx hsx
                          rw [hgone _ h1] at hex
                          cases hex
                      | cons y s'' =>
                        exfalso
                        have h0 : view st.replica (rel ++ x :: y :: s'') = none := by
                          rw [view_eq_none, hnq, hl, nodeAt_file_cons]
                        have h1 : view st1.replica (rel ++ x :: y :: s'') = none := by
                          rcases R3 (rel ++ x :: y :: s'') with h2 | ⟨-, h2⟩
                          · rw [h2, h0]
                          · exact h2
                        rw [hgone _ h1] at hex
                        cases hex
                    | dir sub =>
                      have hdx : x ∈ dirNames es := dirNames_mem_of_lookup hl
                      have hchild : rel ++ [x] ∈
                          (dirNames es).map (fun d => rel ++ [d]) ++ rest := by
                        rw [List.mem_append]
                        exact Or.inl (List.mem_map.mpr ⟨x, hdx, rfl⟩)
                      have := I5 (rel ++ [x]) hchild (rel ++ x :: s')
                        (by rw [under_iff]; exact ⟨s', by simp⟩) hex
                      rwa [R1] at this
              · exfalso
                simp only [Bool.not_eq_true] at hsrel
                have h1 := R6 hsrel q hq
                rw [hgone _ h1] at hex
                cases hex
            · have := I5 p (by simp [hp]) q hq hex
              rwa [R1] at this

/-! ## C1: convergence of one successful pass -/

/-- C1: for every well-formed source and replica tree (roots that are
directories or absent, as for any real root path), a call of
`sync_folders` on a fresh synchronizer state that completes without
entering its error handler leaves every source file content-equal at its
mirrored replica path, and every path existing under the replica root
mirrored by an existing source path. -/
theorem C1_convergence {st st' : SyncState}
    (hwfS : optWfB st.source = true)
    (hwfR : optWfB st.replica = true)
    (hsr : rootNotFileB st.source = true)
    (hrr : rootNotFileB st.replica = true)
    (hcache : st.md5_cache = [])
    (hok : syncOk st = true)
    (hrun : sync_folders st = st') :
    (∀ p c, fileAt st.source p = some c → fileAt st'.replica p = some c) ∧
    (∀ q, pathExists st'.replica q = true → pathExists st.source q = true) := by
  unfold syncOk at hok
  cases hbody : syncBody st with
  | err e s =>
    rw [hbody] at hok
    cases hok
  | ok stf =>
    have hst' : st' = stf := by
      rw [← hrun]
      simp only [sync_folders, hbody]
    subst hst'
    unfold syncBody at hbody
    cases hE : ensureReplica st with
    | err e s1 =>
      rw [hE] at hbody
      cases hbody
    | ok st1 =>
      rw [hE] at hbody
      simp only [Res.bind] at hbody
      cases hF : fwdGo (wsize st1.source + 1) [[]] st1 with
      | err e s2 =>
        rw [hF] at hbody
        cases hbody
      | ok st2 =>
        rw [hF] at hbody
        simp only [Res.bind] at hbody
        -- the replica-root creation step
        have hEfacts : st1.source = st.source ∧ st1.md5_cache = st.md5_cache ∧
            isDirAt st1.replica [] = true ∧ optWfB st1.replica = true := by
          unfold ensureReplica at hE
          by_cases hre : pathExists st.replica [] = true
          · rw [if_pos hre] at hE
            cases hE
            refine ⟨rfl, rfl, ?_, hwfR⟩
            unfold pathExists at hre
            rw [nodeAt_nil_path] at hre
            cases hrep0 : st.replica with
            | none => rw [hrep0] at hre; cases hre
            | some n =>
              cases n with
              | file c =>
                rw [hrep0] at hrr
                cases hrr
              | dir es =>
                unfold isDirAt
                rw [nodeAt_nil_path]
          · rw [if_neg hre] at hE
            have hrepn : st.replica = none := by
              cases hrep0 : st.replica with
              | none => rfl
              | some n =>
                exfalso
                apply hre
                unfold pathExists
                rw [nodeAt_nil_path, hrep0]
                rfl
            rw [hrepn] at hE
            simp only [makedirs, mkChain] at hE
            cases hE
            exact ⟨rfl, rfl, rfl, rfl⟩
        obtain ⟨E1, E2, E3, E4⟩ := hEfacts
        -- the forward pass
        have hsOK1 : srcCacheOK st1 := by
          intro p d hd
          rw [E2, hcache] at hd
          cases hd
        have hstack1 : ∀ p ∈ [([] : FsPath)],
            nodeAt st1.source p = none ∨ ∃ es, nodeAt st1.source p = some (.dir es) := by
          intro p hp
          simp only [List.mem_singleton] at hp
          subst hp
          rw [nodeAt_nil_path, E1]
          cases hsrc0 : st.source with
          | none => exact Or.inl rfl
          | some n =>
            cases n with
            | file c =>
              rw [hsrc0] at hsr
              cases hsr
            | dir es => exact Or.inr ⟨es, rfl⟩
        have hrep1 : ∀ p ∈ [([] : FsPath)], ∀ q, under p q = true → repKeyOK st1 q := by
          intro p _ q _ d hd
          rw [E2, hcache] at hd
          cases hd
        obtain ⟨F1, F2, F3, F4, F5, F6, F7, F8, F9, F10⟩ :=
          fwdGo_ok_main (by rw [E1]; exact hwfS) hsOK1 hstack1 (by simp) hrep1 hF
        -- the reverse pass
        have hstack2 : ∀ p ∈ [([] : FsPath)],
            nodeAt st2.replica p = none ∨ ∃ es, nodeAt st2.replica p = some (.dir es) := by
          intro p hp
          simp only [List.mem_singleton] at hp
          subst hp
          have hd2 := F10 [] E3
          rw [isDirAt_iff] at hd2
          obtain ⟨es, hes⟩ := hd2
          exact Or.inr ⟨es, hes⟩
        obtain ⟨R1, R2, R3, R4, R5, R6⟩ :=
          revGo_ok_main (by rw [F1, E1]; exact hsr) (F8 E4) hstack2 hbody
        constructor
        · intro p c hc
          have hc1 : fileAt st1.source p = some c := by rw [E1]; exact hc
          have hc2 : fileAt st2.replica p = some c :=
            F2 [] (by simp) p c rfl hc1
          have hpe : pathExists st2.source p = true := by
            rw [F1, E1]
            rw [fileAt_eq_some] at hc
            unfold pathExists
            rw [hc]
            rfl
          rw [fileAt_eq_of_view_eq (R4 p hpe)]
          exact hc2
        · intro q hq
          have := R5 [] (by simp) q rfl hq
          rwa [F1, E1] at this

/-- Closed instance of `C1_convergence` on a one-file source and an
absent replica. -/
theorem C1_convergence_witness :
    (∀ p c, fileAt (some (Node.dir [("a", Node.file "x")])) p = some c →
        fileAt (sync_folders
          ⟨some (Node.dir [("a", Node.file "x")]), none, [], []⟩).replica p = some c) ∧
    (∀ q, pathExists (sync_folders
          ⟨some (Node.dir [("a", Node.file "x")]), none, [], []⟩).replica q = true →
        pathExists (some (Node.dir [("a", Node.file "x")])) q = true) :=
  @C1_convergence ⟨some (Node.dir [("a", Node.file "x")]), none, [], []⟩
    (sync_folders ⟨some (Node.dir [("a", Node.file "x")]), none, [], []⟩)
    (by decide) (by decide) (by decide) (by decide) rfl (by decide) rfl

/-! ## C9: ordering of the records emitted by one pass -/

theorem under_snoc_not_self (rel : FsPath) (d : String) : under (rel ++ [d]) rel = false := by
  induction rel with
  | nil => rfl
  | cons a r ih => simp [under, ih]

theorem snoc_inj {p q : FsPath} {f g : String} (h : p ++ [f] = q ++ [g]) : p = q ∧ f = g := by
  have hl : p.length = q.length := by
    have := congrArg List.length h
    simpa using this
  obtain ⟨h1, h2⟩ := List.append_inj h hl
  refine ⟨h1, ?_⟩
  simpa using h2

theorem createBeforeCopy_nil : createBeforeCopy [] := by
  intro l1 p f l2 h
  exact absurd h (by cases l1 <;> simp)

theorem createBeforeCopy_of_no_copy {A : List LogMsg}
    (h : ∀ m ∈ A, ∀ q, m ≠ LogMsg.copiedFile q) : createBeforeCopy A := by
  intro l1 p f l2 hA
  exfalso
  exact h (LogMsg.copiedFile (p ++ [f])) (by rw [hA]; simp) (p ++ [f]) rfl

theorem createBeforeCopy_of_no_create {A : List LogMsg}
    (h : ∀ m ∈ A, ∀ q, m ≠ LogMsg.createdFolder q) : createBeforeCopy A := by
  intro l1 p f l2 hA hc
  exact h (LogMsg.createdFolder p) (by rw [hA]; simp [hc]) p rfl

theorem createBeforeCopy_append {A B : List LogMsg}
    (h1 : createBeforeCopy A) (h2 : createBeforeCopy B)
    (hcross : ∀ p f, LogMsg.copiedFile (p ++ [f]) ∈ A → LogMsg.createdFolder p ∉ B) :
    createBeforeCopy (A ++ B) := by
  induction A with
  | nil => exact h2
  | cons m A ih =>
    have h1' : createBeforeCopy A := by
      intro l1 p f l2 hA
      exact h1 (m :: l1) p f l2 (by rw [hA]; rfl)
    have hcross' : ∀ p f, LogMsg.copiedFile (p ++ [f]) ∈ A → LogMsg.createdFolder p ∉ B :=
      fun p f hm => hcross p f (by simp [hm])
    have ihm := ih h1' hcross'
    intro l1 p f l2 h
    cases l1 with
    | nil =>
      simp only [List.cons_append, List.nil_append] at h
      obtain ⟨hm, hrest⟩ := List.cons_eq_cons.mp h
      intro hmem
      rw [← hrest] at hmem
      rcases List.mem_append.mp hmem with hmem | hmem
      · exact h1 [] p f A (by rw [hm]; rfl) hmem
      · exact hcross p f (by rw [← hm]; simp) hmem
    | cons m1 l1 =>
      simp only [List.cons_append] at h
      obtain ⟨hm1, hrest⟩ := List.cons_eq_cons.mp h
      exact ihm l1 p f l2 hrest

theorem forwardFileStep_log {st st1 : SyncState} {rel : FsPath} {f : String}
    (hok : forwardFileStep st rel f = .ok st1) :
    st1.log = st.log ∨ st1.log = st.log ++ [LogMsg.copiedFile (rel ++ [f])] := by
  by_cases hex : pathExists st.replica (rel ++ [f]) = true
  · rw [forwardFileStep, hex, if_pos rfl] at hok
    cases h1 : calculate_md5 st.source st.md5_cache .src (rel ++ [f]) with
    | error e => rw [h1] at hok; cases hok
    | ok pr1 =>
      obtain ⟨d1, c1⟩ := pr1
      simp only [h1] at hok
      cases h2 : calculate_md5 st.replica c1 .rep (rel ++ [f]) with
      | error e => rw [h2] at hok; cases hok
      | ok pr2 =>
        obtain ⟨d2, c2⟩ := pr2
        simp only [h2] at hok
        by_cases hne : d1 ≠ d2
        · rw [if_pos hne] at hok
          cases h3 : copy2 st.source st.replica (rel ++ [f]) with
          | error e => rw [h3] at hok; cases hok
          | ok rep2 =>
            rw [h3] at hok
            cases hok
            exact Or.inr rfl
        · rw [if_neg hne] at hok
          cases hok
          exact Or.inl rfl
  · simp only [Bool.not_eq_true] at hex
    rw [forwardFileStep, hex] at hok
    simp only [Bool.false_eq_true, if_false] at hok
    cases h3 : copy2 st.source st.replica (rel ++ [f]) with
    | error e => rw [h3] at hok; cases hok
    | ok rep2 =>
      rw [h3] at hok
      cases hok
      exact Or.inr rfl

theorem forwardFiles_log {rel : FsPath} {fs : List String} {st st1 : SyncState}
    (hok : forwardFiles rel fs st = .ok st1) :
    ∃ D, st1.log = st.log ++ D ∧
      ∀ m ∈ D, ∃ f ∈ fs, m = LogMsg.copiedFile (rel ++ [f]) := by
  induction fs generalizing st with
  | nil =>
    simp only [forwardFiles] at hok
    cases hok
    exact ⟨[], by simp, by simp⟩
  | cons f fs ih =>
    simp only [forwardFiles] at hok
    cases hstep : forwardFileStep st rel f with
    | err e s => rw [hstep] at hok; cases hok
    | ok stm =>
      rw [hstep] at hok
      simp only [Res.bind] at hok
      obtain ⟨D, hD, hDm⟩ := ih hok
      rcases forwardFileStep_log hstep with h0 | h0
      · refine ⟨D, by rw [hD, h0], ?_⟩
        intro m hm
        obtain ⟨g, hg, hmg⟩ := hDm m hm
        exact ⟨g, by simp [hg], hmg⟩
      · refine ⟨LogMsg.copiedFile (rel ++ [f]) :: D, ?_, ?_⟩
        · rw [hD, h0]
          simp
        · intro m hm
          rcases List.mem_cons.mp hm with rfl | hm
          · exact ⟨f, by simp, rfl⟩
          · obtain ⟨g, hg, hmg⟩ := hDm m hm
            exact ⟨g, by simp [hg], hmg⟩

theorem forwardDirStep_log {st st1 : SyncState} {rel : FsPath} {files : List String}
    (hok : forwardDirStep st rel files = .ok st1) :
    ∃ C D, st1.log = st.log ++ C ++ D ∧
      (∀ m ∈ C, m = LogMsg.createdFolder rel) ∧
      (∀ m ∈ D, ∃ f ∈ files, m = LogMsg.copiedFile (rel ++ [f])) := by
  unfold forwardDirStep at hok
  by_cases hde : dotExists st.replica rel = true
  · rw [if_pos hde] at hok
    simp only [Res.bind] at hok
    obtain ⟨D, hD, hDm⟩ := forwardFiles_log hok
    exact ⟨[], D, by simpa using hD, by simp, hDm⟩
  · rw [if_neg hde] at hok
    cases hmk : makedirs st.replica rel with
    | error e =>
      rw [hmk] at hok
      simp only [Res.bind] at hok
      cases hok
    | ok rep1 =>
      rw [hmk] at hok
      simp only [Res.bind] at hok
      obtain ⟨D, hD, hDm⟩ := forwardFiles_log hok
      refine ⟨[LogMsg.createdFolder rel], D, ?_, by simp, hDm⟩
      rw [hD]

theorem fwdGo_ordered {fuel : Nat} {stack : List FsPath} {st st' : SyncState}
    (hwfS : optWfB st.source = true)
    (hdisj : List.Pairwise (fun p q => under p q = false ∧ under q p = false) stack)
    (hok : fwdGo fuel stack st = .ok st') :
    ∃ L, st'.log = st.log ++ L ∧
      (∀ m ∈ L, (∃ q, m = LogMsg.createdFolder q ∧ ∃ p ∈ stack, under p q = true) ∨
        (∃ q, m = LogMsg.copiedFile q ∧ ∃ p ∈ stack, under p q = true)) ∧
      createBeforeCopy L := by
  induction fuel generalizing stack st with
  | zero => simp [fwdGo] at hok
  | succ fuel ih =>
    cases stack with
    | nil =>
      simp only [fwdGo] at hok
      cases hok
      exact ⟨[], by simp, by simp, createBeforeCopy_nil⟩
    | cons rel rest =>
      have hdisj' : List.Pairwise (fun p q => under p q = false ∧ under q p = false) rest :=
        (List.pairwise_cons.mp hdisj).2
      rw [fwdGo] at hok
      cases hn : nodeAt st.source rel with
      | none =>
        rw [hn] at hok
        obtain ⟨L, h1, h2, h3⟩ := ih hwfS hdisj' hok
        refine ⟨L, h1, ?_, h3⟩
        intro m hm
        rcases h2 m hm with ⟨q, hq, p, hp, hu⟩ | ⟨q, hq, p, hp, hu⟩
        · exact Or.inl ⟨q, hq, p, by simp [hp], hu⟩
        · exact Or.inr ⟨q, hq, p, by simp [hp], hu⟩
      | some n =>
        cases n with
        | file c =>
          rw [hn] at hok
          obtain ⟨L, h1, h2, h3⟩ := ih hwfS hdisj' hok
          refine ⟨L, h1, ?_, h3⟩
          intro m hm
          rcases h2 m hm with ⟨q, hq, p, hp, hu⟩ | ⟨q, hq, p, hp, hu⟩
          · exact Or.inl ⟨q, hq, p, by simp [hp], hu⟩
          · exact Or.inr ⟨q, hq, p, by simp [hp], hu⟩
        | dir es =>
          have hwfd : Node.wfB (.dir es) = true := wfB_nodeAt hwfS hn
          rw [hn] at hok
          simp only [Res.bind] at hok
          cases hb : forwardDirStep st rel (fileNames es) with
          | err e s => rw [hb] at hok; cases hok
          | ok st1 =>
            rw [hb] at hok
            have hsrc1 : st1.source = st.source := by
              have := (forwardDirStep_shape st rel (fileNames es)).1
              rw [hb] at this
              exact this
            obtain ⟨C, D, hCD, hC, hD⟩ := forwardDirStep_log hb
            obtain ⟨L, hL, hLm, hLc⟩ :=
              ih (by rw [hsrc1]; exact hwfS) (stack_disj_next hwfd hdisj) hok
            refine ⟨C ++ D ++ L, ?_, ?_, ?_⟩
            · rw [hL, hCD]
              simp
            · intro m hm
              simp only [List.append_assoc, List.mem_append] at hm
              rcases hm with hm | hm | hm
              · exact Or.inl ⟨rel, hC m hm, rel, by simp, under_refl rel⟩
              · obtain ⟨f, _, rfl⟩ := hD m hm
                exact Or.inr ⟨rel ++ [f], rfl, rel, by simp, under_append rel [f]⟩
              · rcases hLm m hm with ⟨q, hq, p, hp, hu⟩ | ⟨q, hq, p, hp, hu⟩
                · refine Or.inl ⟨q, hq, ?_⟩
                  rcases List.mem_append.mp hp with hch | hr
                  · simp only [List.mem_map] at hch
                    obtain ⟨d, _, rfl⟩ := hch
                    exact ⟨rel, by simp, under_trans (under_append rel [d]) hu⟩
                  · exact ⟨p, by simp [hr], hu⟩
                · refine Or.inr ⟨q, hq, ?_⟩
                  rcases List.mem_append.mp hp with hch | hr
                  · simp only [List.mem_map] at hch
                    obtain ⟨d, _, rfl⟩ := hch
                    exact ⟨rel, by simp, under_trans (under_append rel [d]) hu⟩
                  · exact ⟨p, by simp [hr], hu⟩
            · refine createBeforeCopy_append ?_ hLc ?_
              · refine createBeforeCopy_append
                  (createBeforeCopy_of_no_copy ?_) (createBeforeCopy_of_no_create ?_) ?_
                · intro m hm q hq
                  rw [hC m hm] at hq
                  cases hq
                · intro m hm q hq
                  obtain ⟨f, _, rfl⟩ := hD m hm
                  cases hq
                · intro p2 f2 hmem
                  have := hC _ hmem
                  cases this
              · intro p2 f2 hmem hcre
                have hp2 : p2 = rel := by
                  rcases List.mem_append.mp hmem with hm | hm
                  · have := hC _ hm
                    cases this
                  · obtain ⟨g, _, hg⟩ := hD _ hm
                    have hpq : p2 ++ [f2] = rel ++ [g] := by
                      injection hg
                    exact (snoc_inj hpq).1
                subst hp2
                rcases hLm _ hcre with ⟨q, hq, p, hp, hu⟩ | ⟨q, hq, p, hp, hu⟩
                · cases hq
                  rcases List.mem_append.mp hp with hch | hr
                  · simp only [List.mem_map] at hch
                    obtain ⟨d, _, rfl⟩ := hch
                    rw [under_snoc_not_self] at hu
                    cases hu
                  · have h5 := ((List.pairwise_cons.mp hdisj).1 p hr).2
                    rw [h5] at hu
                    cases hu
                · cases hq

/-- C9 (amended): within one pass that completes without entering the
error handler, the emitted records form two blocks — first the directory
creations interleaved with the file copies, then all removals — and
inside the first block a directory's creation record never appears after
a copy into that directory (each directory is created, if needed, before
files are copied into it).  The strict three-phase claim fails
(`C9_counterexample`); the removals-last half and the
parent-before-child ordering hold. -/
theorem C9_ordered_phases {st st' : SyncState}
    (hwfS : optWfB st.source = true)
    (hok : syncOk st = true)
    (hrun : sync_folders st = st') :
    ∃ e1 e2, st'.log = st.log ++ e1 ++ e2 ∧
      (∀ m ∈ e1, isCreateMsg m = true ∨ isCopyMsg m = true) ∧
      (∀ m ∈ e2, isRemoveMsg m = true) ∧
      createBeforeCopy e1 := by
  unfold syncOk at hok
  cases hbody : syncBody st with
  | err e s =>
    rw [hbody] at hok
    cases hok
  | ok stf =>
    have hst' : st' = stf := by
      rw [← hrun]
      simp only [sync_folders, hbody]
    subst hst'
    unfold syncBody at hbody
    cases hE : ensureReplica st with
    | err e s1 =>
      rw [hE] at hbody
      cases hbody
    | ok st1 =>
      rw [hE] at hbody
      simp only [Res.bind] at hbody
      cases hF : fwdGo (wsize st1.source + 1) [[]] st1 with
      | err e s2 =>
        rw [hF] at hbody
        cases hbody
      | ok st2 =>
        rw [hF] at hbody
        simp only [Res.bind] at hbody
        have hSE := (ensureReplica_shape st).2
        rw [hE] at hSE
        simp only [Res.state] at hSE
        obtain ⟨E, hElog, hEm⟩ := hSE
        have hsrc1 : st1.source = st.source := by
          have := (ensureReplica_shape st).1
          rw [hE] at this
          exact this
        obtain ⟨L, hLlog, hLm, hLc⟩ :=
          fwdGo_ordered (by rw [hsrc1]; exact hwfS) (by simp) hF
        have hSR := (revGo_shape (wsize st2.replica + 1) [[]] st2).2
        rw [hbody] at hSR
        simp only [Res.state] at hSR
        obtain ⟨R, hRlog, hRm⟩ := hSR
        refine ⟨E ++ L, R, ?_, ?_, hRm, ?_⟩
        · rw [hRlog, hLlog, hElog]
          simp
        · intro m hm
          rcases List.mem_append.mp hm with hm | hm
          · exact Or.inl (hEm m hm)
          · rcases hLm m hm with ⟨q, rfl, -⟩ | ⟨q, rfl, -⟩
            · exact Or.inl rfl
            · exact Or.inr rfl
        · refine createBeforeCopy_append (createBeforeCopy_of_no_copy ?_) hLc ?_
          · intro m hm q hq
            have h5 := hEm m hm
            rw [hq] at h5
            cases h5
          · intro p f hmem hcre
            have h5 := hEm _ hmem
            cases h5

/-- Closed instance of `C9_ordered_phases` on a two-directory source. -/
theorem C9_ordered_phases_witness :
    ∃ e1 e2,
      (sync_folders ⟨some (.dir [("a", .dir [("f", .file "1")]), ("b", .dir [("g", .file "2")])]),
        none, [], []⟩).log = ([] : List LogMsg) ++ e1 ++ e2 ∧
      (∀ m ∈ e1, isCreateMsg m = true ∨ isCopyMsg m = true) ∧
      (∀ m ∈ e2, isRemoveMsg m = true) ∧
      createBeforeCopy e1 :=
  @C9_ordered_phases
    ⟨some (.dir [("a", .dir [("f", .file "1")]), ("b", .dir [("g", .file "2")])]), none, [], []⟩
    (sync_folders
      ⟨some (.dir [("a", .dir [("f", .file "1")]), ("b", .dir [("g", .file "2")])]), none, [], []⟩)
    (by decide) (by decide) rfl

/-! ## C10: a missing source root wipes the replica -/

theorem revGo_all_absent {fuel : Nat} {stack : List FsPath} {st : SyncState}
    (hrep : st.replica = none) (hfuel : stack.length < fuel) :
    revGo fuel stack st = .ok st := by
  induction fuel generalizing stack with
  | zero => cases hfuel
  | succ fuel ih =>
    cases stack with
    | nil => rfl
    | cons rel rest =>
      have hn : nodeAt st.replica rel = none := by
        rw [hrep]
        exact nodeAt_none rel
      rw [revGo, hn]
      exact ih (Nat.lt_of_succ_lt_succ hfuel)

theorem dirNames_length_le (es : List (String × Node)) :
    (dirNames es).length ≤ esize es := by
  induction es with
  | nil => simp [dirNames, esize]
  | cons e rest ih =>
    obtain ⟨k, n⟩ := e
    cases n with
    | file c =>
      have h1 : dirNames ((k, Node.file c) :: rest) = dirNames rest := by
        simp [dirNames, List.filterMap_cons]
      rw [h1]
      have h2 : esize ((k, Node.file c) :: rest) = 1 + esize rest := by
        simp [esize, Node.nsize]
      omega
    | dir sub =>
      have h1 : dirNames ((k, Node.dir sub) :: rest) = k :: dirNames rest := by
        simp [dirNames, List.filterMap_cons]
      have h2 : esize ((k, Node.dir sub) :: rest) = (1 + esize sub) + esize rest := by
        simp [esize, Node.nsize]
      rw [h1, h2]
      simp only [List.length_cons]
      omega

/-- C10: when the source root path does not exist and the replica root is
a directory with no direct file children, one pass removes the entire
replica tree with a single recursive removal of the replica root, logged
as an ordinary folder removal, and ends without error.  (With direct file
children in the replica root the pass still removes the whole tree but
ends in the error handler — `C10_counterexample` — because the file loop
runs after `shutil.rmtree`.) -/
theorem C10_root_removal {st : SyncState} {es : List (String × Node)}
    (hs : st.source = none) (hr : st.replica = some (.dir es))
    (hnf : fileNames es = []) :
    sync_folders st =
      { st with replica := none, log := st.log ++ [LogMsg.removedFolder []] } := by
  have hex : pathExists st.replica [] = true := by
    unfold pathExists
    rw [nodeAt_nil_path, hr]
    rfl
  have hE : ensureReplica st = .ok st := by
    rw [ensureReplica, hex, if_pos rfl]
  have hn : nodeAt st.source [] = none := by
    rw [nodeAt_nil_path, hs]
  have hF : fwdGo (wsize st.source + 1) [[]] st = .ok st := by
    rw [hs]
    show fwdGo 2 [[]] st = .ok st
    rw [fwdGo, hn]
    rfl
  have hd : dotExists st.source [] = false := by
    unfold dotExists isDirAt
    rw [hn]
  have hrm : rmtreeAt st.replica [] = .ok none := by
    rw [hr]
    rfl
  have hDS : reverseDirStep st [] (fileNames es) = .ok
      { st with replica := none, log := st.log ++ [LogMsg.removedFolder []] } := by
    rw [hnf]
    unfold reverseDirStep
    rw [hd]
    simp only [Bool.false_eq_true, if_false]
    rw [hrm]
    rfl
  have h2 : nodeAt st.replica [] = some (.dir es) := by
    rw [nodeAt_nil_path, hr]
  have hR : revGo (wsize st.replica + 1) [[]] st = .ok
      { st with replica := none, log := st.log ++ [LogMsg.removedFolder []] } := by
    rw [hr]
    show revGo (Node.nsize (.dir es) + 1) [[]] st = _
    rw [revGo, h2]
    show Res.bind (reverseDirStep st [] (fileNames es))
      (revGo (Node.dir es).nsize ((dirNames es).map (fun d => [] ++ [d]) ++ [])) = _
    rw [hDS]
    simp only [Res.bind]
    refine revGo_all_absent rfl ?_
    simp only [List.append_nil, List.length_map]
    show (dirNames es).length < Node.nsize (.dir es)
    have h3 := dirNames_length_le es
    simp only [Node.nsize]
    omega
  unfold sync_folders syncBody
  rw [hE]
  simp only [Res.bind]
  rw [hF]
  simp only [Res.bind]
  rw [hR]

/-- Closed instance of `C10_root_removal`: replica root holding one
subdirectory with a nested file, source root absent. -/
theorem C10_root_removal_witness :
    sync_folders ⟨none, some (.dir [("d", .dir [("g", .file "x")])]), [], []⟩ =
      { source := none, replica := none, md5_cache := [],
        log := [] ++ [LogMsg.removedFolder []] } :=
  @C10_root_removal ⟨none, some (.dir [("d", .dir [("g", .file "x")])]), [], []⟩
    [("d", Node.dir [("g", Node.file "x")])] rfl rfl rfl

/-! ## C2: a second pass after a clean first pass -/

theorem stackMeasure_cons (t : Option Node) (p : FsPath) (rest : List FsPath) :
    stackMeasure t (p :: rest) = wsize (nodeAt t p) + stackMeasure t rest := by
  simp [stackMeasure]

theorem stackMeasure_append (t : Option Node) (a b : List FsPath) :
    stackMeasure t (a ++ b) = stackMeasure t a + stackMeasure t b := by
  simp [stackMeasure]

theorem dir_children_sizes_le {es : List (String × Node)}
    (hnd : namesNodupB (es.map Prod.fst) = true) :
    ((dirNames es).map (fun d => wsize (lookupEntry es d))).sum ≤ esize es := by
  induction es with
  | nil => simp [dirNames, esize]
  | cons e rest ih =>
    obtain ⟨k, n⟩ := e
    simp only [List.map_cons, namesNodupB, Bool.and_eq_true, Bool.not_eq_true'] at hnd
    obtain ⟨hk, hnd2⟩ := hnd
    have hrest : ∀ d ∈ dirNames rest,
        wsize (lookupEntry ((k, n) :: rest) d) = wsize (lookupEntry rest d) := by
      intro d hd
      have hdn : d ∈ rest.map Prod.fst := by
        simp only [dirNames, List.mem_filterMap] at hd
        obtain ⟨⟨k2, n2⟩, hmem, heq⟩ := hd
        cases n2 with
        | file c => cases heq
        | dir sub =>
          simp only at heq
          cases heq
          exact List.mem_map.mpr ⟨(d, Node.dir sub), hmem, rfl⟩
      have hdk : ¬ (k = d) := by
        intro hh
        subst hh
        rw [(memB_iff).mpr hdn] at hk
        cases hk
      simp [lookupEntry, hdk]
    cases n with
    | file c =>
      have h1 : dirNames ((k, Node.file c) :: rest) = dirNames rest := by
        simp [dirNames, List.filterMap_cons]
      have h3 : esize ((k, Node.file c) :: rest) = 1 + esize rest := by
        simp [esize, Node.nsize]
      rw [h1, List.map_congr_left hrest, h3]
      have h2 := ih hnd2
      omega
    | dir sub =>
      have h1 : dirNames ((k, Node.dir sub) :: rest) = k :: dirNames rest := by
        simp [dirNames, List.filterMap_cons]
      have h3 : esize ((k, Node.dir sub) :: rest) = Node.nsize (Node.dir sub) + esize rest := by
        simp [esize]
      have hk1 : lookupEntry ((k, Node.dir sub) :: rest) k = some (Node.dir sub) := by
        simp [lookupEntry]
      rw [h1]
      simp only [List.map_cons, List.sum_cons]
      rw [hk1, List.map_congr_left hrest, h3]
      have h2 := ih hnd2
      have h4 : wsize (some (Node.dir sub)) = Node.nsize (Node.dir sub) := rfl
      omega

theorem children_measure_le {t : Option Node} {rel : FsPath} {es : List (String × Node)}
    (hwf : Node.wfB (.dir es) = true) (hn : nodeAt t rel = some (.dir es)) :
    stackMeasure t ((dirNames es).map (fun d => rel ++ [d])) ≤ esize es := by
  have hnd : namesNodupB (es.map Prod.fst) = true := by
    simp only [Node.wfB, Bool.and_eq_true] at hwf
    exact hwf.1
  have h1 : stackMeasure t ((dirNames es).map (fun d => rel ++ [d])) =
      ((dirNames es).map (fun d => wsize (lookupEntry es d))).sum := by
    unfold stackMeasure
    rw [List.map_map]
    congr 1
    refine List.map_congr_left ?_
    intro d hd
    simp only [Function.comp]
    rw [nodeAt_append, hn, nodeAt_dir_cons, nodeAt_nil_path]
  rw [h1]
  exact dir_children_sizes_le hnd

theorem forwardFileStep_quiet {st : SyncState} {rel : FsPath} {f : String} {c : String}
    (hsrc : fileAt st.source (rel ++ [f]) = some c)
    (hrep : fileAt st.replica (rel ++ [f]) = some c)
    (hsOK : srcCacheOK st) (hrOK : ∀ p, repKeyOK st p) :
    ∃ st1, forwardFileStep st rel f = .ok st1 ∧ st1.source = st.source ∧
      st1.replica = st.replica ∧ st1.log = st.log ∧
      srcCacheOK st1 ∧ (∀ p, repKeyOK st1 p) := by
  have hex : pathExists st.replica (rel ++ [f]) = true := by
    rw [pathExists_iff]
    rw [fileAt_eq_some] at hrep
    rw [hrep]
    simp
  obtain ⟨c1, h1, hc1⟩ :=
    @calculate_md5_of_fileAt st.source st.md5_cache .src (rel ++ [f]) c hsrc
      (fun d hd => hsOK _ d hd)
  have hrOK1 : ∀ d, cLookup c1 (.rep, rel ++ [f]) = some d →
      fileAt st.replica (rel ++ [f]) = some d := by
    intro d hd
    rcases hc1 with rfl | rfl
    · exact hrOK _ d hd
    · rw [cLookup_cons_ne _ _ (by simp)] at hd
      exact hrOK _ d hd
  obtain ⟨c2, h2, hc2⟩ :=
    @calculate_md5_of_fileAt st.replica c1 .rep (rel ++ [f]) c hrep hrOK1
  refine ⟨{ st with md5_cache := c2 }, ?_, rfl, rfl, rfl, ?_, ?_⟩
  · rw [forwardFileStep, hex, if_pos rfl]
    simp only [h1, h2]
    rw [if_neg (show ¬ ((some c : Option String) ≠ some c) from fun h => h rfl)]
  · intro p d hd
    show fileAt st.source p = some d
    have hd1 : cLookup c1 (.src, p) = some d → fileAt st.source p = some d := by
      intro hd1
      rcases hc1 with rfl | rfl
      · exact hsOK p d hd1
      · by_cases hp : p = rel ++ [f]
        · subst hp
          rw [cLookup_cons_self] at hd1
          cases hd1
          exact hsrc
        · rw [cLookup_cons_ne _ _ (fun hh => by cases hh; exact hp rfl)] at hd1
          exact hsOK p d hd1
    rcases hc2 with rfl | rfl
    · exact hd1 hd
    · rw [cLookup_cons_ne _ _ (by simp)] at hd
      exact hd1 hd
  · intro p d hd
    show fileAt st.replica p = some d
    have hd1 : cLookup c1 (.rep, p) = some d → fileAt st.replica p = some d := by
      intro hd1
      rcases hc1 with rfl | rfl
      · exact hrOK p d hd1
      · rw [cLookup_cons_ne _ _ (by simp)] at hd1
        exact hrOK p d hd1
    rcases hc2 with rfl | rfl
    · exact hd1 hd
    · by_cases hp : p = rel ++ [f]
      · subst hp
        rw [cLookup_cons_self] at hd
        cases hd
        exact hrep
      · rw [cLookup_cons_ne _ _ (fun hh => by cases hh; exact hp rfl)] at hd
        exact hd1 hd

theorem forwardFiles_quiet {rel : FsPath} {fs : List String} {st : SyncState}
    (hms : ∀ f ∈ fs, ∃ c, fileAt st.source (rel ++ [f]) = some c ∧
      fileAt st.replica (rel ++ [f]) = some c)
    (hsOK : srcCacheOK st) (hrOK : ∀ p, repKeyOK st p) :
    ∃ st1, forwardFiles rel fs st = .ok st1 ∧ st1.source = st.source ∧
      st1.replica = st.replica ∧ st1.log = st.log ∧
      srcCacheOK st1 ∧ (∀ p, repKeyOK st1 p) := by
  induction fs generalizing st with
  | nil => exact ⟨st, rfl, rfl, rfl, rfl, hsOK, hrOK⟩
  | cons f fs ih =>
    obtain ⟨c, hc1, hc2⟩ := hms f (by simp)
    obtain ⟨stm, hstep, hs1, hr1, hl1, hsOK1, hrOK1⟩ :=
      forwardFileStep_quiet hc1 hc2 hsOK hrOK
    have hms1 : ∀ g ∈ fs, ∃ c', fileAt stm.source (rel ++ [g]) = some c' ∧
        fileAt stm.replica (rel ++ [g]) = some c' := by
      intro g hg
      obtain ⟨c', d1, d2⟩ := hms g (by simp [hg])
      exact ⟨c', by rw [hs1]; exact d1, by rw [hr1]; exact d2⟩
    obtain ⟨st1, hrest, e1, e2, e3, e4, e5⟩ := ih hms1 hsOK1 hrOK1
    refine ⟨st1, ?_, by rw [e1, hs1], by rw [e2, hr1], by rw [e3, hl1], e4, e5⟩
    show Res.bind (forwardFileStep st rel f) (forwardFiles rel fs) = .ok st1
    rw [hstep]
    simp only [Res.bind]
    exact hrest

theorem forwardDirStep_quiet {st : SyncState} {rel : FsPath} {files : List String}
    (hde : dotExists st.replica rel = true)
    (hms : ∀ f ∈ files, ∃ c, fileAt st.source (rel ++ [f]) = some c ∧
      fileAt st.replica (rel ++ [f]) = some c)
    (hsOK : srcCacheOK st) (hrOK : ∀ p, repKeyOK st p) :
    ∃ st1, forwardDirStep st rel files = .ok st1 ∧ st1.source = st.source ∧
      st1.replica = st.replica ∧ st1.log = st.log ∧
      srcCacheOK st1 ∧ (∀ p, repKeyOK st1 p) := by
  obtain ⟨st1, h1, e1, e2, e3, e4, e5⟩ := forwardFiles_quiet hms hsOK hrOK
  refine ⟨st1, ?_, e1, e2, e3, e4, e5⟩
  unfold forwardDirStep
  rw [hde, if_pos rfl]
  simp only [Res.bind]
  exact h1

theorem fwdGo_quiet {fuel : Nat} {stack : List FsPath} {st : SyncState}
    (hwfS : optWfB st.source = true)
    (hsOK : srcCacheOK st) (hrOK : ∀ p, repKeyOK st p)
    (hmf : ∀ p c, fileAt st.source p = some c → fileAt st.replica p = some c)
    (hmd : ∀ rel, isDirAt st.source rel = true → dotExists st.replica rel = true)
    (hfuel : stackMeasure st.source stack < fuel) :
    ∃ st', fwdGo fuel stack st = .ok st' ∧ st'.source = st.source ∧
      st'.replica = st.replica ∧ st'.log = st.log := by
  induction fuel generalizing stack st with
  | zero => exact absurd hfuel (by omega)
  | succ fuel ih =>
    cases stack with
    | nil => exact ⟨st, rfl, rfl, rfl, rfl⟩
    | cons rel rest =>
      have hmc := stackMeasure_cons st.source rel rest
      cases hn : nodeAt st.source rel with
      | none =>
        have hf1 : stackMeasure st.source rest < fuel := by
          rw [hn] at hmc
          have : wsize none = 1 := rfl
          omega
        obtain ⟨st', h1, h2, h3, h4⟩ := ih hwfS hsOK hrOK hmf hmd hf1
        refine ⟨st', ?_, h2, h3, h4⟩
        rw [fwdGo, hn]
        exact h1
      | some n =>
        cases n with
        | file c =>
          have hf1 : stackMeasure st.source rest < fuel := by
            rw [hn] at hmc
            have : wsize (some (Node.file c)) = 1 := rfl
            omega
          obtain ⟨st', h1, h2, h3, h4⟩ := ih hwfS hsOK hrOK hmf hmd hf1
          refine ⟨st', ?_, h2, h3, h4⟩
          rw [fwdGo, hn]
          exact h1
        | dir es =>
          have hwfd : Node.wfB (.dir es) = true := wfB_nodeAt hwfS hn
          have hde : dotExists st.replica rel = true := by
            refine hmd rel ?_
            rw [isDirAt_iff]
            exact ⟨es, hn⟩
          have hms : ∀ f ∈ fileNames es, ∃ c, fileAt st.source (rel ++ [f]) = some c ∧
              fileAt st.replica (rel ++ [f]) = some c := by
            intro f hf
            obtain ⟨c, hc⟩ := fileNames_lookup hwfd hf
            have hsc : fileAt st.source (rel ++ [f]) = some c := by
              rw [fileAt_eq_some, nodeAt_append, hn, nodeAt_dir_cons, hc, nodeAt_nil_path]
            exact ⟨c, hsc, hmf _ c hsc⟩
          obtain ⟨st1, hb, e1, e2, e3, e4, e5⟩ := forwardDirStep_quiet hde hms hsOK hrOK
          have hf1 : stackMeasure st1.source ((dirNames es).map (fun d => rel ++ [d]) ++ rest)
              < fuel := by
            rw [e1, stackMeasure_append]
            have hch := children_measure_le hwfd hn
            rw [hn] at hmc
            have hw : wsize (some (Node.dir es)) = 1 + esize es := rfl
            omega
          obtain ⟨st', hgo, g1, g2, g3⟩ := ih (by rw [e1]; exact hwfS) e4 e5
            (by rw [e1, e2]; exact hmf) (by rw [e1, e2]; exact hmd) hf1
          refine ⟨st', ?_, by rw [g1, e1], by rw [g2, e2], by rw [g3, e3]⟩
          rw [fwdGo, hn]
          show Res.bind (forwardDirStep st rel (fileNames es))
            (fwdGo fuel ((dirNames es).map (fun d => rel ++ [d]) ++ rest)) = .ok st'
          rw [hb]
          simp only [Res.bind]
          exact hgo

theorem reverseFiles_quiet {rel : FsPath} {fs : List String} {st : SyncState}
    (h : ∀ f ∈ fs, pathExists st.source (rel ++ [f]) = true) :
    reverseFiles rel fs st = .ok st := by
  induction fs with
  | nil => rfl
  | cons f fs ih =>
    show Res.bind (reverseFileStep st rel f) (reverseFiles rel fs) = .ok st
    rw [reverseFileStep, h f (by simp), if_pos rfl]
    simp only [Res.bind]
    exact ih (fun g hg => h g (by simp [hg]))

theorem reverseDirStep_quiet {st : SyncState} {rel : FsPath} {files : List String}
    (hde : dotExists st.source rel = true)
    (h : ∀ f ∈ files, pathExists st.source (rel ++ [f]) = true) :
    reverseDirStep st rel files = .ok st := by
  unfold reverseDirStep
  rw [hde, if_pos rfl]
  simp only [Res.bind]
  exact reverseFiles_quiet h

theorem revGo_quiet {fuel : Nat} {stack : List FsPath} {st : SyncState}
    (hwfR : optWfB st.replica = true)
    (hmr : ∀ q, pathExists st.replica q = true → pathExists st.source q = true)
    (hsd : isDirAt st.source [] = true)
    (hfuel : stackMeasure st.replica stack < fuel) :
    revGo fuel stack st = .ok st := by
  induction fuel generalizing stack with
  | zero => exact absurd hfuel (by omega)
  | succ fuel ih =>
    cases stack with
    | nil => rfl
    | cons rel rest =>
      have hmc := stackMeasure_cons st.replica rel rest
      cases hn : nodeAt st.replica rel with
      | none =>
        rw [revGo, hn]
        refine ih ?_
        rw [hn] at hmc
        have : wsize none = 1 := rfl
        omega
      | some n =>
        cases n with
        | file c =>
          rw [revGo, hn]
          refine ih ?_
          rw [hn] at hmc
          have : wsize (some (Node.file c)) = 1 := rfl
          omega
        | dir es =>
          have hwfd : Node.wfB (.dir es) = true := wfB_nodeAt hwfR hn
          have hdot : dotExists st.source rel = true := by
            cases rel with
            | nil => exact hsd
            | cons a r =>
              show pathExists st.source (a :: r) = true
              refine hmr _ ?_
              rw [pathExists_iff, hn]
              simp
          have hfiles : ∀ f ∈ fileNames es, pathExists st.source (rel ++ [f]) = true := by
            intro f hf
            refine hmr _ ?_
            obtain ⟨c, hc⟩ := fileNames_lookup hwfd hf
            rw [pathExists_iff, nodeAt_append, hn, nodeAt_dir_cons, hc, nodeAt_nil_path]
            simp
          rw [revGo, hn]
          show Res.bind (reverseDirStep st rel (fileNames es))
            (revGo fuel ((dirNames es).map (fun d => rel ++ [d]) ++ rest)) = .ok st
          rw [reverseDirStep_quiet hdot hfiles]
          simp only [Res.bind]
          refine ih ?_
          rw [stackMeasure_append]
          have hch := children_measure_le hwfd hn
          rw [hn] at hmc
          have hw : wsize (some (Node.dir es)) = 1 + esize es := rfl
          omega

theorem fileAt_empty_dir (q : FsPath) : fileAt (some (Node.dir [])) q = none := by
  cases q with
  | nil => rfl
  | cons a r =>
    unfold fileAt
    rw [nodeAt_dir_cons]
    show (match nodeAt (lookupEntry [] a) r with
      | some (Node.file c) => some c
      | _ => none) = none
    rw [show lookupEntry [] a = none from rfl, nodeAt_none]

/-- C2 (amended): after a first pass that completes without entering the
error handler, starting from an empty digest cache, on roots that are
directories or absent with the source root a directory, and in which no
copy overwrote a file already present in the replica, an immediately
following second pass performs no filesystem mutation and emits no log
record (it only warms the digest cache).  Without the no-overwrite
proviso the claim is false: an overwritten replica file leaves its stale
digest in the cache and is re-copied by every later pass
(`C2_counterexample`). -/
theorem C2_second_pass_quiet {st st' : SyncState}
    (hwfS : optWfB st.source = true)
    (hwfR : optWfB st.replica = true)
    (hsd : isDirAt st.source [] = true)
    (hrr : rootNotFileB st.replica = true)
    (hcache : st.md5_cache = [])
    (hok : syncOk st = true)
    (hrun : sync_folders st = st')
    (hnov : noOverwriteB st.replica st'.log = true) :
    (sync_folders st').replica = st'.replica ∧
    (sync_folders st').log = st'.log := by
  have hsr : rootNotFileB st.source = true := by
    obtain ⟨es0, hes0⟩ := isDirAt_iff.mp hsd
    rw [nodeAt_nil_path] at hes0
    rw [hes0]
    rfl
  unfold syncOk at hok
  cases hbody : syncBody st with
  | err e s =>
    rw [hbody] at hok
    cases hok
  | ok stf =>
    have hst' : st' = stf := by
      rw [← hrun]
      simp only [sync_folders, hbody]
    subst hst'
    unfold syncBody at hbody
    cases hE : ensureReplica st with
    | err e s1 =>
      rw [hE] at hbody
      cases hbody
    | ok st1 =>
      rw [hE] at hbody
      simp only [Res.bind] at hbody
      cases hF : fwdGo (wsize st1.source + 1) [[]] st1 with
      | err e s2 =>
        rw [hF] at hbody
        cases hbody
      | ok st2 =>
        rw [hF] at hbody
        simp only [Res.bind] at hbody
        -- the replica-root creation step
        have hEfacts : st1.source = st.source ∧ st1.md5_cache = st.md5_cache ∧
            isDirAt st1.replica [] = true ∧ optWfB st1.replica = true ∧
            (∀ q, fileAt st1.replica q = fileAt st.replica q) := by
          unfold ensureReplica at hE
          by_cases hre : pathExists st.replica [] = true
          · rw [if_pos hre] at hE
            cases hE
            refine ⟨rfl, rfl, ?_, hwfR, fun q => rfl⟩
            unfold pathExists at hre
            rw [nodeAt_nil_path] at hre
            cases hrep0 : st.replica with
            | none => rw [hrep0] at hre; cases hre
            | some n =>
              cases n with
              | file c =>
                rw [hrep0] at hrr
                cases hrr
              | dir es =>
                unfold isDirAt
                rw [nodeAt_nil_path]
          · rw [if_neg hre] at hE
            have hrepn : st.replica = none := by
              cases hrep0 : st.replica with
              | none => rfl
              | some n =>
                exfalso
                apply hre
                unfold pathExists
                rw [nodeAt_nil_path, hrep0]
                rfl
            rw [hrepn] at hE
            simp only [makedirs, mkChain] at hE
            cases hE
            refine ⟨rfl, rfl, rfl, rfl, ?_⟩
            intro q
            show fileAt (some (Node.dir [])) q = fileAt st.replica q
            rw [fileAt_empty_dir, hrepn, show fileAt none q = none from by cases q <;> rfl]
        obtain ⟨E1, E2, E3, E4, E5⟩ := hEfacts
        -- the forward pass
        have hsOK1 : srcCacheOK st1 := by
          intro p d hd
          rw [E2, hcache] at hd
          cases hd
        have hstack1 : ∀ p ∈ [([] : FsPath)],
            nodeAt st1.source p = none ∨ ∃ es, nodeAt st1.source p = some (.dir es) := by
          intro p hp
          simp only [List.mem_singleton] at hp
          subst hp
          rw [nodeAt_nil_path, E1]
          obtain ⟨es0, hes0⟩ := isDirAt_iff.mp hsd
          rw [nodeAt_nil_path] at hes0
          exact Or.inr ⟨es0, hes0⟩
        have hrep1 : ∀ p ∈ [([] : FsPath)], ∀ q, under p q = true → repKeyOK st1 q := by
          intro p _ q _ d hd
          rw [E2, hcache] at hd
          cases hd
        obtain ⟨F1, F2, F3, F4, F5, F6, F7, F8, F9, F10⟩ :=
          fwdGo_ok_main (by rw [E1]; exact hwfS) hsOK1 hstack1 (by simp) hrep1 hF
        -- the reverse pass
        have hstack2 : ∀ p ∈ [([] : FsPath)],
            nodeAt st2.replica p = none ∨ ∃ es, nodeAt st2.replica p = some (.dir es) := by
          intro p hp
          simp only [List.mem_singleton] at hp
          subst hp
          have hd2 := F10 [] E3
          rw [isDirAt_iff] at hd2
          obtain ⟨es, hes⟩ := hd2
          exact Or.inr ⟨es, hes⟩
        obtain ⟨R1, R2, R3, R4, R5, R6⟩ :=
          revGo_ok_main (by rw [F1, E1]; exact hsr) (F8 E4) hstack2 hbody
        have hRshape := (revGo_shape (wsize st2.replica + 1) [[]] st2).2
        rw [hbody] at hRshape
        simp only [Res.state] at hRshape
        obtain ⟨R7, hR7log, -⟩ := hRshape
        -- the final state of the first pass, observed
        have hsrc' : st'.source = st.source := by rw [R1, F1, E1]
        have hcOK : srcCacheOK st' := by
          intro p d hd
          rw [R2] at hd
          have := F5 p d hd
          rwa [F1, E1, ← hsrc'] at this
        have hrOK : ∀ p, repKeyOK st' p := by
          intro p d hd
          rw [R2] at hd
          rcases F6 p d hd with hold | ⟨-, ⟨c, hcfs⟩, hrest⟩
          · rw [E2, hcache] at hold
            cases hold
          · have hpe2 : pathExists st2.source p = true := by
              rw [F1]
              rw [fileAt_eq_some] at hcfs
              rw [pathExists_iff, hcfs]
              simp
            have hkeep := R4 p hpe2
            rcases hrest with hacc | ⟨hcp, hne⟩
            · rw [fileAt_eq_of_view_eq hkeep]
              exact hacc
            · exfalso
              have hmem : LogMsg.copiedFile p ∈ st'.log := by
                rw [hR7log]
                exact List.mem_append.mpr (Or.inl hcp)
              have hmatch := List.all_eq_true.mp hnov _ hmem
              simp only [Option.isNone_iff_eq_none] at hmatch
              rw [E5 p, hmatch] at hne
              exact hne rfl
        have hmfile : ∀ p c, fileAt st'.source p = some c → fileAt st'.replica p = some c := by
          intro p c hc
          rw [hsrc'] at hc
          have hc2 : fileAt st2.replica p = some c :=
            F2 [] (by simp) p c rfl (by rw [E1]; exact hc)
          have hpe2 : pathExists st2.source p = true := by
            rw [F1, E1]
            rw [fileAt_eq_some] at hc
            rw [pathExists_iff, hc]
            simp
          rw [fileAt_eq_of_view_eq (R4 p hpe2)]
          exact hc2
        have hmdot : ∀ rel, isDirAt st'.source rel = true →
            dotExists st'.replica rel = true := by
          intro rel hdir
          rw [hsrc'] at hdir
          have hpe2 : pathExists st2.source rel = true := by
            rw [F1, E1]
            rw [isDirAt_iff] at hdir
            obtain ⟨es, hes⟩ := hdir
            rw [pathExists_iff, hes]
            simp
          have hkeep := R4 rel hpe2
          cases rel with
          | nil =>
            show isDirAt st'.replica [] = true
            rw [isDirAt_eq_of_view_eq hkeep]
            exact F10 [] E3
          | cons a r =>
            show pathExists st'.replica (a :: r) = true
            rw [pathExists_eq_of_view_eq hkeep]
            exact F4 [] (by simp) (a :: r) rfl (by rw [E1]; exact hdir)
        have hmr : ∀ q, pathExists st'.replica q = true → pathExists st'.source q = true := by
          intro q hq
          have := R5 [] (by simp) q rfl hq
          rwa [← R1] at this
        have hsd' : isDirAt st'.source [] = true := by
          rw [hsrc']
          exact hsd
        have hwfS' : optWfB st'.source = true := by
          rw [hsrc']
          exact hwfS
        -- the second pass
        have hex2 : pathExists st'.replica [] = true := by
          have hd2 : isDirAt st'.replica [] = true := hmdot [] hsd'
          rw [isDirAt_iff] at hd2
          obtain ⟨es, hes⟩ := hd2
          rw [pathExists_iff, hes]
          simp
        have hE2 : ensureReplica st' = .ok st' := by
          rw [ensureReplica, hex2, if_pos rfl]
        have hfuel1 : stackMeasure st'.source [[]] < wsize st'.source + 1 := by
          simp [stackMeasure, nodeAt_nil_path]
        obtain ⟨stq, hgo, q1, q2, q3⟩ :=
          fwdGo_quiet hwfS' hcOK hrOK hmfile hmdot hfuel1
        have hrev : revGo (wsize stq.replica + 1) [[]] stq = .ok stq := by
          refine revGo_quiet (by rw [q2]; exact R6) ?_ (by rw [q1]; exact hsd') ?_
          · intro q hq
            rw [q1]
            refine hmr q ?_
            rwa [q2] at hq
          · simp [stackMeasure, nodeAt_nil_path]
        have hbody2 : syncBody st' = .ok stq := by
          unfold syncBody
          rw [hE2]
          simp only [Res.bind]
          rw [hgo]
          simp only [Res.bind]
          exact hrev
        unfold sync_folders
        rw [hbody2]
        exact ⟨q2, q3⟩

/-- Closed instance of `C2_second_pass_quiet` on a one-file source and
an initially absent replica (the first pass copies the file fresh, so no
overwrite occurs). -/
theorem C2_second_pass_quiet_witness :
    (sync_folders (sync_folders ⟨some (.dir [("a", .file "x")]), none, [], []⟩)).replica =
      (sync_folders ⟨some (.dir [("a", .file "x")]), none, [], []⟩).replica ∧
    (sync_folders (sync_folders ⟨some (.dir [("a", .file "x")]), none, [], []⟩)).log =
      (sync_folders ⟨some (.dir [("a", .file "x")]), none, [], []⟩).log :=
  @C2_second_pass_quiet ⟨some (.dir [("a", .file "x")]), none, [], []⟩
    (sync_folders ⟨some (.dir [("a", .file "x")]), none, [], []⟩)
    (by decide) (by decide) (by decide) (by decide) rfl (by decide) rfl (by decide)
